import Mathlib

/-!
Verification of the storage / indexing / iteration core of the uecs
entity-component-system engine.

The development shallowly embeds the TypeScript sources:
  * `SparseSet` (src/unnamed/part_001),
  * `IdPool` (src/src/IdPool.ts),
  * the generic trie with subsequence enumeration and its reusable
    iterator (src/src/trie.ts),
  * `IndexBase`, the version-counter part of `IndexIteratorBase`, and
    `World` with its public operations (src/unnamed/part_000, second
    module).

Modelling conventions, used throughout:
  * JS numbers holding entity ids are modelled as `Int` (ids can be the
    reserved values -1 and -2); array indices and sizes as `Nat`.
  * Component classes are identified by their nominal type name
    (`constructor.name` in the source).  Names are opaque keys sorted by
    the JS string order; they are modelled as `Nat` with its linear
    order.
  * JS `Map` objects and plain objects used as dictionaries are
    modelled as association lists in insertion order, with JS `Map`
    update semantics (`aset` replaces in place, `adel` deletes).
  * JS `Set` objects are modelled as duplicate-free lists in insertion
    order (`setAdd` appends only when absent).
  * Component lifecycle hooks (`added`, `removed`, `free`) are external
    user code; they are modelled as inert (they do not mutate the
    world).  Whether a component has a `free` hook is kept as a flag so
    that `destroy` can collect its `free`-list faithfully.
  * Code that throws is modelled with `Except` (the thrown error as
    `.error`); operations that mutate `this` before throwing return the
    mutated state alongside the error, mirroring a JS exception
    propagating out of a mutated object.
-/

/-! ## Association lists (JS `Map` / object-as-dictionary) -/

/-- First binding of key `k`, like `Map.get` / `obj[k]`. -/
def aget {K V : Type} [DecidableEq K] (l : List (K × V)) (k : K) : Option V :=
  match l with
  | [] => none
  | (k', v) :: rest => if k' = k then some v else aget rest k

/-- `Map.set` / `obj[k] = v`: replace the first binding in place, else append. -/
def aset {K V : Type} [DecidableEq K] (l : List (K × V)) (k : K) (v : V) : List (K × V) :=
  match l with
  | [] => [(k, v)]
  | (k', v') :: rest => if k' = k then (k, v) :: rest else (k', v') :: aset rest k v

/-- `Map.delete` / `delete obj[k]`: drop every binding of `k` (at most one on
well-keyed lists). -/
def adel {K V : Type} [DecidableEq K] (l : List (K × V)) (k : K) : List (K × V) :=
  l.filter (fun kv => kv.1 ≠ k)

theorem aget_aset {K V : Type} [DecidableEq K] (l : List (K × V)) (k k' : K) (v : V) :
    aget (aset l k v) k' = if k = k' then some v else aget l k' := by
  induction l with
  | nil => by_cases h : k = k' <;> simp [aset, aget, h]
  | cons kv rest ih =>
    obtain ⟨k₀, v₀⟩ := kv
    by_cases h₀ : k₀ = k
    · by_cases h : k = k' <;> simp [aset, aget, h₀, h]
    · simp only [aset, if_neg h₀, aget]
      by_cases h₁ : k₀ = k'
      · have : ¬ k = k' := fun hk => h₀ (h₁ ▸ hk ▸ rfl)
        simp [aget, h₁, this]
      · simp [aget, h₁, ih]

theorem aget_adel {K V : Type} [DecidableEq K] (l : List (K × V)) (k k' : K) :
    aget (adel l k) k' = if k = k' then none else aget l k' := by
  induction l with
  | nil => by_cases h : k = k' <;> simp [adel, aget, h]
  | cons kv rest ih =>
    obtain ⟨k₀, v₀⟩ := kv
    by_cases h₀ : k₀ = k
    · subst h₀
      have hdrop : adel ((k₀, v₀) :: rest) k₀ = adel rest k₀ := by
        simp [adel, List.filter_cons]
      rw [hdrop, ih]
      by_cases h : k₀ = k' <;> simp [aget, h]
    · have hkeep : adel ((k₀, v₀) :: rest) k = (k₀, v₀) :: adel rest k := by
        simp [adel, List.filter_cons, h₀]
      rw [hkeep]
      by_cases h₁ : k₀ = k'
      · subst h₁
        simp [aget, (show ¬ k = k₀ from fun hh => h₀ hh.symm)]
      · simp [aget, h₁, ih]

theorem adel_of_aget_none {K V : Type} [DecidableEq K] (l : List (K × V)) (k : K)
    (h : aget l k = none) : adel l k = l := by
  induction l with
  | nil => rfl
  | cons kv rest ih =>
    obtain ⟨k₀, v₀⟩ := kv
    simp only [aget] at h
    by_cases h₀ : k₀ = k
    · simp [h₀] at h
    · simp only [if_neg h₀] at h
      simp [adel, List.filter, h₀, ih h] at ih ⊢
      exact ih h

/-! ## JS `Set` as an insertion-ordered duplicate-free list -/

/-- `Set.add`: append when absent, otherwise keep. -/
def setAdd {α : Type} [DecidableEq α] (l : List α) (a : α) : List α :=
  if a ∈ l then l else l ++ [a]

/-- `Set.delete`: remove the element. -/
def setDel {α : Type} [DecidableEq α] (l : List α) (a : α) : List α :=
  l.filter (fun x => x ≠ a)

theorem mem_setAdd {α : Type} [DecidableEq α] (l : List α) (a b : α) :
    b ∈ setAdd l a ↔ b ∈ l ∨ b = a := by
  unfold setAdd
  by_cases h : a ∈ l
  · simp only [if_pos h]
    constructor
    · exact Or.inl
    · rintro (hb | rfl); exact hb; exact h
  · simp [if_neg h]

theorem mem_setDel {α : Type} [DecidableEq α] (l : List α) (a b : α) :
    b ∈ setDel l a ↔ b ∈ l ∧ b ≠ a := by
  simp [setDel]

theorem setAdd_length_of_not_mem {α : Type} [DecidableEq α] (l : List α) (a : α)
    (h : a ∉ l) : (setAdd l a).length = l.length + 1 := by
  simp [setAdd, h]

/-! ## Stable insertion sort

`Array.prototype.sort` in the source sorts component type names with the
default string comparator; any stable comparison sort realises it.  The
embedding uses a structurally recursive insertion sort so that concrete
runs reduce inside the kernel. -/

/-- Insert `x` before the first element strictly greater than it. -/
def insLe (x : Nat) : List Nat → List Nat
  | [] => [x]
  | y :: ys => if y ≤ x then y :: insLe x ys else x :: y :: ys

/-- Stable sort by `≤` (models JS `Array.prototype.sort`). -/
def sortLe (l : List Nat) : List Nat :=
  l.foldr insLe []

theorem perm_insLe (x : Nat) (l : List Nat) : List.Perm (insLe x l) (x :: l) := by
  induction l with
  | nil => rfl
  | cons y ys ih =>
    unfold insLe
    by_cases h : y ≤ x
    · simp only [if_pos h]
      exact ((ih.cons y).trans (List.Perm.swap x y ys))
    · simp [if_neg h]

theorem perm_sortLe (l : List Nat) : List.Perm (sortLe l) l := by
  induction l with
  | nil => rfl
  | cons y ys ih =>
    exact (perm_insLe y (sortLe ys)).trans (ih.cons y)

theorem mem_sortLe (l : List Nat) (a : Nat) : a ∈ sortLe l ↔ a ∈ l :=
  (perm_sortLe l).mem_iff

theorem sorted_insLe (x : Nat) (l : List Nat) (h : l.Sorted (· ≤ ·)) :
    (insLe x l).Sorted (· ≤ ·) := by
  induction l with
  | nil => simp [insLe]
  | cons y ys ih =>
    rw [List.sorted_cons] at h
    obtain ⟨hy, hys⟩ := h
    unfold insLe
    by_cases hyx : y ≤ x
    · simp only [if_pos hyx]
      rw [List.sorted_cons]
      refine ⟨?_, ih hys⟩
      intro b hb
      rcases List.mem_cons.mp ((perm_insLe x ys).mem_iff.mp hb) with hb | hb
      · exact hb ▸ hyx
      · exact hy b hb
    · simp only [if_neg hyx]
      rw [List.sorted_cons]
      have hxy : x ≤ y := le_of_lt (lt_of_not_le hyx)
      refine ⟨?_, List.sorted_cons.mpr ⟨hy, hys⟩⟩
      intro b hb
      rcases List.mem_cons.mp hb with hb | hb
      · exact hb ▸ hxy
      · exact le_trans hxy (hy b hb)

theorem sorted_sortLe (l : List Nat) : (sortLe l).Sorted (· ≤ ·) := by
  induction l with
  | nil => simp [sortLe]
  | cons y ys ih => exact sorted_insLe y (sortLe ys) ih

theorem nodup_sortLe (l : List Nat) (h : l.Nodup) : (sortLe l).Nodup :=
  (perm_sortLe l).nodup_iff.mpr h

theorem sortLe_sorted_lt (l : List Nat) (h : l.Nodup) :
    (sortLe l).Sorted (· < ·) := by
  have hs : (sortLe l).Pairwise (· ≤ ·) := sorted_sortLe l
  have hn : (sortLe l).Pairwise (· ≠ ·) := nodup_sortLe l h
  exact (hs.and hn).imp (fun hab => lt_of_le_of_ne hab.1 hab.2)

/-! ## Boolean subsequence test -/

/-- Greedy subsequence test: `isSubseq a b` holds when `a` can be obtained
from `b` by deleting elements (same relative order). -/
def isSubseq {α : Type} [DecidableEq α] : List α → List α → Bool
  | [], _ => true
  | _ :: _, [] => false
  | a :: as, b :: bs => if a = b then isSubseq as bs else isSubseq (a :: as) bs

theorem isSubseq_iff_sublist {α : Type} [DecidableEq α] (a b : List α) :
    isSubseq a b = true ↔ a.Sublist b := by
  induction b generalizing a with
  | nil =>
    cases a with
    | nil => simp [isSubseq]
    | cons x xs => simp [isSubseq]
  | cons y ys ih =>
    cases a with
    | nil => simp [isSubseq, List.nil_sublist]
    | cons x xs =>
      unfold isSubseq
      by_cases hxy : x = y
      · subst hxy
        rw [if_pos rfl, ih xs]
        exact (List.cons_sublist_cons).symm
      · simp only [if_neg hxy]
        rw [ih (x :: xs)]
        constructor
        · exact fun h => h.cons y
        · intro h
          cases h with
          | cons _ h => exact h
          | cons₂ _ h => exact absurd rfl hxy

theorem sublist_of_subset_sorted_lt (a b : List Nat)
    (ha : a.Sorted (· < ·)) (hb : b.Sorted (· < ·)) (hsub : a ⊆ b) :
    a.Sublist b := by
  induction b generalizing a with
  | nil =>
    cases a with
    | nil => exact List.Sublist.refl []
    | cons x xs => exact absurd (hsub (List.mem_cons_self x xs)) (List.not_mem_nil x)
  | cons y ys ih =>
    cases a with
    | nil => exact List.nil_sublist _
    | cons x xs =>
      rw [List.sorted_cons] at ha
      obtain ⟨hx, hxs⟩ := ha
      rw [List.sorted_cons] at hb
      obtain ⟨hy, hys⟩ := hb
      by_cases hxy : x = y
      · subst hxy
        refine List.Sublist.cons₂ x (ih xs hxs hys ?_)
        intro z hz
        have hzx : x < z := hx z hz
        rcases List.mem_cons.mp (hsub (List.mem_cons_of_mem x hz)) with rfl | hm
        · exact absurd hzx (lt_irrefl z)
        · exact hm
      · have hxys : x ∈ ys := by
          rcases List.mem_cons.mp (hsub (List.mem_cons_self x xs)) with heq | hm
          · exact absurd heq hxy
          · exact hm
        have hyx : y < x := hy x hxys
        refine List.Sublist.cons y (ih (x :: xs) (List.sorted_cons.mpr ⟨hx, hxs⟩) hys ?_)
        intro z hz
        rcases List.mem_cons.mp hz with rfl | hm
        · exact hxys
        · have hxz : x < z := hx z hm
          rcases List.mem_cons.mp (hsub (List.mem_cons_of_mem x hm)) with rfl | hm'
          · exact absurd (lt_trans hyx hxz) (lt_irrefl z)
          · exact hm'

theorem subset_of_sublist {α : Type} (a b : List α) (h : a.Sublist b) : a ⊆ b :=
  h.subset

/-- For sorted duplicate-free `Nat` lists, subsequence and subset coincide.
Registered index type sets and collected entity type sets are such lists, so
the trie's subsequence enumeration realises the subset test from the spec. -/
theorem isSubseq_iff_subset_sorted (a b : List Nat)
    (ha : a.Sorted (· < ·)) (hb : b.Sorted (· < ·)) :
    isSubseq a b = true ↔ a ⊆ b := by
  rw [isSubseq_iff_sublist]
  exact ⟨fun h => h.subset, fun h => sublist_of_subset_sorted_lt a b ha hb h⟩

/-! ## SparseSet (src/unnamed/part_001)

`Int32Array`-backed sparse set.  The typed arrays are modelled as `List Nat`
(zero-initialised, fixed length); an out-of-bounds read yields `none`
(JS `undefined`, which makes every comparison in `has` false) and an
out-of-bounds write is silently ignored, as on a JS typed array. -/

/-- In-bounds write to a typed array; out-of-bounds writes are ignored. -/
def i32set (l : List Nat) (i : Nat) (x : Nat) : List Nat :=
  if i < l.length then l.set i x else l

/-- `new Int32Array(n)` followed by `.set(l)`: length-`n` zero array with the
old contents copied into the prefix. -/
def i32grow (l : List Nat) (n : Nat) : List Nat :=
  l.take n ++ List.replicate (n - l.length) 0

structure SparseSet where
  dense : List Nat
  sparse : List Nat
  size : Nat
  capacity : Nat
deriving Repr, DecidableEq

/-- The mandated hard cap (`maxCapacity` in the source, `550_000`). -/
def SparseSet.maxCapacity : Nat := 550000

/-- `new SparseSet(capacity)`. -/
def SparseSet.new (capacity : Nat) : SparseSet :=
  { dense := List.replicate capacity 0
    sparse := List.replicate capacity 0
    size := 0
    capacity := capacity }

/-- `SparseSet.add`: throws on `value ≥ maxCapacity`; grows geometrically when
`value ≥ capacity`; writes the value at dense index `size` and returns that
index. -/
def SparseSet.add (s : SparseSet) (value : Nat) : Except String (SparseSet × Nat) :=
  if value ≥ SparseSet.maxCapacity then
    Except.error "value is greater than or equal to the maximum capacity"
  else
    let s :=
      if value ≥ s.capacity then
        let newCapacity := max (s.capacity * 2) (value + 1)
        { s with
            dense := i32grow s.dense newCapacity
            sparse := i32grow s.sparse newCapacity
            capacity := newCapacity }
      else s
    let index := s.size
    Except.ok
      ({ s with
          dense := i32set s.dense index value
          sparse := i32set s.sparse value index
          size := s.size + 1 }, index)

/-- `SparseSet.has`: `sparse[value] < size && dense[sparse[value]] == value`. -/
def SparseSet.has (s : SparseSet) (value : Nat) : Bool :=
  match s.sparse[value]? with
  | none => false
  | some i =>
    decide (i < s.size) &&
      match s.dense[i]? with
      | none => false
      | some d => decide (d = value)

theorem i32grow_length (l : List Nat) (n : Nat) : (i32grow l n).length = n := by
  simp only [i32grow, List.length_append, List.length_take, List.length_replicate]
  omega

theorem i32grow_getElem? (l : List Nat) (n i : Nat) (h : i < l.length) (hn : l.length ≤ n) :
    (i32grow l n)[i]? = l[i]? := by
  unfold i32grow
  rw [List.getElem?_append, List.getElem?_take]
  simp only [if_pos (lt_of_lt_of_le h hn)]
  have h1 : i < (List.take n l).length := by
    simp only [List.length_take]
    omega
  rw [if_pos h1]

theorem i32set_getElem?_ne (l : List Nat) (i x j : Nat) (h : j ≠ i) :
    (i32set l i x)[j]? = l[j]? := by
  unfold i32set
  by_cases hi : i < l.length
  · rw [if_pos hi]
    exact List.getElem?_set_ne (fun he => h he.symm)
  · rw [if_neg hi]

theorem i32set_getElem?_self (l : List Nat) (i x : Nat) (h : i < l.length) :
    (i32set l i x)[i]? = some x := by
  unfold i32set
  rw [if_pos h]
  exact List.getElem?_set_self h

theorem sparseSet_has_lt_length (s : SparseSet) (w : Nat) (h : s.has w = true) :
    w < s.sparse.length := by
  unfold SparseSet.has at h
  rcases hw : s.sparse[w]? with _ | i
  · rw [hw] at h
    exact absurd h (by simp)
  · obtain ⟨hlt, _⟩ := List.getElem?_eq_some_iff.mp hw
    exact hlt

/-- `true` exactly when the operation did not throw. -/
def exceptIsOk {E A : Type} : Except E A → Bool
  | Except.ok _ => true
  | Except.error _ => false

/-- Basic well-formedness established by the constructor: the two typed
arrays have length `capacity` and `size` never exceeds it. -/
def SparseSet.WF (s : SparseSet) : Prop :=
  s.dense.length = s.capacity ∧ s.sparse.length = s.capacity ∧ s.size ≤ s.capacity

instance (s : SparseSet) : Decidable s.WF := by
  unfold SparseSet.WF
  infer_instance

theorem sparseSet_has_iff (s : SparseSet) (w : Nat) :
    s.has w = true ↔ ∃ i, s.sparse[w]? = some i ∧ i < s.size ∧ s.dense[i]? = some w := by
  unfold SparseSet.has
  rcases hw : s.sparse[w]? with _ | i
  · simp
  · rcases hd : s.dense[i]? with _ | d
    · simp [hd]
    · by_cases hlt : i < s.size
      · by_cases hdv : d = w
        · subst hdv
          simp [hlt, hd]
        · simp [hlt, hdv, hd]
      · simp [hlt]

theorem sparseSet_add_grow_preserves (s : SparseSet) (v : Nat) (hWF : s.WF)
    (hcap : s.capacity ≤ v) (hv : v < SparseSet.maxCapacity) :
    ∃ s', s.add v = Except.ok (s', s.size) ∧
      s'.capacity = max (s.capacity * 2) (v + 1) ∧
      ∀ w, s.has w = true → s'.has w = true := by
  obtain ⟨hd, hs, hsz⟩ := hWF
  have hnotge : ¬ (v ≥ SparseSet.maxCapacity) := not_le.mpr hv
  have hge : v ≥ s.capacity := hcap
  unfold SparseSet.add
  rw [if_neg hnotge, if_pos hge]
  refine ⟨_, rfl, rfl, ?_⟩
  intro w hw
  obtain ⟨i, hwi, hisz, hdi⟩ := (sparseSet_has_iff s w).mp hw
  have hwlen : w < s.sparse.length := (List.getElem?_eq_some_iff.mp hwi).1
  have hilen : i < s.dense.length := (List.getElem?_eq_some_iff.mp hdi).1
  set N := max (s.capacity * 2) (v + 1) with hN
  have hsN : s.sparse.length ≤ N := by
    rw [hs]
    have : v + 1 ≤ N := le_max_right _ _
    omega
  have hdN : s.dense.length ≤ N := by
    rw [hd]
    have : v + 1 ≤ N := le_max_right _ _
    omega
  have hwv : w ≠ v := by
    have : w < s.capacity := by rw [← hs]; exact hwlen
    omega
  have hisize : i ≠ s.size := Nat.ne_of_lt hisz
  apply (sparseSet_has_iff _ w).mpr
  refine ⟨i, ?_, Nat.lt_succ_of_lt hisz, ?_⟩
  · show (i32set (i32grow s.sparse N) v s.size)[w]? = some i
    rw [i32set_getElem?_ne _ _ _ _ hwv, i32grow_getElem? _ _ _ hwlen hsN, hwi]
  · show (i32set (i32grow s.dense N) s.size v)[i]? = some w
    rw [i32set_getElem?_ne _ _ _ _ hisize, i32grow_getElem? _ _ _ hilen hdN, hdi]

theorem sparseSet_add_isOk_iff (s : SparseSet) (v : Nat) :
    exceptIsOk (s.add v) = true ↔ v < SparseSet.maxCapacity := by
  unfold SparseSet.add
  by_cases hv : v ≥ SparseSet.maxCapacity
  · rw [if_pos hv]
    simp only [exceptIsOk]
    constructor
    · intro h; exact absurd h (by simp)
    · intro h; exact absurd hv (not_le.mpr h)
  · rw [if_neg hv]
    simp only [exceptIsOk]
    simpa using not_le.mp hv

/-- Claim C5 is false as stated: the mandated cap in the source is
`550_000`, not `560_000`.  `add 550_000` throws even though
`550_000 < 560_000`, so the claimed iff at `560_000` fails in both
directions on `[550_000, 560_000)`. -/
theorem claimC5_counterexample :
    exceptIsOk ((SparseSet.new 2048).add 550000) = false ∧ (550000 : Nat) < 560000 := by
  constructor
  · rfl
  · decide

/-- Claim C5 (amended): `SparseSet.add v` throws if and only if
`v ≥ 550_000` (the cap in the source is `550_000`); for `v < 550_000`
the call succeeds and returns the dense index written (`size`); when
`v ≥ capacity` the capacity grows to `max (2 * capacity) (v + 1)` —
at least doubling and at least `v + 1` — and growth preserves the
membership of every previously added value. -/
theorem claimC5_amended (s : SparseSet) (v : Nat) (hWF : s.WF) :
    (exceptIsOk (s.add v) = true ↔ v < 550000) ∧
    (s.capacity ≤ v → v < 550000 →
      ∃ s', s.add v = Except.ok (s', s.size) ∧
        s'.capacity = max (s.capacity * 2) (v + 1) ∧
        s.capacity * 2 ≤ s'.capacity ∧ v + 1 ≤ s'.capacity ∧
        ∀ w, s.has w = true → s'.has w = true) := by
  refine ⟨?_, ?_⟩
  · simpa [SparseSet.maxCapacity] using sparseSet_add_isOk_iff s v
  · intro hcap hv
    have hv' : v < SparseSet.maxCapacity := by
      simp only [SparseSet.maxCapacity]
      omega
    obtain ⟨s', h1, h2, h3⟩ := sparseSet_add_grow_preserves s v hWF hcap hv'
    exact ⟨s', h1, h2, h2 ▸ le_max_left _ _, h2 ▸ le_max_right _ _, h3⟩

/-- Witness for the amended claim C5 at a concrete state: a fresh set of
capacity 2 with value 5 triggers growth. -/
theorem claimC5_witness :
    ∃ s', (SparseSet.new 2).add 5 = Except.ok (s', (SparseSet.new 2).size) ∧
      s'.capacity = max ((SparseSet.new 2).capacity * 2) 6 ∧
      (SparseSet.new 2).capacity * 2 ≤ s'.capacity ∧ 6 ≤ s'.capacity ∧
      ∀ w, (SparseSet.new 2).has w = true → s'.has w = true :=
  (claimC5_amended (SparseSet.new 2) 5 (by decide)).2 (by decide) (by decide)

/-! ## IdPool (src/src/IdPool.ts)

A sorted list of half-open intervals of free ids.  `Number.MAX_SAFE_INTEGER`
is `idMax`.  `Array.prototype.sort` with the (non-total) `compareIntervals`
comparator is modelled as a stable insertion sort driven by
`compareIntervals a b ≤ 0`; on the states reached in the theorems below the
comparator is consistent, so any conforming JS engine sorts identically. -/

/-- Half-open interval `[left, right)` of free ids (`Interval` in the
source; renamed to avoid clashing with the library). -/
structure FreeInterval where
  left : Int
  right : Int
deriving Repr, DecidableEq

/-- `Number.MAX_SAFE_INTEGER`. -/
def idMax : Int := 9007199254740991

/-- The comparator from the source (not a total order: overlapping
intervals compare as 0). -/
def compareIntervals (a b : FreeInterval) : Int :=
  if a.left < b.left ∧ a.right < b.right then -1
  else if a.left > b.left ∧ a.right > b.right then 1
  else 0

/-- Stable insertion step for `sortByLe`. -/
def insByLe {α : Type} (le : α → α → Bool) (x : α) : List α → List α
  | [] => [x]
  | y :: ys => if le y x then y :: insByLe le x ys else x :: y :: ys

/-- Stable insertion sort by a Boolean "less or equal" test (models a
stable `Array.prototype.sort`). -/
def sortByLe {α : Type} (le : α → α → Bool) (l : List α) : List α :=
  l.foldr (insByLe le) []

/-- Interval order used by `IdPool.release`'s sort call. -/
def intervalLe (a b : FreeInterval) : Bool :=
  decide (compareIntervals a b ≤ 0)

structure IdPool where
  free : List FreeInterval
deriving Repr, DecidableEq

/-- `new IdPool()`: one interval covering all positive ids. -/
def IdPool.new : IdPool := ⟨[⟨1, idMax⟩]⟩

/-- `IdPool.reserve`: take the leftmost id of the first interval.

The source reads `free[0].left`, which on an empty array is a runtime
`TypeError`; an interval with `right = idMax` is never dropped, so the
list is never empty on reachable states, and the empty case is modelled
with the `0` sentinel. -/
def IdPool.reserve (p : IdPool) : Int × IdPool :=
  match p.free with
  | [] => (0, p)
  | first :: rest =>
    if first.left = idMax then (0, p)
    else
      let id := first.left
      if first.left + 1 < first.right then
        (id, ⟨{ left := first.left + 1, right := first.right } :: rest⟩)
      else if first.left + 1 = idMax then (0, p)
      else (id, ⟨rest⟩)

/-- `IdPool.release`: split the containing interval around `id` (or push a
fresh singleton interval), then re-sort. -/
def IdPool.release (p : IdPool) (id : Int) : IdPool :=
  if id = 0 ∨ id = idMax then p
  else
    match p.free.findIdx? (fun iv => decide (iv.left ≤ id ∧ id < iv.right)) with
    | none => ⟨sortByLe intervalLe (p.free ++ [⟨id, id + 1⟩])⟩
    | some i =>
      match p.free[i]? with
      | none => ⟨sortByLe intervalLe p.free⟩
      | some iv =>
        ⟨sortByLe intervalLe
          (p.free.take i ++ [⟨iv.left, id⟩, ⟨id + 1, iv.right⟩] ++ p.free.drop (i + 1))⟩

/-- `id` is currently free (contained in some interval). -/
def IdPool.isFree (p : IdPool) (id : Int) : Bool :=
  p.free.any (fun iv => decide (iv.left ≤ id ∧ id < iv.right))

/-- `n` consecutive `reserve` calls: the ids returned, and the final pool. -/
def reservesN : Nat → IdPool → List Int × IdPool
  | 0, p => ([], p)
  | n + 1, p =>
    ((p.reserve).1 :: (reservesN n (p.reserve).2).1, (reservesN n (p.reserve).2).2)

/-- `[a, a+1, …, a+k-1]` as integers. -/
def intRange (a : Int) : Nat → List Int
  | 0 => []
  | k + 1 => a :: intRange (a + 1) k

theorem intRange_append_last (a : Int) (k : Nat) :
    intRange a (k + 1) = intRange a k ++ [a + k] := by
  induction k generalizing a with
  | zero => simp [intRange]
  | succ k ih =>
    show a :: intRange (a + 1) (k + 1) = (a :: intRange (a + 1) k) ++ [a + (k + 1)]
    rw [ih (a + 1)]
    simp only [List.cons_append, List.append_assoc]
    norm_cast
    have : a + 1 + (k : Int) = a + ((k : Nat) + 1 : Nat) := by push_cast; ring
    rw [this]

theorem reservesN_run (k : Nat) (a b : Int) (rest : List FreeInterval)
    (hk : a + k < b) (hb : b ≤ idMax) :
    reservesN k ⟨⟨a, b⟩ :: rest⟩ = (intRange a k, ⟨⟨a + k, b⟩ :: rest⟩) := by
  induction k generalizing a with
  | zero => simp [reservesN, intRange]
  | succ k ih =>
    have ha : ¬ (a = idMax) := by
      have : a < b := by
        have hk0 : (0 : Int) ≤ (k + 1 : Nat) := by positivity
        omega
      omega
    have ha1 : a + 1 < b := by
      have : ((k + 1 : Nat) : Int) = (k : Int) + 1 := by push_cast; ring
      rw [this] at hk
      have hk0 : (0 : Int) ≤ (k : Nat) := by positivity
      omega
    have step : (⟨⟨a, b⟩ :: rest⟩ : IdPool).reserve = (a, ⟨⟨a + 1, b⟩ :: rest⟩) := by
      unfold IdPool.reserve
      dsimp only
      rw [if_neg ha, if_pos ha1]
    have hk' : a + 1 + (k : Int) < b := by
      have : ((k + 1 : Nat) : Int) = (k : Int) + 1 := by push_cast; ring
      rw [this] at hk
      omega
    show ((_ : IdPool).reserve.1 :: _, _) = _
    rw [step]
    dsimp only
    rw [ih (a + 1) hk']
    show (a :: intRange (a + 1) k, _) = (intRange a (k + 1), (⟨⟨a + (k + 1 : Nat), b⟩ :: rest⟩ : IdPool))
    have : a + 1 + (k : Int) = a + ((k : Nat) + 1 : Nat) := by push_cast; ring
    rw [show intRange a (k + 1) = a :: intRange (a + 1) k from rfl, this]

theorem reservesN_add (m k : Nat) (p : IdPool) :
    reservesN (m + k) p =
      ((reservesN m p).1 ++ (reservesN k (reservesN m p).2).1,
       (reservesN k (reservesN m p).2).2) := by
  induction m generalizing p with
  | zero => simp [reservesN]
  | succ m ih =>
    rw [Nat.succ_add]
    show (p.reserve.1 :: (reservesN (m + k) p.reserve.2).1,
          (reservesN (m + k) p.reserve.2).2) = _
    rw [ih p.reserve.2]
    rfl

theorem idPool_release_fresh (n : Int) (h2 : 2 ≤ n) (hmax : n + 2 < idMax) :
    IdPool.release IdPool.new n = ⟨[⟨1, n⟩, ⟨n + 1, idMax⟩]⟩ := by
  have hM : idMax = 9007199254740991 := rfl
  rw [hM] at hmax
  unfold IdPool.release IdPool.new
  have hn0 : ¬ (n = 0 ∨ n = idMax) := by
    rintro (rfl | rfl)
    · omega
    · rw [hM] at hmax
      omega
  rw [if_neg hn0]
  have hpred : (decide ((⟨1, idMax⟩ : FreeInterval).left ≤ n ∧ n < (⟨1, idMax⟩ : FreeInterval).right)) = true := by
    simp only [decide_eq_true_eq]
    refine ⟨by omega, ?_⟩
    rw [hM]
    omega
  have hfind : ([⟨1, idMax⟩] : List FreeInterval).findIdx?
      (fun iv => decide (iv.left ≤ n ∧ n < iv.right)) = some 0 := by
    simp only [List.findIdx?_cons, hpred, List.findIdx?_nil]
    rfl
  rw [hfind]
  dsimp only
  have hle : intervalLe ⟨n + 1, idMax⟩ ⟨1, n⟩ = false := by
    unfold intervalLe compareIntervals
    dsimp only
    rw [if_neg (by rw [hM]; omega), if_pos (by constructor <;> [omega; (rw [hM]; omega)])]
    rfl
  show (⟨sortByLe intervalLe ([] ++ [⟨1, n⟩, ⟨n + 1, idMax⟩] ++ [])⟩ : IdPool) = _
  have hsorted : sortByLe intervalLe ([] ++ [⟨1, n⟩, ⟨n + 1, idMax⟩] ++ [])
      = [⟨1, n⟩, ⟨n + 1, idMax⟩] := by
    show insByLe intervalLe ⟨1, n⟩ (insByLe intervalLe ⟨n + 1, idMax⟩ []) = _
    rw [show insByLe intervalLe (⟨n + 1, idMax⟩ : FreeInterval) [] = [⟨n + 1, idMax⟩] from rfl]
    show (if intervalLe ⟨n + 1, idMax⟩ ⟨1, n⟩ = true then _ else _) = _
    rw [hle]
    rfl
  rw [hsorted]

/-- Claim C7 is false as stated: on a fresh pool the id 5 is free, yet
`release(5)` removes it from the free set — the next five `reserve`
calls return `1,2,3,4,6` instead of `1,2,3,4,5`, an observable
difference. -/
theorem claimC7_counterexample :
    IdPool.isFree IdPool.new 5 = true ∧
    (reservesN 5 (IdPool.release IdPool.new 5)).1 = [1, 2, 3, 4, 6] ∧
    (reservesN 5 IdPool.new).1 = [1, 2, 3, 4, 5] := by
  refine ⟨by decide, by decide, by decide⟩

/-- Claim C7 (amended): `release(id)` on an id that is already free is
*not* a no-op: the containing interval `[l, r)` is split into `[l, id)`
and `[id+1, r)`, so `id` itself drops out of the free set.  Concretely,
on a fresh pool (every id in `[1, MAX)` free) releasing `n ≥ 2` makes
the subsequent reserves return `1, …, n−1` and then `n+1`, skipping
`n`, whereas the untouched pool returns `1, …, n`.  (Only when `id` is
the left endpoint of its interval, e.g. `id = 1` on a fresh pool, does
the result happen to behave like a no-op, via the empty interval
`[l, l)` that `reserve` still treats as holding `l`.) -/
theorem claimC7_amended (n : Nat) (h2 : 2 ≤ n) (hmax : (n : Int) + 2 < idMax) :
    (reservesN n (IdPool.release IdPool.new (n : Int))).1
        = intRange 1 (n - 1) ++ [(n : Int) + 1] ∧
    (reservesN n IdPool.new).1 = intRange 1 n := by
  have hM : idMax = 9007199254740991 := rfl
  constructor
  · have h2' : (2 : Int) ≤ (n : Int) := by exact_mod_cast h2
    rw [idPool_release_fresh (n : Int) h2' hmax]
    obtain ⟨m, rfl⟩ : ∃ m, n = m + 2 := ⟨n - 2, by omega⟩
    have hcast : ((m + 2 : Nat) : Int) = (m : Int) + 2 := by push_cast; ring
    rw [reservesN_add m 2]
    have hrun := reservesN_run m 1 ((m : Int) + 2) [⟨(m : Int) + 2 + 1, idMax⟩]
      (by omega) (by rw [hM]; rw [hM] at hmax; omega)
    rw [hcast, hrun]
    have hstep1 : (⟨⟨1 + (m : Int), (m : Int) + 2⟩ :: [⟨(m : Int) + 2 + 1, idMax⟩]⟩ : IdPool).reserve
        = (1 + (m : Int), ⟨[⟨(m : Int) + 2 + 1, idMax⟩]⟩) := by
      unfold IdPool.reserve
      dsimp only
      rw [if_neg (by rw [hM]; rw [hM] at hmax; push_cast at hmax; omega),
        if_neg (by omega), if_neg (by rw [hM]; rw [hM] at hmax; push_cast at hmax; omega)]
    have hstep2 : (⟨[⟨(m : Int) + 2 + 1, idMax⟩]⟩ : IdPool).reserve
        = ((m : Int) + 2 + 1, ⟨[⟨(m : Int) + 2 + 1 + 1, idMax⟩]⟩) := by
      unfold IdPool.reserve
      dsimp only
      rw [if_neg (by rw [hM]; rw [hM] at hmax; push_cast at hmax; omega),
        if_pos (by rw [hM]; rw [hM] at hmax; push_cast at hmax; omega)]
    have h2run : (reservesN 2 ⟨⟨1 + (m : Int), (m : Int) + 2⟩ :: [⟨(m : Int) + 2 + 1, idMax⟩]⟩).1
        = [1 + (m : Int), (m : Int) + 2 + 1] := by
      show ((_ : IdPool).reserve.1 :: _) = _
      rw [hstep1]
      dsimp only
      show _ :: ((_ : IdPool).reserve.1 :: _) = _
      rw [hstep2]
      rfl
    dsimp only
    rw [h2run]
    have hlast : intRange 1 m ++ [1 + (m : Int)] = intRange 1 (m + 2 - 1) := by
      have : m + 2 - 1 = m + 1 := by omega
      rw [this, intRange_append_last]
    calc intRange 1 m ++ [1 + (m : Int), (m : Int) + 2 + 1]
        = (intRange 1 m ++ [1 + (m : Int)]) ++ [(m : Int) + 2 + 1] := by
          simp [List.append_assoc]
      _ = intRange 1 (m + 2 - 1) ++ [((m + 2 : Nat) : Int) + 1] := by
          rw [hlast, hcast]
  · have hrun := reservesN_run n 1 idMax [] (by rw [hM]; rw [hM] at hmax; omega) (le_refl _)
    show (reservesN n IdPool.new).1 = _
    unfold IdPool.new
    rw [hrun]

/-- Witness for the amended claim C7 at `n = 5`. -/
theorem claimC7_witness :
    (reservesN 5 (IdPool.release IdPool.new ((5 : Nat) : Int))).1
        = intRange 1 (5 - 1) ++ [((5 : Nat) : Int) + 1] ∧
    (reservesN 5 IdPool.new).1 = intRange 1 5 :=
  claimC7_amended 5 (by decide) (by decide)

/-! ## Trie (src/src/trie.ts)

Generic trie keyed by symbol sequences.  `branches` is a JS `Map`
(association list in insertion order, unique keys on well-formed tries). -/

inductive Trie (S T : Type) where
  | node (value : Option T) (branches : List (S × Trie S T)) : Trie S T

/-- `trie.value`. -/
def Trie.value {S T : Type} : Trie S T → Option T
  | node v _ => v

/-- `trie.branches`. -/
def Trie.branches {S T : Type} : Trie S T → List (S × Trie S T)
  | node _ bs => bs

theorem aget_mem_sizeOf {S T : Type} [DecidableEq S] (bs : List (S × Trie S T)) (s : S)
    (b : Trie S T) (h : aget bs s = some b) : sizeOf b < sizeOf bs := by
  induction bs with
  | nil => simp [aget] at h
  | cons p rest ih =>
    obtain ⟨k, c⟩ := p
    simp only [aget] at h
    by_cases hk : k = s
    · rw [if_pos hk] at h
      injection h with h
      subst h
      simp only [List.cons.sizeOf_spec, Prod.mk.sizeOf_spec]
      omega
    · rw [if_neg hk] at h
      have := ih h
      simp only [List.cons.sizeOf_spec]
      omega

theorem aget_branch_sizeOf {S T : Type} [DecidableEq S] (t : Trie S T) (s : S)
    (b : Trie S T) (h : aget t.branches s = some b) : sizeOf b < sizeOf t := by
  cases t with
  | node v bs =>
    have := aget_mem_sizeOf bs s b h
    simp only [Trie.node.sizeOf_spec]
    omega

/-- `getInTrie`: walk the branches along `seq`, return the final value. -/
def getInTrie {S T : Type} [DecidableEq S] (t : Trie S T) (seq : List S) : Option T :=
  match seq with
  | [] => t.value
  | s :: rest =>
    match aget t.branches s with
    | none => none
    | some b => getInTrie b rest

/-- `setInTrie`: walk/create the branches along `seq`, set the final value
(new branches are appended at the end of the map, as JS `Map.set` does). -/
def setInTrie {S T : Type} [DecidableEq S] (t : Trie S T) (seq : List S) (v : T) : Trie S T :=
  match seq, t with
  | [], Trie.node _ bs => Trie.node (some v) bs
  | s :: rest, Trie.node val bs =>
    Trie.node val (aset bs s (setInTrie ((aget bs s).getD (Trie.node none [])) rest v))

/-- Well-formed trie: every node's branch map has duplicate-free keys
(automatic for JS `Map`s). -/
def Trie.wfb {S T : Type} [DecidableEq S] : Trie S T → Bool
  | node _ bs =>
    decide ((bs.map Prod.fst).Nodup) &&
      bs.attach.all (fun p => p.1.2.wfb)
decreasing_by
  have hmem := p.2
  have h1 := List.sizeOf_lt_of_mem hmem
  have h2 : sizeOf p.1.2 < sizeOf p.1 := by
    obtain ⟨a, c⟩ := p.1
    simp only [Prod.mk.sizeOf_spec]
    omega
  simp only [Trie.node.sizeOf_spec]
  omega

/-- All `(path, value)` pairs of nodes of the trie, root first. -/
def nodePaths {S T : Type} : Trie S T → List (List S × Option T)
  | Trie.node v bs =>
    ([], v) :: bs.attach.flatMap
      (fun p => (nodePaths p.1.2).map (fun r => (p.1.1 :: r.1, r.2)))
decreasing_by
  have hmem := p.2
  have h1 := List.sizeOf_lt_of_mem hmem
  have h2 : sizeOf p.1.2 < sizeOf p.1 := by
    obtain ⟨a, c⟩ := p.1
    simp only [Prod.mk.sizeOf_spec]
    omega
  simp only [Trie.node.sizeOf_spec]
  omega

/-- `(path, value)` pairs of the strict descendants of the root. -/
def childPaths {S T : Type} (t : Trie S T) : List (List S × Option T) :=
  t.branches.flatMap (fun p => (nodePaths p.2).map (fun r => (p.1 :: r.1, r.2)))

/-- The values stored at nodes whose path is a subsequence of `q` — the
specification of subsequence enumeration. -/
def matchingValues {S T : Type} [DecidableEq S] (t : Trie S T) (q : List S) : List T :=
  (nodePaths t).filterMap (fun pv => if isSubseq pv.1 q = true then pv.2 else none)

/-- Like `matchingValues` but only over strict descendants of the root. -/
def matchingTail {S T : Type} [DecidableEq S] (t : Trie S T) (q : List S) : List T :=
  (childPaths t).filterMap (fun pv => if isSubseq pv.1 q = true then pv.2 else none)

/-- The position loop of `foreachSubsequenceInTriesRec` (trie.ts 54-71),
written as structural recursion: from position `i`, for each `j ≥ i` whose
symbol `q[j]` is a branch, enumerate that child (its value first), and
continue with `j+1` inside the child.  The source loop runs `j ≤ q.length`
inclusively, but `q[q.length]` reads `undefined`, which is never a `Map`
key, so the extra position never matches and is dropped here.  The root's
own value is *not* included (see `subseqValuesFrom`). -/
def tailEnum {S T : Type} [DecidableEq S] (q : List S) (t : Trie S T) (i : Nat) : List T :=
  if h : i < q.length then
    (match hb : aget t.branches q[i] with
     | some b => b.value.toList ++ tailEnum q b (i + 1)
     | none => []) ++ tailEnum q t (i + 1)
  else []
termination_by (sizeOf t, q.length - i)
decreasing_by
  · exact Prod.Lex.left _ _ (aget_branch_sizeOf t _ b hb)
  · have : sizeOf t = sizeOf t := rfl
    apply Prod.Lex.right
    omega

/-- `foreachSubsequenceInTriesRec(trie, seq, seqStart, …)` collecting every
value passed to `found` (the `World` callers never stop early): the node's
own value, then the position loop. -/
def subseqValuesFrom {S T : Type} [DecidableEq S] (q : List S) (t : Trie S T) (i : Nat) : List T :=
  t.value.toList ++ tailEnum q t i

/-- Loop-step count of the subsequence search from `(t, i)`; the
termination measure for the reusable iterator's `next` loop. -/
def work {S T : Type} [DecidableEq S] (q : List S) (t : Trie S T) (i : Nat) : Nat :=
  if h : i < q.length then
    1 + (match hb : aget t.branches q[i] with
         | some b => 1 + work q b (i + 1)
         | none => 0) + work q t (i + 1)
  else 0
termination_by (sizeOf t, q.length - i)
decreasing_by
  · exact Prod.Lex.left _ _ (aget_branch_sizeOf t _ b hb)
  · apply Prod.Lex.right
    omega

theorem tailEnum_oob {S T : Type} [DecidableEq S] (q : List S) (t : Trie S T) (i : Nat)
    (h : ¬ i < q.length) : tailEnum q t i = [] := by
  unfold tailEnum
  rw [dif_neg h]

theorem tailEnum_step_some {S T : Type} [DecidableEq S] (q : List S) (t b : Trie S T)
    (i : Nat) (h : i < q.length) (hb : aget t.branches q[i] = some b) :
    tailEnum q t i = (b.value.toList ++ tailEnum q b (i + 1)) ++ tailEnum q t (i + 1) := by
  conv_lhs => unfold tailEnum
  rw [dif_pos h]
  split
  · rename_i b' hb'
    rw [hb] at hb'
    injection hb' with hh
    subst hh
    rfl
  · rename_i hb'
    rw [hb] at hb'
    exact Option.noConfusion hb'

theorem tailEnum_step_none {S T : Type} [DecidableEq S] (q : List S) (t : Trie S T)
    (i : Nat) (h : i < q.length) (hb : aget t.branches q[i] = none) :
    tailEnum q t i = tailEnum q t (i + 1) := by
  conv_lhs => unfold tailEnum
  rw [dif_pos h]
  split
  · rename_i b' hb'
    rw [hb] at hb'
    exact Option.noConfusion hb'
  · rfl

theorem work_oob {S T : Type} [DecidableEq S] (q : List S) (t : Trie S T) (i : Nat)
    (h : ¬ i < q.length) : work q t i = 0 := by
  unfold work
  rw [dif_neg h]

theorem work_step_some {S T : Type} [DecidableEq S] (q : List S) (t b : Trie S T)
    (i : Nat) (h : i < q.length) (hb : aget t.branches q[i] = some b) :
    work q t i = 1 + (1 + work q b (i + 1)) + work q t (i + 1) := by
  conv_lhs => unfold work
  rw [dif_pos h]
  split
  · rename_i b' hb'
    rw [hb] at hb'
    injection hb' with hh
    subst hh
    rfl
  · rename_i hb'
    rw [hb] at hb'
    exact Option.noConfusion hb'

theorem work_step_none {S T : Type} [DecidableEq S] (q : List S) (t : Trie S T)
    (i : Nat) (h : i < q.length) (hb : aget t.branches q[i] = none) :
    work q t i = 1 + work q t (i + 1) := by
  conv_lhs => unfold work
  rw [dif_pos h]
  split
  · rename_i b' hb'
    rw [hb] at hb'
    exact Option.noConfusion hb'
  · rfl

theorem work_succ_le {S T : Type} [DecidableEq S] (q : List S) (t : Trie S T) (i : Nat) :
    work q t (i + 1) ≤ work q t i := by
  by_cases h : i < q.length
  · rcases hb : aget t.branches q[i] with _ | b
    · rw [work_step_none q t i h hb]
      omega
    · rw [work_step_some q t b i h hb]
      omega
  · rw [work_oob q t i h, work_oob q t (i + 1) (by omega)]

/-! ### TrieSubsequenceIterator (trie.ts 80-164)

State mapping: the source keeps parallel arrays `path[0..pathLen]` (root at
index 0, current node at `pathLen`) and `seqIdx[0..pathLen]`, plus `seq`
and `value`.  The model keeps the live frames as a list of
`(trie, seqIdx)` pairs with the TOP (`path[pathLen]`) first and the root
last, so `pathLen = frames.length - 1`.  Array slots above `pathLen` are
garbage in the source (always overwritten before being read) and have no
counterpart here.  `seqIdx` entries are `Int` because the source writes
`-1` into a slot when backtracking past it. -/

structure SubIt (S T : Type) where
  frames : List (Trie S T × Int)
  seq : List S
  value : Option T

/-- `new TrieSubsequenceIterator(seq, trie)` (the constructor just calls
`reset(seq, trie)`): root frame with `seqIdx[0] = 0`, no value. -/
def subItReset {S T : Type} (seq : List S) (t : Trie S T) : SubIt S T :=
  { frames := [(t, 0)], seq := seq, value := none }

/-- `seq[i]` for a JS index that may be negative or past the end
(`undefined` becomes `none`). -/
def seqAt {S : Type} (seq : List S) (i : Int) : Option S :=
  if hi : 0 ≤ i ∧ i.toNat < seq.length then some (seq.get ⟨i.toNat, hi.2⟩) else none

/-- The inner backtracking loop of `next`
(`while (++seqIdx[pathLen] >= seqLen) { … pop … }`): advance the top
frame's position; on overflow pop and continue with the parent.
`none` models `return false` (backtracked past the root). -/
def advanceFrames {S T : Type} (n : Nat) : List (Trie S T × Int) → Option (List (Trie S T × Int))
  | [] => none
  | (t, i) :: rest =>
    if i + 1 < (n : Int) then some ((t, i + 1) :: rest)
    else
      match rest with
      | [] => none
      | _ :: _ => advanceFrames n rest

/-- The state left behind by `return false`: the root stays in `path[0]`
with `seqIdx[0] = -1`, everything above is popped. -/
def exhaustedState {S T : Type} (seq : List S) (frames : List (Trie S T × Int))
    (value : Option T) : SubIt S T :=
  match frames.getLast? with
  | some (t, _) => { frames := [(t, -1)], seq := seq, value := value }
  | none => { frames := [], seq := seq, value := value }

/-- The `while (true)` search loop of `next` (trie.ts 132-163), with fuel
for the loop iterations.  Each iteration: read the symbol at the top
frame's position, take the branch if it exists (pushing the child and
yielding its value when present), otherwise advance / backtrack. -/
def subItLoop {S T : Type} [DecidableEq S] (seq : List S) :
    Nat → List (Trie S T × Int) → Option T → Option (SubIt S T × Bool)
  | 0, _, _ => none
  | _, [], _ => none
  | fuel + 1, (t, i) :: rest, value =>
    match (seqAt seq i).bind (fun sym => aget t.branches sym) with
    | some b =>
      match b.value with
      | some v =>
        some ({ frames := (b, i + 1) :: (t, i) :: rest, seq := seq, value := some v }, true)
      | none =>
        if (seq.length : Int) ≤ i + 1 then
          match advanceFrames seq.length ((b, i + 1) :: (t, i) :: rest) with
          | none => some (exhaustedState seq ((b, i + 1) :: (t, i) :: rest) value, false)
          | some frames' => subItLoop seq fuel frames' value
        else subItLoop seq fuel ((b, i + 1) :: (t, i) :: rest) value
    | none =>
      match advanceFrames seq.length ((t, i) :: rest) with
      | none => some (exhaustedState seq ((t, i) :: rest) value, false)
      | some frames' => subItLoop seq fuel frames' value

/-- `next()` (trie.ts 115-164): the `seq == undefined || root == undefined`
guard, the first-call root-value yield, then the search loop. -/
def subItNext {S T : Type} [DecidableEq S] (fuel : Nat) (st : SubIt S T) :
    Option (SubIt S T × Bool) :=
  match st.frames with
  | [] => some (st, false)
  | (t, i) :: rest =>
    match st.value, rest with
    | none, [] =>
      match t.value with
      | some v => some ({ st with value := some v }, true)
      | none => subItLoop st.seq fuel [(t, i)] none
    | _, _ => subItLoop st.seq fuel ((t, i) :: rest) st.value

/-- Drive the iterator: `for (it.reset(q); it.next(); ) collect it.value`,
returning the yields in order (`none` = out of fuel before `next`
returned `false`). -/
def subItDrive {S T : Type} [DecidableEq S] : Nat → SubIt S T → Option (List T)
  | 0, _ => none
  | fuel + 1, st =>
    match subItNext fuel st with
    | none => none
    | some (_, false) => some []
    | some (st', true) =>
      match subItDrive fuel st' with
      | none => none
      | some vs => some (st'.value.toList ++ vs)

/-- Yields still to come from the parent frames (each parent resumes at
the position after the one it descended at). -/
def pendingParents {S T : Type} [DecidableEq S] (q : List S) :
    List (Trie S T × Int) → List T
  | [] => []
  | (p, j) :: rest => tailEnum q p (j + 1).toNat ++ pendingParents q rest

/-- Yields still to come from a frame stack: the top frame from its own
position, the parents from one past theirs. -/
def pendingY {S T : Type} [DecidableEq S] (q : List S) :
    List (Trie S T × Int) → List T
  | [] => []
  | (t, i) :: rest => tailEnum q t i.toNat ++ pendingParents q rest

/-- Remaining loop steps of the parent frames (termination bookkeeping). -/
def phiParents {S T : Type} [DecidableEq S] (q : List S) :
    List (Trie S T × Int) → Nat
  | [] => 0
  | (p, j) :: rest => work q p (j + 1).toNat + phiParents q rest

/-- Remaining loop steps of a frame stack. -/
def phiY {S T : Type} [DecidableEq S] (q : List S) :
    List (Trie S T × Int) → Nat
  | [] => 0
  | (t, i) :: rest => work q t i.toNat + phiParents q rest

/-- Combined loop measure: every continuing iteration of the search loop
strictly decreases it. -/
def loopMeasure {S T : Type} [DecidableEq S] (q : List S)
    (frames : List (Trie S T × Int)) : Nat :=
  2 * phiY q frames + frames.length

theorem advanceFrames_spec {S T : Type} [DecidableEq S] (q : List S) :
    ∀ (rest : List (Trie S T × Int)) (t : Trie S T) (i : Int), 0 ≤ i →
      (∀ fr ∈ rest, 0 ≤ fr.2) →
      (advanceFrames q.length ((t, i) :: rest) = none ∧
        pendingParents q ((t, i) :: rest) = []) ∨
      (∃ fr', advanceFrames q.length ((t, i) :: rest) = some fr' ∧ fr' ≠ [] ∧
        (∀ fr ∈ fr', 0 ≤ fr.2) ∧
        pendingY q fr' = pendingParents q ((t, i) :: rest) ∧
        phiY q fr' ≤ phiParents q ((t, i) :: rest) ∧
        fr'.length ≤ rest.length + 1 ∧
        (i + 1 < (q.length : Int) ∨ fr'.length ≤ rest.length)) := by
  intro rest
  induction rest with
  | nil =>
    intro t i hi _
    by_cases hlt : i + 1 < (q.length : Int)
    · right
      refine ⟨[(t, i + 1)], ?_, by simp, ?_, ?_, ?_, by simp, Or.inl hlt⟩
      · unfold advanceFrames
        rw [if_pos hlt]
      · intro fr hfr
        rcases List.mem_singleton.mp hfr with rfl
        simp only []
        omega
      · simp [pendingY, pendingParents]
      · simp [phiY, phiParents]
    · left
      constructor
      · unfold advanceFrames
        rw [if_neg hlt]
      · have hoob : ¬ (i + 1).toNat < q.length := by omega
        simp [pendingParents, tailEnum_oob q t _ hoob]
  | cons fr0 rest₂ ih =>
    intro t i hi hrest
    obtain ⟨p, j⟩ := fr0
    by_cases hlt : i + 1 < (q.length : Int)
    · right
      refine ⟨(t, i + 1) :: (p, j) :: rest₂, ?_, by simp, ?_, ?_, ?_, by simp, Or.inl hlt⟩
      · unfold advanceFrames
        rw [if_pos hlt]
      · intro fr hfr
        rcases List.mem_cons.mp hfr with rfl | hfr
        · simp only []
          omega
        · exact hrest fr hfr
      · simp [pendingY, pendingParents]
      · simp [phiY, phiParents]
    · have hj : 0 ≤ j := hrest (p, j) (List.mem_cons_self _ _)
      have hrest₂ : ∀ fr ∈ rest₂, 0 ≤ fr.2 :=
        fun fr hfr => hrest fr (List.mem_cons_of_mem _ hfr)
      have hoob : ¬ (i + 1).toNat < q.length := by omega
      have hstep : advanceFrames q.length ((t, i) :: (p, j) :: rest₂)
          = advanceFrames q.length ((p, j) :: rest₂) := by
        conv_lhs => unfold advanceFrames
        rw [if_neg hlt]
      have hpend : pendingParents q ((t, i) :: (p, j) :: rest₂)
          = pendingParents q ((p, j) :: rest₂) := by
        simp [pendingParents, tailEnum_oob q t _ hoob]
      have hphi : phiParents q ((t, i) :: (p, j) :: rest₂)
          = phiParents q ((p, j) :: rest₂) := by
        simp [phiParents, work_oob q t _ hoob]
      rcases ih p j hj hrest₂ with ⟨hadv, hpp⟩ | ⟨fr', hadv, hne, hnn, hpY, hphiY, hlen, _⟩
      · left
        rw [hstep, hpend]
        exact ⟨hadv, hpp⟩
      · right
        refine ⟨fr', by rw [hstep]; exact hadv, hne, hnn, ?_, ?_, ?_, Or.inr ?_⟩
        · rw [hpend]; exact hpY
        · rw [hphi]; exact hphiY
        · simp only [List.length_cons]
          omega
        · simp only [List.length_cons]
          omega

theorem pendingY_cons {S T : Type} [DecidableEq S] (q : List S) (t : Trie S T) (i : Int)
    (rest : List (Trie S T × Int)) :
    pendingY q ((t, i) :: rest) = tailEnum q t i.toNat ++ pendingParents q rest := rfl

theorem pendingParents_cons {S T : Type} [DecidableEq S] (q : List S) (p : Trie S T) (j : Int)
    (rest : List (Trie S T × Int)) :
    pendingParents q ((p, j) :: rest) = tailEnum q p (j + 1).toNat ++ pendingParents q rest := rfl

theorem phiY_cons {S T : Type} [DecidableEq S] (q : List S) (t : Trie S T) (i : Int)
    (rest : List (Trie S T × Int)) :
    phiY q ((t, i) :: rest) = work q t i.toNat + phiParents q rest := rfl

theorem phiParents_cons {S T : Type} [DecidableEq S] (q : List S) (p : Trie S T) (j : Int)
    (rest : List (Trie S T × Int)) :
    phiParents q ((p, j) :: rest) = work q p (j + 1).toNat + phiParents q rest := rfl

theorem seqAt_some {S : Type} (q : List S) (i : Int) (hi : 0 ≤ i) (hlt : i.toNat < q.length) :
    seqAt q i = some (q.get ⟨i.toNat, hlt⟩) := by
  unfold seqAt
  rw [dif_pos ⟨hi, hlt⟩]

theorem seqAt_none {S : Type} (q : List S) (i : Int) (h : ¬ (0 ≤ i ∧ i.toNat < q.length)) :
    seqAt q i = none := by
  unfold seqAt
  rw [dif_neg h]

theorem subItLoop_spec {S T : Type} [DecidableEq S] (q : List S) :
    ∀ (fuel : Nat) (t : Trie S T) (i : Int) (rest : List (Trie S T × Int)) (value : Option T),
      0 ≤ i → (∀ fr ∈ rest, 0 ≤ fr.2) →
      loopMeasure q ((t, i) :: rest) < fuel →
      (pendingY q ((t, i) :: rest) = [] →
        ∃ st', subItLoop q fuel ((t, i) :: rest) value = some (st', false)) ∧
      (∀ v vs, pendingY q ((t, i) :: rest) = v :: vs →
        ∃ t' i' rest', subItLoop q fuel ((t, i) :: rest) value
            = some ({ frames := (t', i') :: rest', seq := q, value := some v }, true) ∧
          0 ≤ i' ∧ (∀ fr ∈ rest', 0 ≤ fr.2) ∧
          pendingY q ((t', i') :: rest') = vs ∧
          loopMeasure q ((t', i') :: rest') < loopMeasure q ((t, i) :: rest)) := by
  intro fuel
  induction fuel with
  | zero =>
    intro t i rest value hi hrest hm
    exact absurd hm (Nat.not_lt_zero _)
  | succ fuel ih =>
    intro t i rest value hi hrest hm
    have hcast : (i + 1).toNat = i.toNat + 1 := by omega
    by_cases hin : i.toNat < q.length
    · have hseq : seqAt q i = some (q.get ⟨i.toNat, hin⟩) := seqAt_some q i hi hin
      rcases hb : aget t.branches (q.get ⟨i.toNat, hin⟩) with _ | b
      · -- no branch at the current position: advance / backtrack
        have hscrut : (seqAt q i).bind (fun sym => aget t.branches sym) = none := by
          rw [hseq]
          simpa using hb
        have hbody : subItLoop q (fuel + 1) ((t, i) :: rest) value =
            match advanceFrames q.length ((t, i) :: rest) with
            | none => some (exhaustedState q ((t, i) :: rest) value, false)
            | some frames' => subItLoop q fuel frames' value := by
          conv_lhs => unfold subItLoop
          rw [hscrut]
        have hbget : aget t.branches q[i.toNat] = none := hb
        have hpequal : pendingY q ((t, i) :: rest) = pendingParents q ((t, i) :: rest) := by
          rw [pendingY_cons, pendingParents_cons,
            tailEnum_step_none q t i.toNat hin hbget, hcast]
        have hwork : work q t i.toNat = 1 + work q t (i + 1).toNat := by
          rw [work_step_none q t i.toNat hin hbget, hcast]
        rcases advanceFrames_spec q rest t i hi hrest with
          ⟨hadv, hpp⟩ | ⟨fr', hadv, hne, hnn, hpY, hphi, hlen, _⟩
        · rw [hbody, hadv]
          constructor
          · intro _
            exact ⟨_, rfl⟩
          · intro v vs hvvs
            rw [hpequal, hpp] at hvvs
            exact absurd hvvs (by simp)
        · rcases fr' with _ | ⟨⟨t2, i2⟩, rest2⟩
          · exact absurd rfl hne
          · have hi2 : 0 ≤ i2 := hnn (t2, i2) (List.mem_cons_self _ _)
            have hrest2 : ∀ fr ∈ rest2, 0 ≤ fr.2 :=
              fun fr hfr => hnn fr (List.mem_cons_of_mem _ hfr)
            have hm2 : loopMeasure q ((t2, i2) :: rest2) < loopMeasure q ((t, i) :: rest) := by
              unfold loopMeasure
              have h1 : phiParents q ((t, i) :: rest) + 1 = phiY q ((t, i) :: rest) := by
                rw [phiY_cons, phiParents_cons, hwork]
                omega
              simp only [List.length_cons] at hlen ⊢
              omega
            have hpend2 : pendingY q ((t2, i2) :: rest2) = pendingY q ((t, i) :: rest) := by
              rw [hpY, ← hpequal]
            have hrec := ih t2 i2 rest2 value hi2 hrest2 (by omega)
            rw [hbody, hadv]
            constructor
            · intro hnil
              exact hrec.1 (by rw [hpend2, hnil])
            · intro v vs hvvs
              obtain ⟨t', i', rest', heq, hi', hrest', hpend', hm'⟩ :=
                hrec.2 v vs (by rw [hpend2, hvvs])
              exact ⟨t', i', rest', heq, hi', hrest', hpend', lt_trans hm' hm2⟩
      · -- branch exists: push the child
        have hscrut : (seqAt q i).bind (fun sym => aget t.branches sym) = some b := by
          rw [hseq]
          simpa using hb
        have hbget : aget t.branches q[i.toNat] = some b := hb
        have htail : tailEnum q t i.toNat =
            (b.value.toList ++ tailEnum q b (i.toNat + 1)) ++ tailEnum q t (i.toNat + 1) :=
          tailEnum_step_some q t b i.toNat hin hbget
        have hwork : work q t i.toNat =
            1 + (1 + work q b (i.toNat + 1)) + work q t (i.toNat + 1) :=
          work_step_some q t b i.toNat hin hbget
        rcases hbv : b.value with _ | v
        · -- child holds no value: maybe advance, else continue deeper
          have hbody : subItLoop q (fuel + 1) ((t, i) :: rest) value =
              if (q.length : Int) ≤ i + 1 then
                match advanceFrames q.length ((b, i + 1) :: (t, i) :: rest) with
                | none => some (exhaustedState q ((b, i + 1) :: (t, i) :: rest) value, false)
                | some frames' => subItLoop q fuel frames' value
              else subItLoop q fuel ((b, i + 1) :: (t, i) :: rest) value := by
            conv_lhs => unfold subItLoop
            rw [hscrut]
            dsimp only
            rw [hbv]
          have hpframes : pendingY q ((b, i + 1) :: (t, i) :: rest)
              = pendingY q ((t, i) :: rest) := by
            rw [pendingY_cons, pendingY_cons, pendingParents_cons, htail, hbv, hcast]
            simp
          have hvalid' : ∀ fr ∈ ((t, i) :: rest), 0 ≤ fr.2 := by
            intro fr hfr
            rcases List.mem_cons.mp hfr with rfl | hfr
            · exact hi
            · exact hrest fr hfr
          by_cases hle : (q.length : Int) ≤ i + 1
          · have hoob1 : ¬ i.toNat + 1 < q.length := by omega
            have htb0 : tailEnum q b (i.toNat + 1) = [] := tailEnum_oob q b _ hoob1
            have hwb0 : work q b (i.toNat + 1) = 0 := work_oob q b _ hoob1
            rcases advanceFrames_spec q ((t, i) :: rest) b (i + 1) (by omega) hvalid' with
              ⟨hadv, hpp⟩ | ⟨fr', hadv, hne, hnn, hpY, hphi, hlen, _⟩
            · rw [hbody, if_pos hle, hadv]
              have hpnil : pendingY q ((t, i) :: rest) = [] := by
                have hp2 : pendingParents q ((b, i + 1) :: (t, i) :: rest)
                    = pendingY q ((t, i) :: rest) := by
                  rw [pendingParents_cons, ← hpframes, pendingY_cons]
                  have : tailEnum q b (i + 1).toNat = [] := by
                    rw [hcast]; exact htb0
                  have h2 : tailEnum q b (i + 1 + 1).toNat = [] :=
                    tailEnum_oob q b _ (by omega)
                  rw [this, h2]
                rw [← hp2, hpp]
              constructor
              · intro _
                exact ⟨_, rfl⟩
              · intro v vs hvvs
                rw [hpnil] at hvvs
                exact absurd hvvs (by simp)
            · rcases fr' with _ | ⟨⟨t2, i2⟩, rest2⟩
              · exact absurd rfl hne
              · have hi2 : 0 ≤ i2 := hnn (t2, i2) (List.mem_cons_self _ _)
                have hrest2 : ∀ fr ∈ rest2, 0 ≤ fr.2 :=
                  fun fr hfr => hnn fr (List.mem_cons_of_mem _ hfr)
                have hp2 : pendingParents q ((b, i + 1) :: (t, i) :: rest)
                    = pendingY q ((t, i) :: rest) := by
                  rw [pendingParents_cons, ← hpframes, pendingY_cons]
                  have h1 : tailEnum q b (i + 1).toNat = [] := by
                    rw [hcast]; exact htb0
                  have h2 : tailEnum q b (i + 1 + 1).toNat = [] :=
                    tailEnum_oob q b _ (by omega)
                  rw [h1, h2]
                have hpend2 : pendingY q ((t2, i2) :: rest2) = pendingY q ((t, i) :: rest) := by
                  rw [hpY, hp2]
                have hm2 : loopMeasure q ((t2, i2) :: rest2)
                    < loopMeasure q ((t, i) :: rest) := by
                  unfold loopMeasure
                  have hphi2 : phiParents q ((b, i + 1) :: (t, i) :: rest) + 2
                      ≤ phiY q ((t, i) :: rest) := by
                    rw [phiParents_cons, phiParents_cons, phiY_cons, hwork]
                    have h1 : work q b (i + 1 + 1).toNat = 0 := work_oob q b _ (by omega)
                    have h2 : work q t (i + 1).toNat = work q t (i.toNat + 1) := by
                      rw [hcast]
                    rw [h1, h2]
                    omega
                  simp only [List.length_cons] at hlen ⊢
                  omega
                have hrec := ih t2 i2 rest2 value hi2 hrest2 (by omega)
                rw [hbody, if_pos hle, hadv]
                constructor
                · intro hnil
                  exact hrec.1 (by rw [hpend2, hnil])
                · intro v vs hvvs
                  obtain ⟨t', i', rest', heq, hi', hrest', hpend', hm'⟩ :=
                    hrec.2 v vs (by rw [hpend2, hvvs])
                  exact ⟨t', i', rest', heq, hi', hrest', hpend', lt_trans hm' hm2⟩
          · -- continue deeper at the child
            have hm2 : loopMeasure q ((b, i + 1) :: (t, i) :: rest)
                < loopMeasure q ((t, i) :: rest) := by
              unfold loopMeasure
              have h1 : phiY q ((b, i + 1) :: (t, i) :: rest) + 2 ≤ phiY q ((t, i) :: rest) := by
                rw [phiY_cons, phiY_cons, phiParents_cons, hwork]
                have h2 : work q b (i + 1).toNat = work q b (i.toNat + 1) := by rw [hcast]
                have h3 : work q t (i + 1).toNat = work q t (i.toNat + 1) := by rw [hcast]
                rw [h2, h3]
                omega
              simp only [List.length_cons]
              omega
            have hrec := ih b (i + 1) ((t, i) :: rest) value (by omega) hvalid' (by omega)
            rw [hbody, if_neg hle]
            constructor
            · intro hnil
              exact hrec.1 (by rw [hpframes, hnil])
            · intro v vs hvvs
              obtain ⟨t', i', rest', heq, hi', hrest', hpend', hm'⟩ :=
                hrec.2 v vs (by rw [hpframes, hvvs])
              exact ⟨t', i', rest', heq, hi', hrest', hpend', lt_trans hm' hm2⟩
        · -- child holds a value: yield it
          have hbody : subItLoop q (fuel + 1) ((t, i) :: rest) value =
              some ({ frames := (b, i + 1) :: (t, i) :: rest, seq := q, value := some v },
                true) := by
            conv_lhs => unfold subItLoop
            rw [hscrut]
            dsimp only
            rw [hbv]
          have hpframes : pendingY q ((t, i) :: rest)
              = v :: pendingY q ((b, i + 1) :: (t, i) :: rest) := by
            rw [pendingY_cons, pendingY_cons, pendingParents_cons, htail, hbv, hcast]
            simp
          constructor
          · intro hnil
            rw [hpframes] at hnil
            exact absurd hnil (by simp)
          · intro v' vs hvvs
            rw [hpframes] at hvvs
            injection hvvs with hv1 hv2
            subst hv1
            refine ⟨b, i + 1, (t, i) :: rest, ?_, by omega, ?_, hv2.symm ▸ rfl, ?_⟩
            · rw [hbody]
            · intro fr hfr
              rcases List.mem_cons.mp hfr with rfl | hfr
              · exact hi
              · exact hrest fr hfr
            · unfold loopMeasure
              have h1 : phiY q ((b, i + 1) :: (t, i) :: rest) + 2 ≤ phiY q ((t, i) :: rest) := by
                rw [phiY_cons, phiY_cons, phiParents_cons, hwork]
                have h2 : work q b (i + 1).toNat = work q b (i.toNat + 1) := by rw [hcast]
                have h3 : work q t (i + 1).toNat = work q t (i.toNat + 1) := by rw [hcast]
                rw [h2, h3]
                omega
              simp only [List.length_cons]
              omega
    · -- current position is past the end of the sequence
      have hseq : seqAt q i = none := seqAt_none q i (fun hc => hin hc.2)
      have hscrut : (seqAt q i).bind (fun sym => aget t.branches sym) = none := by
        rw [hseq]
        rfl
      have hbody : subItLoop q (fuel + 1) ((t, i) :: rest) value =
          match advanceFrames q.length ((t, i) :: rest) with
          | none => some (exhaustedState q ((t, i) :: rest) value, false)
          | some frames' => subItLoop q fuel frames' value := by
        conv_lhs => unfold subItLoop
        rw [hscrut]
      have ht0 : tailEnum q t i.toNat = [] := tailEnum_oob q t _ hin
      have ht1 : tailEnum q t (i + 1).toNat = [] := tailEnum_oob q t _ (by omega)
      have hw0 : work q t i.toNat = 0 := work_oob q t _ hin
      have hw1 : work q t (i + 1).toNat = 0 := work_oob q t _ (by omega)
      have hpequal : pendingY q ((t, i) :: rest) = pendingParents q ((t, i) :: rest) := by
        rw [pendingY_cons, pendingParents_cons, ht0, ht1]
      rcases advanceFrames_spec q rest t i hi hrest with
        ⟨hadv, hpp⟩ | ⟨fr', hadv, hne, hnn, hpY, hphi, hlen, hor⟩
      · rw [hbody, hadv]
        constructor
        · intro _
          exact ⟨_, rfl⟩
        · intro v vs hvvs
          rw [hpequal, hpp] at hvvs
          exact absurd hvvs (by simp)
      · rcases fr' with _ | ⟨⟨t2, i2⟩, rest2⟩
        · exact absurd rfl hne
        · have hi2 : 0 ≤ i2 := hnn (t2, i2) (List.mem_cons_self _ _)
          have hrest2 : ∀ fr ∈ rest2, 0 ≤ fr.2 :=
            fun fr hfr => hnn fr (List.mem_cons_of_mem _ hfr)
          have hlen2 : ((t2, i2) :: rest2).length ≤ rest.length := by
            rcases hor with hor | hor
            · exact absurd hor (by omega)
            · exact hor
          have hm2 : loopMeasure q ((t2, i2) :: rest2) < loopMeasure q ((t, i) :: rest) := by
            unfold loopMeasure
            have h1 : phiParents q ((t, i) :: rest) = phiY q ((t, i) :: rest) := by
              rw [phiY_cons, phiParents_cons, hw0, hw1]
            simp only [List.length_cons] at hlen2 ⊢
            omega
          have hpend2 : pendingY q ((t2, i2) :: rest2) = pendingY q ((t, i) :: rest) := by
            rw [hpY, ← hpequal]
          have hrec := ih t2 i2 rest2 value hi2 hrest2 (by omega)
          rw [hbody, hadv]
          constructor
          · intro hnil
            exact hrec.1 (by rw [hpend2, hnil])
          · intro v vs hvvs
            obtain ⟨t', i', rest', heq, hi', hrest', hpend', hm'⟩ :=
              hrec.2 v vs (by rw [hpend2, hvvs])
            exact ⟨t', i', rest', heq, hi', hrest', hpend', lt_trans hm' hm2⟩

theorem subItDrive_spec {S T : Type} [DecidableEq S] (q : List S) :
    ∀ (fuel : Nat) (t : Trie S T) (i : Int) (rest : List (Trie S T × Int)) (w : T),
      0 ≤ i → (∀ fr ∈ rest, 0 ≤ fr.2) →
      loopMeasure q ((t, i) :: rest) + 2 ≤ fuel →
      subItDrive fuel { frames := (t, i) :: rest, seq := q, value := some w }
        = some (pendingY q ((t, i) :: rest)) := by
  intro fuel
  induction fuel with
  | zero =>
    intro t i rest w hi hrest hfuel
    exact absurd hfuel (by omega)
  | succ fuel ih =>
    intro t i rest w hi hrest hfuel
    have hnext : subItNext fuel { frames := (t, i) :: rest, seq := q, value := some w }
        = subItLoop q fuel ((t, i) :: rest) (some w) := by
      cases rest with
      | nil => rfl
      | cons fr0 rest' => rfl
    have hloop := subItLoop_spec q fuel t i rest (some w) hi hrest (by omega)
    rcases hpend : pendingY q ((t, i) :: rest) with _ | ⟨v, vs⟩
    · obtain ⟨st', hst'⟩ := hloop.1 hpend
      unfold subItDrive
      rw [hnext, hst']
    · obtain ⟨t', i', rest', heq, hi', hrest', hpend', hm'⟩ := hloop.2 v vs hpend
      unfold subItDrive
      rw [hnext, heq]
      dsimp only
      have hdr := ih t' i' rest' v hi' hrest' (by omega)
      rw [hdr, hpend']
      rfl

theorem pendingY_single {S T : Type} [DecidableEq S] (q : List S) (t : Trie S T) :
    pendingY q [(t, 0)] = tailEnum q t 0 := by
  rw [pendingY_cons]
  show tailEnum q t 0 ++ pendingParents q [] = tailEnum q t 0
  simp [pendingParents]

/-- Driving the iterator from `reset(q, trie)` terminates and yields exactly
the list produced by the recursive enumeration `foreachSubsequenceInTrie`. -/
theorem subItDrive_reset {S T : Type} [DecidableEq S] (q : List S) (t : Trie S T) :
    subItDrive (loopMeasure q [(t, 0)] + 3) (subItReset q t)
      = some (subseqValuesFrom q t 0) := by
  have hM : loopMeasure q [(t, 0)] + 3 = (loopMeasure q [(t, 0)] + 2) + 1 := by omega
  show subItDrive (loopMeasure q [(t, 0)] + 3)
      { frames := [(t, 0)], seq := q, value := none } = _
  rw [hM]
  rcases htv : t.value with _ | v
  · have hnext : subItNext (loopMeasure q [(t, 0)] + 2)
        { frames := [(t, 0)], seq := q, value := (none : Option T) }
        = subItLoop q (loopMeasure q [(t, 0)] + 2) [(t, 0)] none := by
      unfold subItNext
      dsimp only
      rw [htv]
    have hloop := subItLoop_spec q (loopMeasure q [(t, 0)] + 2) t 0 [] none
      (le_refl 0) (by simp) (by omega)
    have hsv : subseqValuesFrom q t 0 = tailEnum q t 0 := by
      unfold subseqValuesFrom
      rw [htv]
      rfl
    have hps : subseqValuesFrom q t 0 = pendingY q [(t, 0)] := by
      rw [hsv, pendingY_single q t]
    rw [hps]
    rcases hpend : pendingY q [(t, 0)] with _ | ⟨v, vs⟩
    · obtain ⟨st', hst'⟩ := hloop.1 hpend
      unfold subItDrive
      rw [hnext, hst']
    · obtain ⟨t', i', rest', heq, hi', hrest', hpend', hm'⟩ := hloop.2 v vs hpend
      unfold subItDrive
      rw [hnext, heq]
      dsimp only
      have hdr := subItDrive_spec q (loopMeasure q [(t, 0)] + 2) t' i' rest' v hi' hrest'
        (by omega)
      rw [hdr, hpend']
      rfl
  · have hnext : subItNext (loopMeasure q [(t, 0)] + 2)
        { frames := [(t, 0)], seq := q, value := (none : Option T) }
        = some ({ frames := [(t, 0)], seq := q, value := some v }, true) := by
      unfold subItNext
      dsimp only
      rw [htv]
    unfold subItDrive
    rw [hnext]
    dsimp only
    have hdr := subItDrive_spec q (loopMeasure q [(t, 0)] + 2) t 0 [] v
      (le_refl 0) (by simp) (by omega)
    rw [hdr]
    unfold subseqValuesFrom
    rw [htv, pendingY_single q t]

theorem aget_mem {K V : Type} [DecidableEq K] (l : List (K × V)) (k : K) (v : V)
    (h : aget l k = some v) : (k, v) ∈ l := by
  induction l with
  | nil => simp [aget] at h
  | cons p rest ih =>
    obtain ⟨k₀, v₀⟩ := p
    simp only [aget] at h
    by_cases hk : k₀ = k
    · rw [if_pos hk] at h
      injection h with h
      subst hk
      subst h
      exact List.mem_cons_self _ _
    · rw [if_neg hk] at h
      exact List.mem_cons_of_mem _ (ih h)

theorem wfb_keys {S T : Type} [DecidableEq S] (t : Trie S T) (h : t.wfb = true) :
    (t.branches.map Prod.fst).Nodup := by
  cases t with
  | node v bs =>
    unfold Trie.wfb at h
    simp only [Bool.and_eq_true, decide_eq_true_eq] at h
    exact h.1

theorem wfb_child {S T : Type} [DecidableEq S] (t : Trie S T) (s : S) (b : Trie S T)
    (h : t.wfb = true) (hb : aget t.branches s = some b) : b.wfb = true := by
  cases t with
  | node v bs =>
    unfold Trie.wfb at h
    simp only [Bool.and_eq_true, decide_eq_true_eq, List.all_eq_true] at h
    have hmem : (s, b) ∈ bs := aget_mem bs s b hb
    exact h.2 ⟨(s, b), hmem⟩ (List.mem_attach _ _)

theorem attach_flatMap {α β : Type} (l : List α) (g : α → List β) :
    l.attach.flatMap (fun p => g p.1) = l.flatMap g := by
  have h1 : l.attach.map (fun p => p.1) = l := by
    have := List.attach_map_val l id
    simpa using this
  conv_rhs => rw [← h1]
  rw [List.flatMap_map]

theorem nodePaths_eq {S T : Type} (v : Option T) (bs : List (S × Trie S T)) :
    nodePaths (Trie.node v bs) = ([], v) :: childPaths (Trie.node v bs) := by
  unfold nodePaths childPaths
  congr 1
  exact attach_flatMap bs (fun x => (nodePaths x.2).map (fun r => (x.1 :: r.1, r.2)))

/-- Contribution of one branch `(s, b)` to the subsequence matches of `Q`. -/
def branchTerm {S T : Type} [DecidableEq S] (Q : List S) (s : S) (b : Trie S T) : List T :=
  (nodePaths b).filterMap (fun r => if isSubseq (s :: r.1) Q = true then r.2 else none)

theorem flatMap_congr_mem {α β : Type} (l : List α) (f g : α → List β)
    (h : ∀ a ∈ l, f a = g a) : l.flatMap f = l.flatMap g := by
  induction l with
  | nil => rfl
  | cons a rest ih =>
    simp only [List.flatMap_cons]
    rw [h a (List.mem_cons_self _ _), ih (fun a ha => h a (List.mem_cons_of_mem _ ha))]

theorem matchingTail_branches {S T : Type} [DecidableEq S] (t : Trie S T) (Q : List S) :
    matchingTail t Q = t.branches.flatMap (fun p => branchTerm Q p.1 p.2) := by
  unfold matchingTail childPaths branchTerm
  rw [List.filterMap_flatMap]
  apply flatMap_congr_mem
  intro p _
  rw [List.filterMap_map]
  rfl

theorem matchingValues_eq {S T : Type} [DecidableEq S] (t : Trie S T) (Q : List S) :
    matchingValues t Q = t.value.toList ++ matchingTail t Q := by
  cases t with
  | node v bs =>
    unfold matchingValues matchingTail
    rw [nodePaths_eq, List.filterMap_cons]
    cases v with
    | none => simp [Trie.value, isSubseq]
    | some x => simp [Trie.value, isSubseq]

theorem isSubseq_cons_same {α : Type} [DecidableEq α] (x : α) (p Q : List α) :
    isSubseq (x :: p) (x :: Q) = isSubseq p Q := by
  conv_lhs => unfold isSubseq
  rw [if_pos rfl]

theorem isSubseq_cons_diff {α : Type} [DecidableEq α] (s x : α) (p Q : List α)
    (h : s ≠ x) : isSubseq (s :: p) (x :: Q) = isSubseq (s :: p) Q := by
  conv_lhs => unfold isSubseq
  rw [if_neg h]

theorem isSubseq_false_of_not_mem {α : Type} [DecidableEq α] (x : α) (p Q : List α)
    (hx : x ∉ Q) : isSubseq (x :: p) Q = false := by
  rcases Bool.eq_false_or_eq_true (isSubseq (x :: p) Q) with h | h
  · have := ((isSubseq_iff_sublist (x :: p) Q).mp h).subset (List.mem_cons_self x p)
    exact absurd this hx
  · exact h

theorem branchTerm_same {S T : Type} [DecidableEq S] (x : S) (Q : List S) (b : Trie S T) :
    branchTerm (x :: Q) x b = matchingValues b Q := by
  unfold branchTerm matchingValues
  apply List.filterMap_congr
  intro r _
  rw [isSubseq_cons_same]

theorem branchTerm_diff {S T : Type} [DecidableEq S] (s x : S) (Q : List S) (b : Trie S T)
    (h : s ≠ x) : branchTerm (x :: Q) s b = branchTerm Q s b := by
  unfold branchTerm
  apply List.filterMap_congr
  intro r _
  rw [isSubseq_cons_diff s x r.1 Q h]

theorem branchTerm_not_mem {S T : Type} [DecidableEq S] (x : S) (Q : List S) (b : Trie S T)
    (hx : x ∉ Q) : branchTerm Q x b = [] := by
  unfold branchTerm
  rw [List.filterMap_eq_nil_iff]
  intro r _
  rw [if_neg]
  rw [isSubseq_false_of_not_mem x r.1 Q hx]
  exact Bool.false_ne_true

theorem perm_shuffle {α : Type} (a m r : List α) :
    List.Perm (a ++ (m ++ r)) (m ++ (a ++ r)) := by
  rw [show a ++ (m ++ r) = (a ++ m) ++ r from (List.append_assoc _ _ _).symm,
    show m ++ (a ++ r) = (m ++ a) ++ r from (List.append_assoc _ _ _).symm]
  exact List.perm_append_comm.append_right r

theorem matchingTail_nil {S T : Type} [DecidableEq S] (t : Trie S T) :
    matchingTail t ([] : List S) = [] := by
  rw [matchingTail_branches, List.flatMap_eq_nil_iff]
  intro p _
  exact branchTerm_not_mem p.1 [] p.2 (List.not_mem_nil _)

theorem flatMap_branchTerm_cons {S T : Type} [DecidableEq S] (x : S) (Q : List S)
    (hx : x ∉ Q) : ∀ (bs : List (S × Trie S T)), (bs.map Prod.fst).Nodup →
    List.Perm (bs.flatMap (fun p => branchTerm (x :: Q) p.1 p.2))
      ((match aget bs x with
        | some b => matchingValues b Q
        | none => ([] : List T)) ++ bs.flatMap (fun p => branchTerm Q p.1 p.2)) := by
  intro bs
  induction bs with
  | nil =>
    intro _
    simp [aget]
  | cons p rest ih =>
    obtain ⟨s, b⟩ := p
    intro hnd
    rw [List.map_cons, List.nodup_cons] at hnd
    by_cases hsx : s = x
    · subst hsx
      have hrest : rest.flatMap (fun p => branchTerm (s :: Q) p.1 p.2)
          = rest.flatMap (fun p => branchTerm Q p.1 p.2) := by
        apply flatMap_congr_mem
        intro p hp
        have hne : p.1 ≠ s := by
          intro hcontra
          have hmem : p.1 ∈ rest.map Prod.fst := List.mem_map_of_mem Prod.fst hp
          exact hnd.1 (hcontra ▸ hmem)
        exact branchTerm_diff p.1 s Q p.2 hne
      have hag : aget ((s, b) :: rest) s = some b := by
        unfold aget
        rw [if_pos rfl]
      rw [hag, List.flatMap_cons, List.flatMap_cons, hrest,
        branchTerm_same s Q b, branchTerm_not_mem s Q b hx, List.nil_append]
    · have hag : aget ((s, b) :: rest) x = aget rest x := by
        show (if s = x then some b else aget rest x) = aget rest x
        rw [if_neg hsx]
      rw [hag, List.flatMap_cons, List.flatMap_cons,
        branchTerm_diff s x Q b hsx]
      have hstep := ih hnd.2
      refine List.Perm.trans (List.Perm.append_left _ hstep) ?_
      exact perm_shuffle (branchTerm Q s b) _ _

theorem matchingTail_cons {S T : Type} [DecidableEq S] (t : Trie S T)
    (hwf : t.wfb = true) (x : S) (Q : List S) (hx : x ∉ Q) :
    List.Perm (matchingTail t (x :: Q))
      ((match aget t.branches x with
        | some b => matchingValues b Q
        | none => ([] : List T)) ++ matchingTail t Q) := by
  rw [matchingTail_branches t (x :: Q), matchingTail_branches t Q]
  exact flatMap_branchTerm_cons x Q hx t.branches (wfb_keys t hwf)

theorem matchingTail_cons_some {S T : Type} [DecidableEq S] (t : Trie S T)
    (hwf : t.wfb = true) (x : S) (Q : List S) (b : Trie S T) (hx : x ∉ Q)
    (hb : aget t.branches x = some b) :
    List.Perm (matchingTail t (x :: Q)) (matchingValues b Q ++ matchingTail t Q) := by
  have h := matchingTail_cons t hwf x Q hx
  rw [hb] at h
  exact h

theorem matchingTail_cons_none {S T : Type} [DecidableEq S] (t : Trie S T)
    (hwf : t.wfb = true) (x : S) (Q : List S) (hx : x ∉ Q)
    (hb : aget t.branches x = none) :
    List.Perm (matchingTail t (x :: Q)) (matchingTail t Q) := by
  have h := matchingTail_cons t hwf x Q hx
  rw [hb] at h
  exact h

theorem tailEnum_perm {S T : Type} [DecidableEq S] (q : List S) (hq : q.Nodup) :
    ∀ (N : Nat) (t : Trie S T), sizeOf t ≤ N → t.wfb = true →
    ∀ (d i : Nat), q.length - i ≤ d →
      List.Perm (tailEnum q t i) (matchingTail t (q.drop i)) := by
  intro N
  induction N with
  | zero =>
    intro t hsz
    exfalso
    cases t with
    | node v bs =>
      simp only [Trie.node.sizeOf_spec] at hsz
      omega
  | succ N ihN =>
    intro t hszt hwf d
    induction d with
    | zero =>
      intro i hdi
      rw [tailEnum_oob q t i (by omega), List.drop_eq_nil_of_le (by omega), matchingTail_nil]
    | succ d ihd =>
      intro i hdi
      by_cases hin : i < q.length
      · have hdrop : q.drop i = q[i] :: q.drop (i + 1) := List.drop_eq_getElem_cons hin
        have hnodupDrop : (q.drop i).Nodup := List.Nodup.sublist (List.drop_sublist i q) hq
        have hxmem : q[i] ∉ q.drop (i + 1) := by
          rw [hdrop] at hnodupDrop
          exact (List.nodup_cons.mp hnodupDrop).1
        rcases hb : aget t.branches q[i] with _ | b
        · rw [tailEnum_step_none q t i hin hb, hdrop]
          exact List.Perm.trans (ihd (i + 1) (by omega))
            (matchingTail_cons_none t hwf q[i] (q.drop (i + 1)) hxmem hb).symm
        · rw [tailEnum_step_some q t b i hin hb, hdrop]
          have hwfb : b.wfb = true := wfb_child t q[i] b hwf hb
          have hszb : sizeOf b ≤ N := by
            have := aget_branch_sizeOf t q[i] b hb
            omega
          have hrecb := ihN b hszb hwfb q.length (i + 1) (by omega)
          have hrect := ihd (i + 1) (by omega)
          refine List.Perm.trans ?_
            (matchingTail_cons_some t hwf q[i] (q.drop (i + 1)) b hxmem hb).symm
          rw [matchingValues_eq]
          exact List.Perm.append (List.Perm.append_left _ hrecb) hrect
      · rw [tailEnum_oob q t i hin, List.drop_eq_nil_of_le (by omega), matchingTail_nil]

theorem subseqValuesFrom_perm_matching {S T : Type} [DecidableEq S] (q : List S)
    (t : Trie S T) (hwf : t.wfb = true) (hq : q.Nodup) :
    List.Perm (subseqValuesFrom q t 0) (matchingValues t q) := by
  unfold subseqValuesFrom
  rw [matchingValues_eq]
  apply List.Perm.append_left
  have h := tailEnum_perm q hq (sizeOf t) t le_rfl hwf q.length 0 (by omega)
  rw [List.drop_zero] at h
  exact h

theorem wfb_node_iff {S T : Type} [DecidableEq S] (v : Option T)
    (bs : List (S × Trie S T)) :
    Trie.wfb (Trie.node v bs) = true ↔
      ((bs.map Prod.fst).Nodup ∧ ∀ p ∈ bs, (Trie.wfb p.2) = true) := by
  conv_lhs => unfold Trie.wfb
  simp only [Bool.and_eq_true, decide_eq_true_eq, List.all_eq_true]
  constructor
  · rintro ⟨h1, h2⟩
    exact ⟨h1, fun p hp => h2 ⟨p, hp⟩ (List.mem_attach _ _)⟩
  · rintro ⟨h1, h2⟩
    exact ⟨h1, fun p _ => h2 p.1 p.2⟩

/-- Claim C2: Trie subsequence enumeration exactness. For every trie with
well-formed (duplicate-free) branch key lists and every duplicate-free query
sequence `q`, driving the `TrieSubsequenceIterator` — `reset(q)` followed by
repeated `next()` until it returns false — terminates (some fuel suffices) and
yields exactly the multiset of values stored at trie nodes whose path is a
subsequence of `q`, each such value yielded exactly once (the yielded list is a
permutation of the one-entry-per-matching-node list `matchingValues`). -/
theorem claimC2 {S T : Type} [DecidableEq S] (q : List S) (t : Trie S T)
    (hwf : t.wfb = true) (hq : q.Nodup) :
    ∃ (fuel : Nat) (ys : List T), subItDrive fuel (subItReset q t) = some ys ∧
      List.Perm ys (matchingValues t q) :=
  ⟨loopMeasure q [(t, 0)] + 3, subseqValuesFrom q t 0, subItDrive_reset q t,
    subseqValuesFrom_perm_matching q t hwf hq⟩

theorem claimC2_witness :
    (Trie.node none [(1, Trie.node (some 10) [(2, Trie.node (some 12) [])]),
      (3, Trie.node (some 30) [])] : Trie Nat Nat).wfb = true ∧
    ([1, 2, 3] : List Nat).Nodup ∧
    ∃ (fuel : Nat) (ys : List Nat),
      subItDrive fuel (subItReset [1, 2, 3]
        (Trie.node none [(1, Trie.node (some 10) [(2, Trie.node (some 12) [])]),
          (3, Trie.node (some 30) [])])) = some ys ∧
      List.Perm ys (matchingValues
        (Trie.node none [(1, Trie.node (some 10) [(2, Trie.node (some 12) [])]),
          (3, Trie.node (some 30) [])]) [1, 2, 3]) :=
  ⟨by simp [wfb_node_iff], by decide,
    claimC2 [1, 2, 3]
      (Trie.node none [(1, Trie.node (some 10) [(2, Trie.node (some 12) [])]),
        (3, Trie.node (some 30) [])]) (by simp [wfb_node_iff]) (by decide)⟩

/-! ### IndexBase and IndexIteratorBase (part_000 lines 520-760)

A storage cell of `IndexBase.storage` is a JS array slot holding `undefined`,
an entity id, or a component. `jsSet` models JS array assignment, which pads
with holes (`undefined`) when writing past the end. -/

inductive StorageCell (C : Type) : Type
  | empty : StorageCell C
  | ent (e : Int) : StorageCell C
  | comp (c : C) : StorageCell C
deriving DecidableEq

def jsSet {α : Type} (l : List α) (i : Nat) (v : α) (pad : α) : List α :=
  if i < l.length then l.set i v
  else l ++ List.replicate (i - l.length) pad ++ [v]

structure IndexBase (C : Type) : Type where
  types : List Nat
  entityISByEntity : List (Int × Nat)
  storage : List (StorageCell C)
  freeISs : List Nat
  addVer : Nat
  addVerObserved : Bool
  remVer : Nat
  remVerObserved : Bool
deriving DecidableEq

def IndexBase.new {C : Type} (types : List Nat) : IndexBase C :=
  { types := types, entityISByEntity := [], storage := [], freeISs := [],
    addVer := 0, addVerObserved := true, remVer := 0, remVerObserved := true }

/-- The loop `for (iC...) storage[iS + iC + 1] = components[iC]`; a missing
`components[iC]` is JS `undefined`, i.e. an empty cell. `pos` starts at `iS+1`. -/
def writeComps {C : Type} : List (StorageCell C) → Nat → Nat → List C → List (StorageCell C)
  | st, _, 0, _ => st
  | st, pos, n + 1, [] => writeComps (jsSet st pos StorageCell.empty StorageCell.empty) (pos + 1) n []
  | st, pos, n + 1, c :: rest =>
    writeComps (jsSet st pos (StorageCell.comp c) StorageCell.empty) (pos + 1) n rest

def IndexBase.add {C : Type} (ib : IndexBase C) (entity : Int) (components : List C) :
    IndexBase C :=
  let p : Nat × List Nat :=
    match aget ib.entityISByEntity entity with
    | some i => (i, ib.freeISs)
    | none =>
      match ib.freeISs.getLast? with
      | some i => (i, ib.freeISs.dropLast)
      | none => (ib.storage.length, ib.freeISs)
  let st1 := jsSet ib.storage p.1 (StorageCell.ent entity) StorageCell.empty
  { types := ib.types,
    entityISByEntity := aset ib.entityISByEntity entity p.1,
    storage := writeComps st1 (p.1 + 1) ib.types.length components,
    freeISs := p.2,
    addVer := if ib.addVerObserved then ib.addVer + 1 else ib.addVer,
    addVerObserved := false,
    remVer := ib.remVer, remVerObserved := ib.remVerObserved }

/-- Overwrite cells `iS .. iS+nC` with `undefined`. -/
def clearCells {C : Type} : List (StorageCell C) → Nat → Nat → List (StorageCell C)
  | st, _, 0 => st
  | st, pos, n + 1 => clearCells (jsSet st pos StorageCell.empty StorageCell.empty) (pos + 1) n

def IndexBase.remove {C : Type} (ib : IndexBase C) (entity : Int) : IndexBase C × Bool :=
  match aget ib.entityISByEntity entity with
  | none => (ib, false)
  | some iS =>
    ({ types := ib.types,
       entityISByEntity := adel ib.entityISByEntity entity,
       storage := clearCells ib.storage iS (ib.types.length + 1),
       freeISs := ib.freeISs ++ [iS],
       addVer := ib.addVer, addVerObserved := ib.addVerObserved,
       remVer := if ib.remVerObserved then ib.remVer + 1 else ib.remVer,
       remVerObserved := if ib.remVerObserved then false else ib.remVerObserved }, true)

/-- Linear search of `types` for `type`; found → update cell, absent entity →
`false`, type not in the index → throw. -/
def ibFindType (types : List Nat) (type : Nat) : Option Nat :=
  List.findIdx? (fun t => t = type) types

def IndexBase.emplace {C : Type} (ib : IndexBase C) (entity : Int) (type : Nat) (component : C) :
    Except String (IndexBase C × Bool) :=
  match aget ib.entityISByEntity entity with
  | none => Except.ok (ib, false)
  | some iS =>
    match ibFindType ib.types type with
    | some iC =>
      let st := jsSet ib.storage (iS + iC + 1) (StorageCell.comp component) StorageCell.empty
      Except.ok ({ ib with storage := st }, true)
    | none => Except.error "Type is not in the index"

def IndexBase.observeAddVer {C : Type} (ib : IndexBase C) : Nat × IndexBase C :=
  (ib.addVer, { ib with addVerObserved := true })

def IndexBase.observeRemVer {C : Type} (ib : IndexBase C) : Nat × IndexBase C :=
  (ib.remVer, { ib with remVerObserved := true })

/-- The iterator fields `$iS`, `$addVer`, `$remVer` of `IndexIteratorBase`. -/
structure IdxIter : Type where
  iS : Int
  addVerSnap : Nat
  remVerSnap : Nat
deriving DecidableEq

/-- `IndexIteratorBase` constructor: `$iS = -1 - names.length`, versions
snapshotted via `observeAddVer()` / `observeRemVer()`. -/
def mkIndexIterator {C : Type} (ib : IndexBase C) (names : List Nat) :
    IdxIter × IndexBase C :=
  let a := ib.observeAddVer
  let r := a.2.observeRemVer
  (⟨-1 - (names.length : Int), a.1, r.1⟩, r.2)

def IdxIter.wasAddedTo {C : Type} (it : IdxIter) (ib : IndexBase C) :
    Bool × IdxIter × IndexBase C :=
  let a := ib.observeAddVer
  if it.addVerSnap ≠ a.1 then (true, { it with addVerSnap := a.1 }, a.2)
  else (false, it, a.2)

def IdxIter.wasRemovedFrom {C : Type} (it : IdxIter) (ib : IndexBase C) :
    Bool × IdxIter × IndexBase C :=
  let r := ib.observeRemVer
  if it.remVerSnap ≠ r.1 then (true, { it with remVerSnap := r.1 }, r.2)
  else (false, it, r.2)

/-- Mutations on an `IndexBase` between iterator construction and first use:
the claim quantifies over `IndexBase.add` and `IndexBase.remove` calls. -/
inductive IBOp (C : Type) : Type
  | add (entity : Int) (components : List C) : IBOp C
  | rem (entity : Int) : IBOp C

def runIBOps {C : Type} (ib : IndexBase C) : List (IBOp C) → IndexBase C
  | [] => ib
  | IBOp.add e cs :: rest => runIBOps (ib.add e cs) rest
  | IBOp.rem e :: rest => runIBOps (ib.remove e).1 rest

def ibopIsAdd {C : Type} : IBOp C → Bool
  | IBOp.add _ _ => true
  | IBOp.rem _ => false

/-- Whether some `remove` in the op list actually removes an entity that is in
the index at that point in the run (only such removes bump `remVer`). -/
def anyEffRemove {C : Type} (ib : IndexBase C) : List (IBOp C) → Bool
  | [] => false
  | IBOp.add e cs :: rest => anyEffRemove (ib.add e cs) rest
  | IBOp.rem e :: rest =>
    (aget ib.entityISByEntity e).isSome || anyEffRemove (ib.remove e).1 rest

theorem add_addVer {C : Type} (ib : IndexBase C) (e : Int) (cs : List C) :
    (ib.add e cs).addVer = (if ib.addVerObserved then ib.addVer + 1 else ib.addVer) := by
  simp [IndexBase.add]

theorem add_addVerObserved {C : Type} (ib : IndexBase C) (e : Int) (cs : List C) :
    (ib.add e cs).addVerObserved = false := by
  simp [IndexBase.add]

theorem add_remVer {C : Type} (ib : IndexBase C) (e : Int) (cs : List C) :
    (ib.add e cs).remVer = ib.remVer := by
  simp [IndexBase.add]

theorem add_remVerObserved {C : Type} (ib : IndexBase C) (e : Int) (cs : List C) :
    (ib.add e cs).remVerObserved = ib.remVerObserved := by
  simp [IndexBase.add]

theorem remove_addVer {C : Type} (ib : IndexBase C) (e : Int) :
    ((ib.remove e).1).addVer = ib.addVer := by
  unfold IndexBase.remove
  cases aget ib.entityISByEntity e <;> rfl

theorem remove_addVerObserved {C : Type} (ib : IndexBase C) (e : Int) :
    ((ib.remove e).1).addVerObserved = ib.addVerObserved := by
  unfold IndexBase.remove
  cases aget ib.entityISByEntity e <;> rfl

theorem remove_remVer_none {C : Type} (ib : IndexBase C) (e : Int)
    (h : aget ib.entityISByEntity e = none) : (ib.remove e).1 = ib := by
  unfold IndexBase.remove
  rw [h]

theorem remove_remVer_some {C : Type} (ib : IndexBase C) (e : Int) (iS : Nat)
    (h : aget ib.entityISByEntity e = some iS) :
    ((ib.remove e).1).remVer = (if ib.remVerObserved then ib.remVer + 1 else ib.remVer) ∧
    ((ib.remove e).1).remVerObserved = (if ib.remVerObserved then false else ib.remVerObserved) := by
  unfold IndexBase.remove
  rw [h]
  exact ⟨rfl, rfl⟩

theorem ibops_add_tracking {C : Type} (ops : List (IBOp C)) : ∀ (ib : IndexBase C),
    (runIBOps ib ops).addVer
      = (if ops.any ibopIsAdd && ib.addVerObserved then ib.addVer + 1 else ib.addVer) ∧
    (runIBOps ib ops).addVerObserved = (ib.addVerObserved && !(ops.any ibopIsAdd)) := by
  induction ops with
  | nil =>
    intro ib
    simp [runIBOps]
  | cons op rest ih =>
    intro ib
    cases op with
    | add e cs =>
      obtain ⟨h1, h2⟩ := ih (ib.add e cs)
      constructor
      · show (runIBOps (ib.add e cs) rest).addVer = _
        rw [h1, add_addVer, add_addVerObserved]
        cases hobs : ib.addVerObserved <;> simp [ibopIsAdd]
      · show (runIBOps (ib.add e cs) rest).addVerObserved = _
        rw [h2, add_addVerObserved]
        simp [ibopIsAdd]
    | rem e =>
      obtain ⟨h1, h2⟩ := ih (ib.remove e).1
      constructor
      · show (runIBOps (ib.remove e).1 rest).addVer = _
        rw [h1, remove_addVer, remove_addVerObserved]
        simp [ibopIsAdd]
      · show (runIBOps (ib.remove e).1 rest).addVerObserved = _
        rw [h2, remove_addVerObserved]
        simp [ibopIsAdd]

theorem ibops_rem_tracking {C : Type} (ops : List (IBOp C)) : ∀ (ib : IndexBase C),
    (runIBOps ib ops).remVer
      = (if anyEffRemove ib ops && ib.remVerObserved then ib.remVer + 1 else ib.remVer) ∧
    (runIBOps ib ops).remVerObserved = (ib.remVerObserved && !(anyEffRemove ib ops)) := by
  induction ops with
  | nil =>
    intro ib
    simp [runIBOps, anyEffRemove]
  | cons op rest ih =>
    intro ib
    cases op with
    | add e cs =>
      obtain ⟨h1, h2⟩ := ih (ib.add e cs)
      constructor
      · show (runIBOps (ib.add e cs) rest).remVer
          = (if anyEffRemove (ib.add e cs) rest && ib.remVerObserved then ib.remVer + 1
             else ib.remVer)
        rw [h1, add_remVer, add_remVerObserved]
      · show (runIBOps (ib.add e cs) rest).remVerObserved
          = (ib.remVerObserved && !(anyEffRemove (ib.add e cs) rest))
        rw [h2, add_remVerObserved]
    | rem e =>
      rcases haget : aget ib.entityISByEntity e with _ | iS
      · have hid : (ib.remove e).1 = ib := remove_remVer_none ib e haget
        obtain ⟨h1, h2⟩ := ih ib
        have heff : anyEffRemove ib (IBOp.rem e :: rest) = anyEffRemove ib rest := by
          show ((aget ib.entityISByEntity e).isSome || anyEffRemove (ib.remove e).1 rest)
            = anyEffRemove ib rest
          rw [haget, hid]
          simp
        constructor
        · show (runIBOps (ib.remove e).1 rest).remVer = _
          rw [hid, h1, heff]
        · show (runIBOps (ib.remove e).1 rest).remVerObserved = _
          rw [hid, h2, heff]
      · obtain ⟨hv, ho⟩ := remove_remVer_some ib e iS haget
        obtain ⟨h1, h2⟩ := ih (ib.remove e).1
        have heff : anyEffRemove ib (IBOp.rem e :: rest) = true := by
          show ((aget ib.entityISByEntity e).isSome || anyEffRemove (ib.remove e).1 rest) = true
          rw [haget]
          simp
        constructor
        · show (runIBOps (ib.remove e).1 rest).remVer = _
          rw [h1, hv, ho, heff]
          cases hobs : ib.remVerObserved <;> simp
        · show (runIBOps (ib.remove e).1 rest).remVerObserved = _
          rw [h2, ho, heff]
          cases hobs : ib.remVerObserved <;> simp

theorem mkIndexIterator_eq {C : Type} (ib : IndexBase C) (names : List Nat) :
    mkIndexIterator ib names
      = (⟨-1 - (names.length : Int), ib.addVer, ib.remVer⟩,
         { ib with addVerObserved := true, remVerObserved := true }) := rfl

theorem wasAddedTo_fst {C : Type} (it : IdxIter) (ib : IndexBase C) :
    (it.wasAddedTo ib).1 = decide (it.addVerSnap ≠ ib.addVer) := by
  by_cases h : it.addVerSnap = ib.addVer <;>
    simp [IdxIter.wasAddedTo, IndexBase.observeAddVer, h]

theorem wasRemovedFrom_fst {C : Type} (it : IdxIter) (ib : IndexBase C) :
    (it.wasRemovedFrom ib).1 = decide (it.remVerSnap ≠ ib.remVer) := by
  by_cases h : it.remVerSnap = ib.remVer <;>
    simp [IdxIter.wasRemovedFrom, IndexBase.observeRemVer, h]

/-- Claim C8 counterexample: the counters are NOT immune to mutations between
iterator construction and the first call. Constructing an iterator, then
calling `IndexBase.add`, makes the first `wasAddedTo()` return `true` (the
`add` bumps `addVer` because the constructor's `observeAddVer()` marked the
version observed); likewise an effective `IndexBase.remove` makes the first
`wasRemovedFrom()` return `true`. This refutes the claim that the first call
returns `false` regardless of intervening mutations. -/
theorem claimC8_counterexample :
    ((mkIndexIterator (IndexBase.new [0] : IndexBase Nat) [5]).1.wasAddedTo
      ((mkIndexIterator (IndexBase.new [0] : IndexBase Nat) [5]).2.add 7 [42])).1 = true ∧
    ((mkIndexIterator (IndexBase.new [0] : IndexBase Nat) [5]).1.wasRemovedFrom
      ((((mkIndexIterator (IndexBase.new [0] : IndexBase Nat) [5]).2.add 7 [42]).remove
        7).1)).1 = true := by
  decide

/-- Claim C8 (amended): the first `wasAddedTo()` / `wasRemovedFrom()` calls
after constructing an `IndexIteratorBase` return `false` if no mutations
happened in between — but not regardless of mutations. Precisely: after any
sequence of `add` / `remove` operations between construction and the first
call, the first `wasAddedTo()` returns `true` iff the sequence contains at
least one `add`, and the first `wasRemovedFrom()` returns `true` iff it
contains at least one effective `remove` (one whose entity was in the index).
With an empty sequence both return `false`, which is the only reading of the
original claim that holds. -/
theorem claimC8_amended {C : Type} (ib : IndexBase C) (names : List Nat)
    (ops : List (IBOp C)) :
    (((mkIndexIterator ib names).1).wasAddedTo
        (runIBOps (mkIndexIterator ib names).2 ops)).1 = ops.any ibopIsAdd ∧
    (((mkIndexIterator ib names).1).wasRemovedFrom
        (runIBOps (mkIndexIterator ib names).2 ops)).1
      = anyEffRemove (mkIndexIterator ib names).2 ops := by
  rw [mkIndexIterator_eq]
  obtain ⟨hA1, _⟩ :=
    ibops_add_tracking ops { ib with addVerObserved := true, remVerObserved := true }
  obtain ⟨hR1, _⟩ :=
    ibops_rem_tracking ops { ib with addVerObserved := true, remVerObserved := true }
  constructor
  · rw [wasAddedTo_fst, hA1]
    cases hany : ops.any ibopIsAdd <;> simp
  · rw [wasRemovedFrom_fst, hR1]
    cases hany : anyEffRemove { ib with addVerObserved := true, remVerObserved := true } ops <;>
      simp

/-! ### The World (part_000 lines 760-1392)

`World.create` and `World.destroy` drive the shared `TrieSubsequenceIterator`
(`indexByComponentsSubIt`) over `indexByComponents` to find the indexes whose
sorted type list is a subsequence of the entity's sorted type list. The
iterator was modelled and verified above: `subItDrive_reset` shows a full
drive yields `subseqValuesFrom`, and `subseqValuesFrom_perm_matching` shows
that enumeration is a permutation of `matchingValues`. `walkIds` below is the
query-structural equivalent of that enumeration (`walkIds_mem` characterises
its members); the `World` model uses it so that runs on concrete worlds reduce
inside the kernel. -/

def walkIds {S T : Type} [DecidableEq S] (t : Trie S T) : List S → List T
  | [] => t.value.toList
  | x :: rest =>
    (match aget t.branches x with
     | some b => walkIds b rest
     | none => []) ++ walkIds t rest

theorem getInTrie_emptyNode {S T : Type} [DecidableEq S] (p : List S) :
    getInTrie (Trie.node none ([] : List (S × Trie S T))) p = none := by
  cases p with
  | nil => rfl
  | cons y rest => rfl

theorem value_node {S T : Type} (v : Option T) (bs : List (S × Trie S T)) :
    (Trie.node v bs).value = v := rfl

theorem branches_node {S T : Type} (v : Option T) (bs : List (S × Trie S T)) :
    (Trie.node v bs).branches = bs := rfl

theorem getInTrie_nil {S T : Type} [DecidableEq S] (t : Trie S T) :
    getInTrie t [] = t.value := rfl

theorem getInTrie_cons {S T : Type} [DecidableEq S] (t : Trie S T) (y : S) (p : List S) :
    getInTrie t (y :: p)
      = (match aget t.branches y with
         | none => none
         | some b => getInTrie b p) := rfl

theorem setInTrie_nil {S T : Type} [DecidableEq S] (val : Option T)
    (bs : List (S × Trie S T)) (v : T) :
    setInTrie (Trie.node val bs) [] v = Trie.node (some v) bs := rfl

theorem setInTrie_cons {S T : Type} [DecidableEq S] (val : Option T)
    (bs : List (S × Trie S T)) (s : S) (rest : List S) (v : T) :
    setInTrie (Trie.node val bs) (s :: rest) v
      = Trie.node val
          (aset bs s (setInTrie ((aget bs s).getD (Trie.node none [])) rest v)) := rfl

theorem walkIds_nil {S T : Type} [DecidableEq S] (t : Trie S T) :
    walkIds t [] = t.value.toList := rfl

theorem walkIds_cons {S T : Type} [DecidableEq S] (t : Trie S T) (x : S) (Q : List S) :
    walkIds t (x :: Q)
      = (match aget t.branches x with
         | some b => walkIds b Q
         | none => []) ++ walkIds t Q := rfl

theorem getInTrie_setInTrie {S T : Type} [DecidableEq S] (ts : List S) :
    ∀ (t : Trie S T) (v : T) (p : List S),
      getInTrie (setInTrie t ts v) p = (if p = ts then some v else getInTrie t p) := by
  induction ts with
  | nil =>
    intro t v p
    cases t with
    | node val bs =>
      rw [setInTrie_nil]
      cases p with
      | nil => rw [if_pos rfl, getInTrie_nil, value_node]
      | cons y p' =>
        rw [if_neg (by simp), getInTrie_cons, getInTrie_cons, branches_node, branches_node]
  | cons s rest ih =>
    intro t v p
    cases t with
    | node val bs =>
      rw [setInTrie_cons]
      cases p with
      | nil =>
        rw [if_neg (by simp), getInTrie_nil, getInTrie_nil, value_node, value_node]
      | cons y p' =>
        rw [getInTrie_cons, getInTrie_cons, branches_node, branches_node, aget_aset]
        by_cases hys : s = y
        · rw [if_pos hys]
          show getInTrie (setInTrie ((aget bs s).getD (Trie.node none [])) rest v) p' = _
          rw [ih]
          by_cases hp : p' = rest
          · rw [if_pos hp, if_pos (by rw [hp, hys])]
          · rw [if_neg hp, if_neg (by intro hc; injection hc with _ h2; exact hp h2)]
            rw [show y = s from hys.symm]
            rcases hb : aget bs s with _ | b
            · simp [getInTrie_emptyNode]
            · simp
        · rw [if_neg hys, if_neg (by intro hc; injection hc with h1 _; exact hys h1.symm)]

theorem isSubseq_nil_left {α : Type} [DecidableEq α] (Q : List α) :
    isSubseq ([] : List α) Q = true := by
  cases Q <;> rfl

theorem isSubseq_cons_right {α : Type} [DecidableEq α] (p Q : List α) (x : α)
    (h : isSubseq p Q = true) : isSubseq p (x :: Q) = true :=
  (isSubseq_iff_sublist p (x :: Q)).mpr (List.Sublist.cons x ((isSubseq_iff_sublist p Q).mp h))

theorem walkIds_mem {S T : Type} [DecidableEq S] (q : List S) :
    ∀ (t : Trie S T) (k : T),
      k ∈ walkIds t q ↔ ∃ p, isSubseq p q = true ∧ getInTrie t p = some k := by
  induction q with
  | nil =>
    intro t k
    rw [walkIds_nil]
    constructor
    · intro hk
      refine ⟨[], isSubseq_nil_left [], ?_⟩
      rw [getInTrie_nil]
      cases hv : t.value with
      | none => rw [hv] at hk; simp [Option.toList] at hk
      | some w =>
        rw [hv] at hk
        simp [Option.toList] at hk
        rw [hk]
    · rintro ⟨p, hp, hg⟩
      cases p with
      | nil =>
        rw [getInTrie_nil] at hg
        rw [hg]
        simp [Option.toList]
      | cons y rest => exact absurd hp (by simp [isSubseq])
  | cons x Q ih =>
    intro t k
    rw [walkIds_cons, List.mem_append]
    constructor
    · rintro (hleft | hright)
      · rcases hb : aget t.branches x with _ | b
        · rw [hb] at hleft
          simp at hleft
        · rw [hb] at hleft
          obtain ⟨p, hp, hg⟩ := (ih b k).mp hleft
          refine ⟨x :: p, ?_, ?_⟩
          · rw [isSubseq_cons_same]
            exact hp
          · rw [getInTrie_cons, hb]
            exact hg
      · obtain ⟨p, hp, hg⟩ := (ih t k).mp hright
        exact ⟨p, isSubseq_cons_right p Q x hp, hg⟩
    · rintro ⟨p, hp, hg⟩
      cases p with
      | nil =>
        exact Or.inr ((ih t k).mpr ⟨[], isSubseq_nil_left Q, hg⟩)
      | cons y p' =>
        by_cases hyx : y = x
        · rw [hyx] at hp hg
          rw [isSubseq_cons_same] at hp
          rw [getInTrie_cons] at hg
          rcases hb : aget t.branches x with _ | b
          · rw [hb] at hg
            exact Option.noConfusion hg
          · rw [hb] at hg
            exact Or.inl ((ih b k).mpr ⟨p', hp, hg⟩)
        · rw [isSubseq_cons_diff y x p' Q hyx] at hp
          exact Or.inr ((ih t k).mpr ⟨y :: p', hp, hg⟩)

/-- A component instance: `type` models `constructor.name` (the component's
class name), `val` its payload, `hasFree` whether it has a `free` lifecycle
hook. The `added`/`removed`/`free` hooks themselves are modelled as inert;
`destroy` returns the collected free-hook components so the call order can be
stated. -/
structure Comp : Type where
  type : Nat
  val : Nat
  hasFree : Bool
deriving DecidableEq

/-- `components[type][entity] = component`, creating the storage object first
when absent (`if (storage == null) components[type] = {}`). -/
def compSet (components : List (Nat × List (Int × Comp))) (t : Nat) (e : Int) (c : Comp) :
    List (Nat × List (Int × Comp)) :=
  match aget components t with
  | none => components ++ [(t, [(e, c)])]
  | some st => aset components t (aset st e c)

/-- `if (this.components[type] === undefined) this.components[type] = {}`. -/
def ensureStorage (components : List (Nat × List (Int × Comp))) (t : Nat) :
    List (Nat × List (Int × Comp)) :=
  if (aget components t).isSome then components else components ++ [(t, [])]

def ensureAll (components : List (Nat × List (Int × Comp))) : List Nat →
    List (Nat × List (Int × Comp))
  | [] => components
  | t :: rest => ensureAll (ensureStorage components t) rest

/-- The duplicate scan over a sorted type list (`typeP === prevTypeP`). -/
def hasAdjacentDup : List Nat → Bool
  | [] => false
  | [_] => false
  | a :: b :: rest => a = b || hasAdjacentDup (b :: rest)

/-- The World. `registry` holds the `IndexBase` objects (JS references them
from both the trie and `indexesByComponent`; the model indirects through
registry positions). `trie` is `indexByComponents`, mapping a sorted type list
to the registry position of its index. Index storage cells hold
`Option Comp` because `World.create` gathers `components[type][entity]`
without an `undefined` check. -/
structure World : Type where
  entitySequence : Int
  entities : List Int
  components : List (Nat × List (Int × Comp))
  registry : List (IndexBase (Option Comp))
  trie : Trie Nat Nat
  indexesByComponent : List (Nat × List Nat)

def World.new : World :=
  { entitySequence := 0, entities := [], components := [], registry := [],
    trie := Trie.node none [], indexesByComponent := [] }

def World.has (w : World) (e : Int) (t : Nat) : Bool :=
  match aget w.components t with
  | none => false
  | some st => (aget st e).isSome

def World.get (w : World) (e : Int) (t : Nat) : Option Comp :=
  match aget w.components t with
  | none => none
  | some st => aget st e

/-- Gather `components[types[iC]][entity]` aborting the index on a missing
component (`if (ec === undefined) continue indexLoop`); a missing storage
object is a JS `TypeError`. Used by `World.emplace` and index seeding. -/
def gatherSkip (components : List (Nat × List (Int × Comp))) (types : List Nat) (e : Int) :
    Except String (Option (List (Option Comp)))  :=
  match types with
  | [] => Except.ok (some [])
  | t :: rest =>
    match aget components t with
    | none => Except.error "TypeError"
    | some st =>
      match aget st e with
      | none => Except.ok none
      | some c =>
        match gatherSkip components rest e with
        | Except.error m => Except.error m
        | Except.ok none => Except.ok none
        | Except.ok (some l) => Except.ok (some (some c :: l))

/-- Gather for `World.create`: no `undefined` check on the component
(`ecs[iIC] = componentsByTypeByEntity[typesI[iIC]][entity]`), so a missing
component is stored as `undefined`; a missing storage object throws. -/
def gatherCreate (components : List (Nat × List (Int × Comp))) (types : List Nat) (e : Int) :
    Except String (List (Option Comp)) :=
  match types with
  | [] => Except.ok []
  | t :: rest =>
    match aget components t with
    | none => Except.error "TypeError"
    | some st =>
      match gatherCreate components rest e with
      | Except.error m => Except.error m
      | Except.ok l => Except.ok (aget st e :: l)

def World.emplaceIndexLoop (w : World) (e : Int) (t : Nat) (c : Comp) :
    List Nat → World × Except String Unit
  | [] => (w, Except.ok ())
  | k :: rest =>
    match w.registry[k]? with
    | none => (w, Except.error "TypeError")
    | some ib =>
      match ib.emplace e t (some c) with
      | Except.error m => (w, Except.error m)
      | Except.ok (ib', true) =>
        World.emplaceIndexLoop { w with registry := w.registry.set k ib' } e t c rest
      | Except.ok (_, false) =>
        match gatherSkip w.components ib.types e with
        | Except.error m => (w, Except.error m)
        | Except.ok none => World.emplaceIndexLoop w e t c rest
        | Except.ok (some ecs) =>
          World.emplaceIndexLoop
            { w with registry := w.registry.set k (ib.add e ecs) } e t c rest

def World.emplace (w : World) (e : Int) (c : Comp) : World × Except String Unit :=
  if e ∈ w.entities then
    let w1 : World := { w with components := compSet w.components c.type e c }
    match aget w1.indexesByComponent c.type with
    | none => (w1, Except.ok ())
    | some ids => World.emplaceIndexLoop w1 e c.type c ids
  else (w, Except.error "Cannot set component for dead entity")

def storeAll (components : List (Nat × List (Int × Comp))) (e : Int) :
    List Comp → List (Nat × List (Int × Comp))
  | [] => components
  | c :: rest => storeAll (compSet components c.type e c) e rest

def World.createAddLoop (w : World) (e : Int) : List Nat → World × Except String Unit
  | [] => (w, Except.ok ())
  | k :: rest =>
    match w.registry[k]? with
    | none => (w, Except.error "TypeError")
    | some ib =>
      match gatherCreate w.components ib.types e with
      | Except.error m => (w, Except.error m)
      | Except.ok ecs =>
        World.createAddLoop { w with registry := w.registry.set k (ib.add e ecs) } e rest

def World.create (w : World) (cs : List Comp) : World × Except String Int :=
  let entity := w.entitySequence
  let w1 : World :=
    { w with entitySequence := w.entitySequence + 1, entities := setAdd w.entities entity }
  let w2 : World := { w1 with components := storeAll w1.components entity cs }
  let typesP := sortLe (cs.map Comp.type)
  if hasAdjacentDup typesP then (w2, Except.error "Duplicate component type in World.create")
  else
    match World.createAddLoop w2 entity (walkIds w2.trie typesP) with
    | (w3, Except.ok _) => (w3, Except.ok entity)
    | (w3, Except.error m) => (w3, Except.error m)

def World.insertLoop (w : World) (e : Int) : List Comp → World × Except String Unit
  | [] => (w, Except.ok ())
  | c :: rest =>
    match World.emplace w e c with
    | (w', Except.ok _) => World.insertLoop w' e rest
    | (w', Except.error m) => (w', Except.error m)

def World.insert (w : World) (e : Int) (cs : List Comp) : World × Except String Unit :=
  let w1 : World :=
    if e > w.entitySequence then { w with entitySequence := e + 1 } else w
  let w2 : World := { w1 with entities := setAdd w1.entities e }
  World.insertLoop w2 e cs

def World.removeFromIndexes (w : World) (e : Int) : List Nat → World
  | [] => w
  | k :: rest =>
    match w.registry[k]? with
    | none => World.removeFromIndexes w e rest
    | some ib =>
      World.removeFromIndexes
        { w with registry := w.registry.set k (ib.remove e).1 } e rest

def World.remove (w : World) (e : Int) (t : Nat) : World × Option Comp :=
  match aget w.components t with
  | none => (w, none)
  | some st =>
    let component := aget st e
    let w1 : World := { w with components := aset w.components t (adel st e) }
    match component with
    | none => (w1, none)
    | some c =>
      match aget w1.indexesByComponent t with
      | none => (w1, some c)
      | some ids => (World.removeFromIndexes w1 e ids, some c)

/-- The `for (const key in this.components)` scan of `World.destroy`:
collects the type names (via `component.constructor.name`) and free-hook
components of the entity, and deletes the entity from every storage. -/
def destroyScan (e : Int) :
    List (Nat × List (Int × Comp)) →
      List (Nat × List (Int × Comp)) × List Nat × List Comp
  | [] => ([], [], [])
  | (t, st) :: rest =>
    let r := destroyScan e rest
    ((t, adel st e) :: r.1,
     (match aget st e with
      | some c => c.type :: r.2.1
      | none => r.2.1),
     (match aget st e with
      | some c => if c.hasFree then c :: r.2.2 else r.2.2
      | none => r.2.2))

def World.destroy (w : World) (e : Int) : World × List Comp :=
  let w1 : World := { w with entities := setDel w.entities e }
  let r := destroyScan e w1.components
  let types := sortLe r.2.1
  let w2 : World := { w1 with components := r.1 }
  (World.removeFromIndexes w2 e (walkIds w2.trie types), r.2.2)

def indexesByComponentAdd (ibc : List (Nat × List Nat)) (k : Nat) :
    List Nat → List (Nat × List Nat)
  | [] => ibc
  | t :: rest =>
    let ibc' := match aget ibc t with
      | some ids => aset ibc t (ids ++ [k])
      | none => ibc ++ [(t, [k])]
    indexesByComponentAdd ibc' k rest

def World.seedLoop (w : World) (k : Nat) : List Int → World × Except String Unit
  | [] => (w, Except.ok ())
  | e :: rest =>
    match w.registry[k]? with
    | none => (w, Except.error "TypeError")
    | some ib =>
      match gatherSkip w.components ib.types e with
      | Except.error m => (w, Except.error m)
      | Except.ok none => World.seedLoop w k rest
      | Except.ok (some ecs) =>
        World.seedLoop { w with registry := w.registry.set k (ib.add e ecs) } k rest

def World.index (w : World) (spec : List (Nat × Nat)) : World × Except String IdxIter :=
  let w1 : World := { w with components := ensureAll w.components (spec.map Prod.snd) }
  let specs := sortByLe (fun a b => Nat.ble a.2 b.2) spec
  let names := specs.map Prod.fst
  let types := specs.map Prod.snd
  if hasAdjacentDup types then (w1, Except.error "Duplicate component type in index")
  else
    match getInTrie w1.trie types with
    | some k =>
      match w1.registry[k]? with
      | none => (w1, Except.error "TypeError")
      | some ib =>
        let r := mkIndexIterator ib names
        ({ w1 with registry := w1.registry.set k r.2 }, Except.ok r.1)
    | none =>
      let k := w1.registry.length
      let w2 : World := { w1 with
        registry := w1.registry ++ [IndexBase.new types],
        trie := setInTrie w1.trie types k,
        indexesByComponent := indexesByComponentAdd w1.indexesByComponent k types }
      match World.seedLoop w2 k w2.entities with
      | (w3, Except.error m) => (w3, Except.error m)
      | (w3, Except.ok _) =>
        match w3.registry[k]? with
        | none => (w3, Except.error "TypeError")
        | some ib =>
          let r := mkIndexIterator ib names
          ({ w3 with registry := w3.registry.set k r.2 }, Except.ok r.1)

def World.registerSingleton (w : World) (c : Comp) : World × Except String Unit :=
  let w1 : World := { w with entities := setAdd w.entities (-2) }
  World.emplace w1 (-2) c

def World.existsEntity (w : World) (e : Int) : Bool :=
  decide (e ∈ w.entities)

def World.size (w : World) : Nat :=
  w.entities.length

def World.all (w : World) : List Int :=
  w.entities

inductive WOp : Type where
  | create (cs : List Comp) : WOp
  | insert (e : Int) (cs : List Comp) : WOp
  | emplace (e : Int) (c : Comp) : WOp
  | remove (e : Int) (t : Nat) : WOp
  | destroy (e : Int) : WOp
  | index (spec : List (Nat × Nat)) : WOp
  | registerSingleton (c : Comp) : WOp

/-- One public operation: the world after it, and whether it completed
without throwing (a JS exception leaves the mutations made so far in place). -/
def applyWOp (w : World) : WOp → World × Bool
  | WOp.create cs => ((w.create cs).1, exceptIsOk (w.create cs).2)
  | WOp.insert e cs => ((w.insert e cs).1, exceptIsOk (w.insert e cs).2)
  | WOp.emplace e c => ((w.emplace e c).1, exceptIsOk (w.emplace e c).2)
  | WOp.remove e t => ((w.remove e t).1, true)
  | WOp.destroy e => ((w.destroy e).1, true)
  | WOp.index spec => ((w.index spec).1, exceptIsOk (w.index spec).2)
  | WOp.registerSingleton c =>
    ((w.registerSingleton c).1, exceptIsOk (w.registerSingleton c).2)

def runWOps (w : World) : List WOp → World
  | [] => w
  | op :: rest => runWOps (applyWOp w op).1 rest

/-- Side conditions under which the index-coherence invariant is maintained:
no `create` with a duplicated component type (it throws after storing the
components but before updating the indexes), no `insert` aliasing the next
`create` id (`entity == entitySequence` leaves the sequence untouched), and no
`index` spec that is empty (entities inserted later would never join it) or
has a duplicate type (it throws after registering storages). -/
def legalWOp (w : World) : WOp → Bool
  | WOp.create cs => !hasAdjacentDup (sortLe (cs.map Comp.type))
  | WOp.insert e _ => decide (e ≠ w.entitySequence)
  | WOp.index spec =>
    decide (spec ≠ []) &&
      !hasAdjacentDup ((sortByLe (fun a b => Nat.ble a.2 b.2) spec).map Prod.snd)
  | _ => true

def legalRun (w : World) : List WOp → Bool
  | [] => true
  | op :: rest => legalWOp w op && legalRun (applyWOp w op).1 rest

theorem emplaceIndexLoop_frame (ks : List Nat) : ∀ (w : World) (e : Int) (t : Nat) (c : Comp),
    (World.emplaceIndexLoop w e t c ks).1.entitySequence = w.entitySequence ∧
    (World.emplaceIndexLoop w e t c ks).1.entities = w.entities ∧
    (World.emplaceIndexLoop w e t c ks).1.components = w.components ∧
    (World.emplaceIndexLoop w e t c ks).1.trie = w.trie ∧
    (World.emplaceIndexLoop w e t c ks).1.indexesByComponent = w.indexesByComponent ∧
    (World.emplaceIndexLoop w e t c ks).1.registry.length = w.registry.length := by
  induction ks with
  | nil => intro w e t c; exact ⟨rfl, rfl, rfl, rfl, rfl, rfl⟩
  | cons k rest ih =>
    intro w e t c
    unfold World.emplaceIndexLoop
    split
    · exact ⟨rfl, rfl, rfl, rfl, rfl, rfl⟩
    · rename_i ib hib
      split
      · exact ⟨rfl, rfl, rfl, rfl, rfl, rfl⟩
      · rename_i ib' hib'
        have h := ih { w with registry := w.registry.set k ib' } e t c
        simpa [List.length_set] using h
      · split
        · exact ⟨rfl, rfl, rfl, rfl, rfl, rfl⟩
        · exact ih w e t c
        · rename_i ecs hecs
          have h := ih { w with registry := w.registry.set k (ib.add e ecs) } e t c
          simpa [List.length_set] using h

theorem createAddLoop_frame (ks : List Nat) : ∀ (w : World) (e : Int),
    (World.createAddLoop w e ks).1.entitySequence = w.entitySequence ∧
    (World.createAddLoop w e ks).1.entities = w.entities ∧
    (World.createAddLoop w e ks).1.components = w.components ∧
    (World.createAddLoop w e ks).1.trie = w.trie ∧
    (World.createAddLoop w e ks).1.indexesByComponent = w.indexesByComponent ∧
    (World.createAddLoop w e ks).1.registry.length = w.registry.length := by
  induction ks with
  | nil => intro w e; exact ⟨rfl, rfl, rfl, rfl, rfl, rfl⟩
  | cons k rest ih =>
    intro w e
    unfold World.createAddLoop
    split
    · exact ⟨rfl, rfl, rfl, rfl, rfl, rfl⟩
    · rename_i ib hib
      split
      · exact ⟨rfl, rfl, rfl, rfl, rfl, rfl⟩
      · rename_i ecs hecs
        have h := ih { w with registry := w.registry.set k (ib.add e ecs) } e
        simpa [List.length_set] using h

theorem removeFromIndexes_frame (ks : List Nat) : ∀ (w : World) (e : Int),
    (World.removeFromIndexes w e ks).entitySequence = w.entitySequence ∧
    (World.removeFromIndexes w e ks).entities = w.entities ∧
    (World.removeFromIndexes w e ks).components = w.components ∧
    (World.removeFromIndexes w e ks).trie = w.trie ∧
    (World.removeFromIndexes w e ks).indexesByComponent = w.indexesByComponent ∧
    (World.removeFromIndexes w e ks).registry.length = w.registry.length := by
  induction ks with
  | nil => intro w e; exact ⟨rfl, rfl, rfl, rfl, rfl, rfl⟩
  | cons k rest ih =>
    intro w e
    unfold World.removeFromIndexes
    split
    · exact ih w e
    · rename_i ib hib
      have h := ih { w with registry := w.registry.set k (ib.remove e).1 } e
      simpa [List.length_set] using h

theorem seedLoop_frame (es : List Int) : ∀ (w : World) (k : Nat),
    (World.seedLoop w k es).1.entitySequence = w.entitySequence ∧
    (World.seedLoop w k es).1.entities = w.entities ∧
    (World.seedLoop w k es).1.components = w.components ∧
    (World.seedLoop w k es).1.trie = w.trie ∧
    (World.seedLoop w k es).1.indexesByComponent = w.indexesByComponent ∧
    (World.seedLoop w k es).1.registry.length = w.registry.length := by
  induction es with
  | nil => intro w k; exact ⟨rfl, rfl, rfl, rfl, rfl, rfl⟩
  | cons e rest ih =>
    intro w k
    unfold World.seedLoop
    split
    · exact ⟨rfl, rfl, rfl, rfl, rfl, rfl⟩
    · rename_i ib hib
      split
      · exact ⟨rfl, rfl, rfl, rfl, rfl, rfl⟩
      · exact ih w k
      · rename_i ecs hecs
        have h := ih { w with registry := w.registry.set k (ib.add e ecs) } k
        simpa [List.length_set] using h

theorem emplace_frame (w : World) (e : Int) (c : Comp) :
    (World.emplace w e c).1.entitySequence = w.entitySequence ∧
    (World.emplace w e c).1.entities = w.entities ∧
    (World.emplace w e c).1.trie = w.trie ∧
    (World.emplace w e c).1.indexesByComponent = w.indexesByComponent ∧
    (World.emplace w e c).1.registry.length = w.registry.length := by
  unfold World.emplace
  split
  · dsimp only
    split
    · exact ⟨rfl, rfl, rfl, rfl, rfl⟩
    · rename_i ids hids
      obtain ⟨h1, h2, _, h4, h5, h6⟩ :=
        emplaceIndexLoop_frame ids { w with components := compSet w.components c.type e c }
          e c.type c
      exact ⟨h1, h2, h4, h5, h6⟩
  · exact ⟨rfl, rfl, rfl, rfl, rfl⟩

theorem insertLoop_frame (cs : List Comp) : ∀ (w : World) (e : Int),
    (World.insertLoop w e cs).1.entitySequence = w.entitySequence ∧
    (World.insertLoop w e cs).1.entities = w.entities ∧
    (World.insertLoop w e cs).1.trie = w.trie ∧
    (World.insertLoop w e cs).1.indexesByComponent = w.indexesByComponent ∧
    (World.insertLoop w e cs).1.registry.length = w.registry.length := by
  induction cs with
  | nil => intro w e; exact ⟨rfl, rfl, rfl, rfl, rfl⟩
  | cons c rest ih =>
    intro w e
    unfold World.insertLoop
    obtain ⟨e1, e2, e3, e4, e5⟩ := emplace_frame w e c
    split
    · rename_i w' val heq
      obtain ⟨f1, f2, f3, f4, f5⟩ := ih w' e
      have hw' : (World.emplace w e c).1 = w' := by rw [heq]
      rw [hw'] at e1 e2 e3 e4 e5
      exact ⟨f1.trans e1, f2.trans e2, f3.trans e3, f4.trans e4, f5.trans e5⟩
    · rename_i w' m heq
      have hw' : (World.emplace w e c).1 = w' := by rw [heq]
      rw [hw'] at e1 e2 e3 e4 e5
      exact ⟨e1, e2, e3, e4, e5⟩

theorem insert_seq (w : World) (e : Int) (cs : List Comp) :
    (World.insert w e cs).1.entitySequence
      = (if e > w.entitySequence then e + 1 else w.entitySequence) := by
  by_cases hgt : e > w.entitySequence
  · rw [if_pos hgt]
    unfold World.insert
    rw [if_pos hgt]
    dsimp only
    exact (insertLoop_frame cs _ e).1
  · rw [if_neg hgt]
    unfold World.insert
    rw [if_neg hgt]
    dsimp only
    exact (insertLoop_frame cs _ e).1

theorem insert_entities (w : World) (e : Int) (cs : List Comp) :
    (World.insert w e cs).1.entities = setAdd w.entities e := by
  unfold World.insert
  by_cases hgt : e > w.entitySequence
  · rw [if_pos hgt]
    dsimp only
    exact (insertLoop_frame cs _ e).2.1
  · rw [if_neg hgt]
    dsimp only
    exact (insertLoop_frame cs _ e).2.1

theorem create_seq (w : World) (cs : List Comp) :
    (World.create w cs).1.entitySequence = w.entitySequence + 1 := by
  unfold World.create
  dsimp only
  split
  · rfl
  · split
    · rename_i w3 v heq
      exact ((congrArg (fun p => (p.1 : World).entitySequence) heq).symm.trans
        ((createAddLoop_frame _ _ _).1))
    · rename_i w3 m heq
      exact ((congrArg (fun p => (p.1 : World).entitySequence) heq).symm.trans
        ((createAddLoop_frame _ _ _).1))

theorem create_entities (w : World) (cs : List Comp) :
    (World.create w cs).1.entities = setAdd w.entities w.entitySequence := by
  unfold World.create
  dsimp only
  split
  · rfl
  · split
    · rename_i w3 v heq
      exact ((congrArg (fun p => (p.1 : World).entities) heq).symm.trans
        ((createAddLoop_frame _ _ _).2.1))
    · rename_i w3 m heq
      exact ((congrArg (fun p => (p.1 : World).entities) heq).symm.trans
        ((createAddLoop_frame _ _ _).2.1))

theorem create_ok_val (w : World) (cs : List Comp) (v : Int)
    (h : (World.create w cs).2 = Except.ok v) : v = w.entitySequence := by
  unfold World.create at h
  dsimp only at h
  split at h
  · exact Except.noConfusion h
  · split at h
    · injection h with h'
      exact h'.symm
    · exact Except.noConfusion h

theorem remove_frame (w : World) (e : Int) (t : Nat) :
    (World.remove w e t).1.entitySequence = w.entitySequence ∧
    (World.remove w e t).1.entities = w.entities ∧
    (World.remove w e t).1.trie = w.trie ∧
    (World.remove w e t).1.indexesByComponent = w.indexesByComponent ∧
    (World.remove w e t).1.registry.length = w.registry.length := by
  unfold World.remove
  split
  · exact ⟨rfl, rfl, rfl, rfl, rfl⟩
  · rename_i st hst
    dsimp only
    split
    · exact ⟨rfl, rfl, rfl, rfl, rfl⟩
    · split
      · exact ⟨rfl, rfl, rfl, rfl, rfl⟩
      · rename_i c hc ids hids
        obtain ⟨h1, h2, _, h4, h5, h6⟩ := removeFromIndexes_frame ids _ e
        exact ⟨h1, h2, h4, h5, h6⟩

theorem destroy_frame (w : World) (e : Int) :
    (World.destroy w e).1.entitySequence = w.entitySequence ∧
    (World.destroy w e).1.entities = setDel w.entities e ∧
    (World.destroy w e).1.trie = w.trie ∧
    (World.destroy w e).1.indexesByComponent = w.indexesByComponent ∧
    (World.destroy w e).1.registry.length = w.registry.length := by
  unfold World.destroy
  dsimp only
  obtain ⟨h1, h2, _, h4, h5, h6⟩ := removeFromIndexes_frame _ _ e
  exact ⟨h1, h2, h4, h5, h6⟩

theorem index_frame (w : World) (spec : List (Nat × Nat)) :
    (World.index w spec).1.entitySequence = w.entitySequence ∧
    (World.index w spec).1.entities = w.entities := by
  unfold World.index
  dsimp only
  split
  · exact ⟨rfl, rfl⟩
  · split
    · split
      · exact ⟨rfl, rfl⟩
      · exact ⟨rfl, rfl⟩
    · split
      · rename_i w3 m heq
        constructor
        · exact ((congrArg (fun p => (p.1 : World).entitySequence) heq).symm.trans
            ((seedLoop_frame _ _ _).1))
        · exact ((congrArg (fun p => (p.1 : World).entities) heq).symm.trans
            ((seedLoop_frame _ _ _).2.1))
      · rename_i w3 val heq
        split
        · constructor
          · exact ((congrArg (fun p => (p.1 : World).entitySequence) heq).symm.trans
              ((seedLoop_frame _ _ _).1))
          · exact ((congrArg (fun p => (p.1 : World).entities) heq).symm.trans
              ((seedLoop_frame _ _ _).2.1))
        · constructor
          · exact ((congrArg (fun p => (p.1 : World).entitySequence) heq).symm.trans
              ((seedLoop_frame _ _ _).1))
          · exact ((congrArg (fun p => (p.1 : World).entities) heq).symm.trans
              ((seedLoop_frame _ _ _).2.1))

theorem registerSingleton_frame (w : World) (c : Comp) :
    (World.registerSingleton w c).1.entitySequence = w.entitySequence ∧
    (World.registerSingleton w c).1.entities = setAdd w.entities (-2) := by
  unfold World.registerSingleton
  dsimp only
  obtain ⟨h1, h2, _, _, _⟩ := emplace_frame _ (-2) c
  exact ⟨h1, h2⟩

theorem runWOps_seq_nonneg (ops : List WOp) : ∀ (w : World),
    0 ≤ w.entitySequence → 0 ≤ (runWOps w ops).entitySequence := by
  induction ops with
  | nil => intro w hw; exact hw
  | cons op rest ih =>
    intro w hw
    refine ih _ ?_
    cases op with
    | create cs =>
      rw [show (applyWOp w (WOp.create cs)).1 = (w.create cs).1 from rfl, create_seq]
      omega
    | insert e cs =>
      rw [show (applyWOp w (WOp.insert e cs)).1 = (w.insert e cs).1 from rfl, insert_seq]
      split <;> omega
    | emplace e c =>
      rw [show (applyWOp w (WOp.emplace e c)).1 = (w.emplace e c).1 from rfl,
        (emplace_frame w e c).1]
      exact hw
    | remove e t =>
      rw [show (applyWOp w (WOp.remove e t)).1 = (w.remove e t).1 from rfl,
        (remove_frame w e t).1]
      exact hw
    | destroy e =>
      rw [show (applyWOp w (WOp.destroy e)).1 = (w.destroy e).1 from rfl,
        (destroy_frame w e).1]
      exact hw
    | index spec =>
      rw [show (applyWOp w (WOp.index spec)).1 = (w.index spec).1 from rfl,
        (index_frame w spec).1]
      exact hw
    | registerSingleton c =>
      rw [show (applyWOp w (WOp.registerSingleton c)).1 = (w.registerSingleton c).1 from rfl,
        (registerSingleton_frame w c).1]
      exact hw

/-- Claim C6 is false as stated: the very first `World.create()` returns the
entity id `0` (`entitySequence` starts at `0` and `create` returns its
post-incremented previous value), yet the claim says `create` never returns 0
and always returns a positive id. -/
theorem claimC6_counterexample : (World.new.create []).2 = Except.ok 0 := rfl

/-- Claim C6 (amended): entity ids returned by `World.create` are nonnegative,
not positive: after any sequence of public operations from a fresh world the
entity sequence is `≥ 0`, and a completing `create` returns exactly the
current sequence value — hence an id that is `≥ 0` and in particular never the
`Null` sentinel `-1` and never the singleton slot `-2`; but `0` is issued
(first `create` on a fresh world), contrary to the original claim. -/
theorem claimC6_amended (ops : List WOp) :
    0 ≤ (runWOps World.new ops).entitySequence ∧
    ∀ (cs : List Comp) (v : Int), ((runWOps World.new ops).create cs).2 = Except.ok v →
      v = (runWOps World.new ops).entitySequence ∧ 0 ≤ v ∧ v ≠ -1 ∧ v ≠ -2 := by
  have h0 : 0 ≤ (runWOps World.new ops).entitySequence :=
    runWOps_seq_nonneg ops World.new (by decide)
  refine ⟨h0, ?_⟩
  intro cs v hv
  have hveq := create_ok_val _ cs v hv
  refine ⟨hveq, ?_, ?_, ?_⟩ <;> omega

/-- Witness for the amended claim C6: on a fresh world the first `create`
completes with id `0`, which equals the sequence, is nonnegative, and is
neither `-1` nor `-2`. -/
theorem claimC6_witness :
    ((runWOps World.new []).create ([] : List Comp)).2 = Except.ok 0 ∧
    ((0 : Int) = (runWOps World.new []).entitySequence ∧ (0 : Int) ≥ 0 ∧
      (0 : Int) ≠ -1 ∧ (0 : Int) ≠ -2) := by
  refine ⟨rfl, ?_⟩
  have h := (claimC6_amended []).2 [] 0 rfl
  exact ⟨h.1, h.2.1, h.2.2.1, h.2.2.2⟩

/-- Claim C9: `World.insert(e, ...)` with `e` equal to the current
`entitySequence` does not advance the sequence (it advances only when
`entity > entitySequence`), so the next `World.create()` hands back the same,
already-live id `e`. -/
theorem claimC9 (w : World) (e : Int) (cs : List Comp) (h : w.entitySequence = e) :
    ((w.insert e cs).1).entitySequence = e ∧
    e ∈ ((w.insert e cs).1).entities ∧
    ∀ v : Int, (((w.insert e cs).1).create []).2 = Except.ok v → v = e := by
  have hseq : ((w.insert e cs).1).entitySequence = e := by
    rw [insert_seq, if_neg (by omega), h]
  refine ⟨hseq, ?_, ?_⟩
  · rw [insert_entities]
    exact (mem_setAdd w.entities e e).mpr (Or.inr rfl)
  · intro v hv
    have hval := create_ok_val _ [] v hv
    rw [hseq] at hval
    exact hval

/-- Witness for claim C9 on a fresh world with `e = 0`. -/
theorem claimC9_witness :
    World.new.entitySequence = 0 ∧
    (((World.new.insert 0 []).1).entitySequence = 0 ∧
      (0 : Int) ∈ ((World.new.insert 0 []).1).entities ∧
      ∀ v : Int, (((World.new.insert 0 []).1).create []).2 = Except.ok v → v = 0) :=
  ⟨rfl, claimC9 World.new 0 [] rfl⟩

/-- Claim C10: after the first `registerSingleton` call the reserved entity
`-2` is a member of the live-entity set: `exists(-2)` is true, `size()` grows
by one, and `all()` yields `-2`. -/
theorem claimC10 (w : World) (c : Comp) (h : (-2 : Int) ∉ w.entities) :
    World.existsEntity ((w.registerSingleton c).1) (-2) = true ∧
    World.size ((w.registerSingleton c).1) = World.size w + 1 ∧
    (-2 : Int) ∈ World.all ((w.registerSingleton c).1) := by
  obtain ⟨h1, h2⟩ := registerSingleton_frame w c
  have hmem : (-2 : Int) ∈ ((w.registerSingleton c).1).entities := by
    rw [h2]
    exact (mem_setAdd _ _ _).mpr (Or.inr rfl)
  refine ⟨?_, ?_, hmem⟩
  · unfold World.existsEntity
    exact decide_eq_true hmem
  · unfold World.size
    rw [h2, setAdd_length_of_not_mem w.entities (-2) h]

/-- Witness for claim C10 on a fresh world. -/
theorem claimC10_witness :
    ((-2 : Int) ∉ World.new.entities) ∧
    (World.existsEntity ((World.new.registerSingleton ⟨0, 0, false⟩).1) (-2) = true ∧
      World.size ((World.new.registerSingleton ⟨0, 0, false⟩).1) = World.size World.new + 1 ∧
      (-2 : Int) ∈ World.all ((World.new.registerSingleton ⟨0, 0, false⟩).1)) :=
  ⟨by decide, claimC10 World.new ⟨0, 0, false⟩ (by decide)⟩

/-- Holders of components are live entities (a run invariant; stated here as a
decidable side condition). -/
def holdersLiveB (w : World) : Bool :=
  w.components.all (fun p => p.2.all (fun q => decide (q.1 ∈ w.entities)))

theorem has_false_of_dead (w : World) (e : Int) (t : Nat)
    (hdead : e ∉ w.entities) (hlive : holdersLiveB w = true) :
    World.has w e t = false := by
  unfold World.has
  split
  · rfl
  · rename_i st hst
    rcases hc : aget st e with _ | c
    · rfl
    · exfalso
      have hmem := aget_mem st e c hc
      have hstm := aget_mem w.components t st hst
      unfold holdersLiveB at hlive
      rw [List.all_eq_true] at hlive
      have h1 := hlive (t, st) hstm
      rw [List.all_eq_true] at h1
      have h2 := h1 (e, c) hmem
      rw [decide_eq_true_eq] at h2
      exact hdead h2

/-- Claim C4: lookup-shaped operations never throw and return a
null-equivalent. In the model `World.get`, `World.has` and `World.remove` are
total functions (their source paths, part_000 lines 989-994, 1046-1050 and
1131-1149, contain no `throw`), so "never raises" holds by construction; this
theorem states the return values: whenever the entity does not hold the
component — in particular whenever the entity is not live, given that
component holders are live entities — `get` returns `undefined`, `has`
returns `false`, and `remove` returns `undefined`. -/
theorem claimC4 (w : World) (e : Int) (t : Nat)
    (h : World.has w e t = false ∨ (e ∉ w.entities ∧ holdersLiveB w = true)) :
    World.get w e t = none ∧ World.has w e t = false ∧ (World.remove w e t).2 = none := by
  have hhas : World.has w e t = false := by
    rcases h with h | ⟨hdead, hlive⟩
    · exact h
    · exact has_false_of_dead w e t hdead hlive
  have hget : ∀ st, aget w.components t = some st → aget st e = none := by
    intro st hst
    have hhas' : (aget st e).isSome = false := by
      unfold World.has at hhas
      rw [hst] at hhas
      exact hhas
    rcases hc : aget st e with _ | c
    · rfl
    · rw [hc] at hhas'
      exact absurd hhas' (by simp)
  refine ⟨?_, hhas, ?_⟩
  · unfold World.get
    split
    · rfl
    · rename_i st hst
      exact hget st hst
  · unfold World.remove
    split
    · rfl
    · rename_i st hst
      dsimp only
      rw [hget st hst]

/-- Witness for claim C4: on a fresh world, entity `5` holds nothing. -/
theorem claimC4_witness :
    (World.has World.new 5 0 = false ∨
      ((5 : Int) ∉ World.new.entities ∧ holdersLiveB World.new = true)) ∧
    (World.get World.new 5 0 = none ∧ World.has World.new 5 0 = false ∧
      (World.remove World.new 5 0).2 = none) :=
  ⟨Or.inr ⟨by decide, by decide⟩, claimC4 World.new 5 0 (Or.inr ⟨by decide, by decide⟩)⟩

/-! ### Toolkit for the World invariant -/

theorem aget_append_single {K V : Type} [DecidableEq K] (l : List (K × V)) (k k' : K) (v : V) :
    aget (l ++ [(k, v)]) k'
      = (match aget l k' with
         | some x => some x
         | none => if k = k' then some v else none) := by
  induction l with
  | nil => simp [aget]
  | cons p rest ih =>
    obtain ⟨k₀, v₀⟩ := p
    by_cases h₀ : k₀ = k'
    · simp [aget, h₀]
    · show aget ((k₀, v₀) :: (rest ++ [(k, v)])) k' = _
      unfold aget
      rw [if_neg h₀, ih]
      unfold aget
      rw [if_neg h₀]

theorem aset_self {K V : Type} [DecidableEq K] (l : List (K × V)) (k : K) (v : V)
    (h : aget l k = some v) : aset l k v = l := by
  induction l with
  | nil => simp [aget] at h
  | cons p rest ih =>
    obtain ⟨k₀, v₀⟩ := p
    unfold aget at h
    unfold aset
    by_cases h₀ : k₀ = k
    · rw [if_pos h₀] at h
      injection h with h
      rw [if_pos h₀, h₀, h]
    · rw [if_neg h₀] at h
      rw [if_neg h₀, ih h]

theorem aset_keys {K V : Type} [DecidableEq K] (l : List (K × V)) (k : K) (v : V) :
    (aset l k v).map Prod.fst
      = (if k ∈ l.map Prod.fst then l.map Prod.fst else l.map Prod.fst ++ [k]) := by
  induction l with
  | nil => simp [aset]
  | cons p rest ih =>
    obtain ⟨k₀, v₀⟩ := p
    unfold aset
    by_cases h₀ : k₀ = k
    · rw [if_pos h₀]
      simp [h₀]
    · rw [if_neg h₀]
      simp only [List.map_cons, List.mem_cons]
      rw [ih]
      by_cases hk : k ∈ rest.map Prod.fst
      · rw [if_pos hk, if_pos (Or.inr hk)]
      · rw [if_neg hk, if_neg ?_]
        · rfl
        · rintro (h | h)
          · exact h₀ h.symm
          · exact hk h

theorem aset_keys_nodup {K V : Type} [DecidableEq K] (l : List (K × V)) (k : K) (v : V)
    (h : (l.map Prod.fst).Nodup) : ((aset l k v).map Prod.fst).Nodup := by
  rw [aset_keys]
  by_cases hk : k ∈ l.map Prod.fst
  · rw [if_pos hk]
    exact h
  · rw [if_neg hk]
    rw [List.nodup_append]
    exact ⟨h, List.nodup_singleton k, by simpa using hk⟩

theorem adel_keys_nodup {K V : Type} [DecidableEq K] (l : List (K × V)) (k : K)
    (h : (l.map Prod.fst).Nodup) : ((adel l k).map Prod.fst).Nodup := by
  have hsub : List.Sublist (adel l k) l := List.filter_sublist l
  exact List.Nodup.sublist (List.Sublist.map Prod.fst hsub) h

def hasComp (comps : List (Nat × List (Int × Comp))) (e : Int) (t : Nat) : Bool :=
  match aget comps t with
  | none => false
  | some st => (aget st e).isSome

theorem has_eq_hasComp (w : World) (e : Int) (t : Nat) :
    World.has w e t = hasComp w.components e t := rfl

theorem aget_compSet (comps : List (Nat × List (Int × Comp))) (tc : Nat) (e : Int)
    (c : Comp) (t' : Nat) :
    aget (compSet comps tc e c) t'
      = (if t' = tc then some (aset ((aget comps tc).getD []) e c) else aget comps t') := by
  unfold compSet
  rcases h : aget comps tc with _ | st
  · rw [aget_append_single]
    by_cases ht : t' = tc
    · subst ht
      rw [if_pos rfl, h]
      simp [h, aset]
    · rw [if_neg ht]
      rcases h2 : aget comps t' with _ | v
      · simp [if_neg (fun hc : tc = t' => ht hc.symm)]
      · rfl
  · rw [aget_aset]
    by_cases ht : t' = tc
    · rw [if_pos ht.symm, if_pos ht]
      rfl
    · rw [if_neg (fun hc : tc = t' => ht hc.symm), if_neg ht]

theorem hasComp_compSet (comps : List (Nat × List (Int × Comp))) (tc : Nat) (e : Int)
    (c : Comp) (e' : Int) (t' : Nat) :
    hasComp (compSet comps tc e c) e' t'
      = (if t' = tc ∧ e' = e then true else hasComp comps e' t') := by
  unfold hasComp
  rw [aget_compSet]
  by_cases ht : t' = tc
  · rw [if_pos ht]
    show (aget (aset ((aget comps tc).getD []) e c) e').isSome = _
    rw [aget_aset]
    by_cases he : e = e'
    · rw [if_pos he, if_pos ⟨ht, he.symm⟩]
      rfl
    · rw [if_neg he, if_neg (fun hand => he hand.2.symm)]
      subst ht
      rcases h : aget comps t' with _ | st
      · simp [hasComp, h, aget]
      · simp [hasComp, h]
  · rw [if_neg ht, if_neg (fun hand => ht hand.1)]

theorem hasComp_storeAll (cs : List Comp) :
    ∀ (comps : List (Nat × List (Int × Comp))) (e e' : Int) (t' : Nat),
    hasComp (storeAll comps e cs) e' t'
      = (if e' = e ∧ t' ∈ cs.map Comp.type then true else hasComp comps e' t') := by
  induction cs with
  | nil =>
    intro comps e e' t'
    simp [storeAll]
  | cons c rest ih =>
    intro comps e e' t'
    show hasComp (storeAll (compSet comps c.type e c) e rest) e' t' = _
    rw [ih, hasComp_compSet]
    by_cases he : e' = e
    · subst he
      by_cases hmem : t' ∈ rest.map Comp.type
      · rw [if_pos ⟨rfl, hmem⟩, if_pos ⟨rfl, by simp [hmem]⟩]
      · rw [if_neg (fun hand => hmem hand.2)]
        by_cases hct : t' = c.type
        · rw [if_pos ⟨hct, rfl⟩, if_pos ⟨rfl, by simp [hct]⟩]
        · rw [if_neg (fun hand => hct hand.1), if_neg ?_]
          rintro ⟨-, hmem2⟩
          simp only [List.map_cons, List.mem_cons] at hmem2
          rcases hmem2 with h | h
          · exact hct h
          · exact hmem h
    · rw [if_neg (fun hand => he hand.1), if_neg (fun hand => he hand.2),
        if_neg (fun hand => he hand.1)]

theorem hasComp_adel (comps : List (Nat × List (Int × Comp))) (t : Nat)
    (st : List (Int × Comp)) (e : Int) (hst : aget comps t = some st) (e' : Int) (t' : Nat) :
    hasComp (aset comps t (adel st e)) e' t'
      = (if t' = t ∧ e' = e then false else hasComp comps e' t') := by
  unfold hasComp
  rw [aget_aset]
  by_cases ht : t = t'
  · rw [if_pos ht]
    subst ht
    rw [hst]
    show (aget (adel st e) e').isSome = _
    rw [aget_adel]
    by_cases he : e = e'
    · rw [if_pos he, if_pos ⟨rfl, he.symm⟩]
      rfl
    · rw [if_neg he, if_neg (fun hand => he hand.2.symm)]
  · rw [if_neg ht, if_neg (fun hand => ht hand.1.symm)]

theorem aget_ensureStorage (comps : List (Nat × List (Int × Comp))) (t t' : Nat) :
    aget (ensureStorage comps t) t'
      = (match aget comps t' with
         | some st => some st
         | none => if t = t' ∧ t' = t then some [] else none) := by
  unfold ensureStorage
  by_cases h : (aget comps t).isSome
  · rw [if_pos h]
    rcases h2 : aget comps t' with _ | st
    · rw [if_neg ?_]
      rintro ⟨rfl, -⟩
      rw [h2] at h
      exact absurd h (by simp)
    · rfl
  · rw [if_neg h, aget_append_single]
    rcases h2 : aget comps t' with _ | st
    · by_cases ht : t = t'
      · rw [if_pos ht, if_pos ⟨ht, ht.symm⟩]
      · rw [if_neg ht, if_neg (fun hand => ht hand.1)]
    · rfl

theorem hasComp_ensureStorage (comps : List (Nat × List (Int × Comp))) (t : Nat)
    (e' : Int) (t' : Nat) :
    hasComp (ensureStorage comps t) e' t' = hasComp comps e' t' := by
  unfold hasComp
  rw [aget_ensureStorage]
  rcases h2 : aget comps t' with _ | st
  · by_cases ht : t = t' ∧ t' = t
    · rw [if_pos ht]
      simp [aget]
    · rw [if_neg ht]
  · rfl

theorem hasComp_ensureAll (ts : List Nat) :
    ∀ (comps : List (Nat × List (Int × Comp))) (e' : Int) (t' : Nat),
    hasComp (ensureAll comps ts) e' t' = hasComp comps e' t' := by
  induction ts with
  | nil => intro comps e' t'; rfl
  | cons t rest ih =>
    intro comps e' t'
    show hasComp (ensureAll (ensureStorage comps t) rest) e' t' = _
    rw [ih, hasComp_ensureStorage]

theorem aget_ensureAll_isSome (ts : List Nat) :
    ∀ (comps : List (Nat × List (Int × Comp))) (t' : Nat),
    (aget (ensureAll comps ts) t').isSome
      = ((aget comps t').isSome || decide (t' ∈ ts)) := by
  induction ts with
  | nil =>
    intro comps t'
    simp [ensureAll]
  | cons t rest ih =>
    intro comps t'
    show (aget (ensureAll (ensureStorage comps t) rest) t').isSome = _
    rw [ih]
    have hstep : (aget (ensureStorage comps t) t').isSome
        = ((aget comps t').isSome || decide (t' = t)) := by
      rw [aget_ensureStorage]
      rcases h2 : aget comps t' with _ | st
      · by_cases ht : t = t' ∧ t' = t
        · rw [if_pos ht]
          simp [ht.2]
        · rw [if_neg ht]
          have : ¬ t' = t := fun hc => ht ⟨hc.symm, hc⟩
          simp [this]
      · simp
    rw [hstep]
    simp only [List.mem_cons]
    by_cases h1 : t' = t <;> by_cases h2 : t' ∈ rest <;> simp [h1, h2]

theorem ib_add_types {C : Type} (ib : IndexBase C) (e : Int) (cs : List C) :
    (ib.add e cs).types = ib.types := by
  simp [IndexBase.add]

theorem ib_add_mem {C : Type} (ib : IndexBase C) (e : Int) (cs : List C) (x : Int) :
    (aget (ib.add e cs).entityISByEntity x).isSome
      = (if x = e then true else (aget ib.entityISByEntity x).isSome) := by
  show (aget (aset ib.entityISByEntity e _) x).isSome = _
  rw [aget_aset]
  by_cases h : e = x
  · rw [if_pos h, if_pos h.symm]
    rfl
  · rw [if_neg h, if_neg (fun hc => h hc.symm)]

theorem ib_add_keys_nodup {C : Type} (ib : IndexBase C) (e : Int) (cs : List C)
    (h : (ib.entityISByEntity.map Prod.fst).Nodup) :
    ((ib.add e cs).entityISByEntity.map Prod.fst).Nodup := by
  show ((aset ib.entityISByEntity e _).map Prod.fst).Nodup
  exact aset_keys_nodup _ e _ h

theorem ib_remove_types {C : Type} (ib : IndexBase C) (e : Int) :
    ((ib.remove e).1).types = ib.types := by
  unfold IndexBase.remove
  rcases h : aget ib.entityISByEntity e with _ | iS <;> rfl

theorem ib_remove_mem {C : Type} (ib : IndexBase C) (e : Int) (x : Int) :
    (aget ((ib.remove e).1).entityISByEntity x).isSome
      = (if x = e then false else (aget ib.entityISByEntity x).isSome) := by
  unfold IndexBase.remove
  rcases h : aget ib.entityISByEntity e with _ | iS
  · by_cases hx : x = e
    · rw [if_pos hx, hx, h]
      rfl
    · rw [if_neg hx]
  · show (aget (adel ib.entityISByEntity e) x).isSome = _
    rw [aget_adel]
    by_cases hx : e = x
    · rw [if_pos hx, if_pos hx.symm]
      rfl
    · rw [if_neg hx, if_neg (fun hc => hx hc.symm)]

theorem ib_remove_keys_nodup {C : Type} (ib : IndexBase C) (e : Int)
    (h : (ib.entityISByEntity.map Prod.fst).Nodup) :
    (((ib.remove e).1).entityISByEntity.map Prod.fst).Nodup := by
  unfold IndexBase.remove
  rcases hg : aget ib.entityISByEntity e with _ | iS
  · exact h
  · exact adel_keys_nodup _ e h

theorem findIdx_isSome_of_mem {t : Nat} {types : List Nat} (h : t ∈ types) :
    (ibFindType types t).isSome = true := by
  unfold ibFindType
  rcases hf : List.findIdx? (fun x => x = t) types with _ | i
  · rw [List.findIdx?_eq_none_iff] at hf
    have := hf t h
    simp at this
  · rfl

theorem ib_emplace_spec {C : Type} (ib : IndexBase C) (e : Int) (t : Nat) (c : C)
    (htypes : t ∈ ib.types) :
    (∀ r, ib.emplace e t c = Except.ok r →
      r.1.types = ib.types ∧ r.1.entityISByEntity = ib.entityISByEntity ∧
      (r.2 = (aget ib.entityISByEntity e).isSome)) ∧
    exceptIsOk (ib.emplace e t c) = true := by
  unfold IndexBase.emplace
  rcases hg : aget ib.entityISByEntity e with _ | iS
  · exact ⟨fun r hr => by injection hr with hr'; rw [← hr']; exact ⟨rfl, rfl, rfl⟩, rfl⟩
  · rcases hf : ibFindType ib.types t with _ | iC
    · have := findIdx_isSome_of_mem htypes
      rw [show ibFindType ib.types t = List.findIdx? (fun x => x = t) ib.types from rfl] at hf
      unfold ibFindType at this
      rw [hf] at this
      simp at this
    · refine ⟨fun r hr => ?_, rfl⟩
      injection hr with hr'
      rw [← hr']
      exact ⟨rfl, rfl, rfl⟩

theorem gatherSkip_spec (types : List Nat) (comps : List (Nat × List (Int × Comp))) (e : Int)
    (hreg : ∀ t' ∈ types, (aget comps t').isSome = true) :
    ((∀ t' ∈ types, hasComp comps e t' = true) →
      ∃ ecs, gatherSkip comps types e = Except.ok (some ecs)) ∧
    ((¬ ∀ t' ∈ types, hasComp comps e t' = true) →
      gatherSkip comps types e = Except.ok none) := by
  induction types with
  | nil =>
    constructor
    · intro _
      exact ⟨[], rfl⟩
    · intro hnot
      exact absurd (fun t' ht' => absurd ht' (List.not_mem_nil t')) hnot
  | cons t rest ih =>
    have hregt := hreg t (List.mem_cons_self _ _)
    have hregr : ∀ t' ∈ rest, (aget comps t').isSome = true :=
      fun t' ht' => hreg t' (List.mem_cons_of_mem _ ht')
    obtain ⟨ih1, ih2⟩ := ih hregr
    rcases hst : aget comps t with _ | st
    · rw [hst] at hregt
      simp at hregt
    · constructor
      · intro hall
        have hhead := hall t (List.mem_cons_self _ _)
        unfold hasComp at hhead
        rw [hst] at hhead
        have hhead2 : (aget st e).isSome = true := hhead
        rcases hc : aget st e with _ | c
        · rw [hc] at hhead2
          simp at hhead2
        · obtain ⟨ecs, hecs⟩ := ih1 (fun t' ht' => hall t' (List.mem_cons_of_mem _ ht'))
          refine ⟨some c :: ecs, ?_⟩
          show gatherSkip comps (t :: rest) e = _
          unfold gatherSkip
          simp only [hst, hc, hecs]
      · intro hnot
        show gatherSkip comps (t :: rest) e = _
        unfold gatherSkip
        rcases hc : aget st e with _ | c
        · simp only [hst, hc]
        · have hheadt : hasComp comps e t = true := by
            unfold hasComp
            simp only [hst, hc, Option.isSome_some]
          have hnotr : ¬ ∀ t' ∈ rest, hasComp comps e t' = true := by
            intro hr
            refine hnot ?_
            intro t' ht'
            rcases List.mem_cons.mp ht' with rfl | hmem
            · exact hheadt
            · exact hr t' hmem
          simp only [hst, hc, ih2 hnotr]

theorem gatherCreate_ok (types : List Nat) (comps : List (Nat × List (Int × Comp))) (e : Int)
    (hreg : ∀ t' ∈ types, (aget comps t').isSome = true) :
    ∃ ecs, gatherCreate comps types e = Except.ok ecs := by
  induction types with
  | nil => exact ⟨[], rfl⟩
  | cons t rest ih =>
    have hregt := hreg t (List.mem_cons_self _ _)
    obtain ⟨ecs, hecs⟩ := ih (fun t' ht' => hreg t' (List.mem_cons_of_mem _ ht'))
    rcases hst : aget comps t with _ | st
    · rw [hst] at hregt
      simp at hregt
    · refine ⟨aget st e :: ecs, ?_⟩
      show gatherCreate comps (t :: rest) e = _
      unfold gatherCreate
      simp only [hst, hecs]

theorem aget_of_mem_nodup {K V : Type} [DecidableEq K] (l : List (K × V)) (k : K) (v : V)
    (hnd : (l.map Prod.fst).Nodup) (hmem : (k, v) ∈ l) : aget l k = some v := by
  induction l with
  | nil => exact absurd hmem (List.not_mem_nil _)
  | cons p rest ih =>
    obtain ⟨k₀, v₀⟩ := p
    rw [List.map_cons, List.nodup_cons] at hnd
    rcases List.mem_cons.mp hmem with heq | hmem'
    · injection heq with h1 h2
      subst h1
      subst h2
      unfold aget
      rw [if_pos rfl]
    · unfold aget
      by_cases h₀ : k₀ = k
      · exfalso
        subst h₀
        exact hnd.1 (List.mem_map.mpr ⟨_, hmem', rfl⟩)
      · rw [if_neg h₀]
        exact ih hnd.2 hmem'

theorem mem_insByLe {α : Type} (le : α → α → Bool) (x y : α) (l : List α) :
    y ∈ insByLe le x l ↔ y = x ∨ y ∈ l := by
  induction l with
  | nil => simp [insByLe]
  | cons a rest ih =>
    unfold insByLe
    by_cases h : le a x = true
    · rw [if_pos h]
      simp only [List.mem_cons, ih]
      tauto
    · rw [if_neg h]
      simp only [List.mem_cons]

theorem pairwise_insByLe {α : Type} (le : α → α → Bool)
    (htot : ∀ a b, le a b = false → le b a = true)
    (htrans : ∀ a b c, le a b = true → le b c = true → le a c = true)
    (x : α) (l : List α) (hl : l.Pairwise (fun a b => le a b = true)) :
    (insByLe le x l).Pairwise (fun a b => le a b = true) := by
  induction l with
  | nil => simp [insByLe]
  | cons a rest ih =>
    rw [List.pairwise_cons] at hl
    unfold insByLe
    by_cases h : le a x = true
    · rw [if_pos h]
      rw [List.pairwise_cons]
      constructor
      · intro b hb
        rcases (mem_insByLe le x b rest).mp hb with rfl | hb'
        · exact h
        · exact hl.1 b hb'
      · exact ih hl.2
    · rw [if_neg h]
      rw [List.pairwise_cons]
      constructor
      · intro b hb
        rcases List.mem_cons.mp hb with rfl | hb'
        · exact htot _ x (Bool.eq_false_iff.mpr h)
        · exact htrans x a b (htot a x (Bool.eq_false_iff.mpr h)) (hl.1 b hb')
      · exact List.pairwise_cons.mpr hl

theorem pairwise_sortByLe {α : Type} (le : α → α → Bool)
    (htot : ∀ a b, le a b = false → le b a = true)
    (htrans : ∀ a b c, le a b = true → le b c = true → le a c = true)
    (l : List α) : (sortByLe le l).Pairwise (fun a b => le a b = true) := by
  induction l with
  | nil => exact List.Pairwise.nil
  | cons a rest ih =>
    show (insByLe le a (sortByLe le rest)).Pairwise (fun a b => le a b = true)
    exact pairwise_insByLe le htot htrans a (sortByLe le rest) ih

theorem sorted_lt_of_le_noAdjDup (l : List Nat) (hs : l.Sorted (· ≤ ·))
    (hd : hasAdjacentDup l = false) : l.Sorted (· < ·) := by
  induction l with
  | nil => exact List.Pairwise.nil
  | cons a rest ih =>
    cases rest with
    | nil => simp
    | cons b rest' =>
      rw [List.sorted_cons] at hs
      unfold hasAdjacentDup at hd
      rw [Bool.or_eq_false_iff] at hd
      have hab : a < b := by
        have h1 : a ≤ b := hs.1 b (List.mem_cons_self _ _)
        have h2 : a ≠ b := by
          intro hc
          rw [hc] at hd
          simp at hd
        omega
      have hrest := ih hs.2 hd.2
      rw [List.sorted_cons]
      refine ⟨?_, hrest⟩
      intro c hc
      rcases List.mem_cons.mp hc with rfl | hc'
      · exact hab
      · rw [List.sorted_cons] at hrest
        exact lt_trans hab (hrest.1 c hc')

theorem destroyScan_comps (e : Int) (comps : List (Nat × List (Int × Comp))) :
    (destroyScan e comps).1 = comps.map (fun p => (p.1, adel p.2 e)) := by
  induction comps with
  | nil => rfl
  | cons p rest ih =>
    obtain ⟨t, st⟩ := p
    show ((t, adel st e) :: (destroyScan e rest).1, _, _).1 = _
    rw [List.map_cons]
    show (t, adel st e) :: (destroyScan e rest).1 = _
    rw [ih]

theorem destroyScan_types (e : Int) (comps : List (Nat × List (Int × Comp))) :
    (destroyScan e comps).2.1
      = comps.filterMap (fun p => (aget p.2 e).map (fun c => c.type)) := by
  induction comps with
  | nil => rfl
  | cons p rest ih =>
    obtain ⟨t, st⟩ := p
    have hstep : (destroyScan e ((t, st) :: rest)).2.1
        = (match aget st e with
           | some c => c.type :: (destroyScan e rest).2.1
           | none => (destroyScan e rest).2.1) := rfl
    rcases hc : aget st e with _ | c <;>
      simp [hstep, List.filterMap_cons, hc, ih]

theorem aget_map_adel (comps : List (Nat × List (Int × Comp))) (e : Int) (t : Nat) :
    aget (comps.map (fun p => (p.1, adel p.2 e))) t
      = (aget comps t).map (fun st => adel st e) := by
  induction comps with
  | nil => rfl
  | cons p rest ih =>
    obtain ⟨t₀, st₀⟩ := p
    show aget ((t₀, adel st₀ e) :: _) t = _
    unfold aget
    by_cases h₀ : t₀ = t
    · rw [if_pos h₀, if_pos h₀]
      rfl
    · rw [if_neg h₀, if_neg h₀, ih]

theorem hasComp_destroyScan (e : Int) (comps : List (Nat × List (Int × Comp)))
    (e' : Int) (t : Nat) :
    hasComp (destroyScan e comps).1 e' t
      = (if e' = e then false else hasComp comps e' t) := by
  unfold hasComp
  rw [destroyScan_comps, aget_map_adel]
  rcases h : aget comps t with _ | st
  · simp
  · show (aget (adel st e) e').isSome = _
    rw [aget_adel]
    by_cases he : e = e'
    · rw [if_pos he, if_pos he.symm]
      rfl
    · rw [if_neg he, if_neg (fun hc => he hc.symm)]

theorem filterMap_keys_sublist (q : Nat × List (Int × Comp) → Bool)
    (comps : List (Nat × List (Int × Comp))) :
    List.Sublist (comps.filterMap (fun p => if q p then some p.1 else none))
      (comps.map Prod.fst) := by
  induction comps with
  | nil => exact List.Sublist.slnil
  | cons p rest ih =>
    rw [List.filterMap_cons, List.map_cons]
    by_cases h : q p
    · rw [if_pos h]
      exact List.Sublist.cons₂ p.1 ih
    · rw [if_neg h]
      exact List.Sublist.cons p.1 ih

theorem destroyScan_types_eq_filter (e : Int) (comps : List (Nat × List (Int × Comp)))
    (hwk : ∀ p ∈ comps, ∀ q ∈ p.2, (q.2).type = p.1) :
    (destroyScan e comps).2.1
      = comps.filterMap (fun p => if (aget p.2 e).isSome then some p.1 else none) := by
  rw [destroyScan_types]
  apply List.filterMap_congr
  intro p hp
  rcases hc : aget p.2 e with _ | c
  · simp
  · have hmem := aget_mem p.2 e c hc
    have h2 : c.type = p.1 := hwk p hp (e, c) hmem
    simp [h2]

theorem destroyScan_types_nodup (e : Int) (comps : List (Nat × List (Int × Comp)))
    (hwk : ∀ p ∈ comps, ∀ q ∈ p.2, (q.2).type = p.1)
    (hnd : (comps.map Prod.fst).Nodup) : (destroyScan e comps).2.1.Nodup := by
  rw [destroyScan_types_eq_filter e comps hwk]
  exact List.Nodup.sublist (filterMap_keys_sublist _ comps) hnd

theorem mem_destroyScan_types (e : Int) (comps : List (Nat × List (Int × Comp))) (t : Nat)
    (hwk : ∀ p ∈ comps, ∀ q ∈ p.2, (q.2).type = p.1)
    (hnd : (comps.map Prod.fst).Nodup) :
    t ∈ (destroyScan e comps).2.1 ↔ hasComp comps e t = true := by
  rw [destroyScan_types_eq_filter e comps hwk]
  rw [List.mem_filterMap]
  constructor
  · rintro ⟨p, hp, hpt⟩
    by_cases h : (aget p.2 e).isSome
    · rw [if_pos h] at hpt
      injection hpt with hpt
      subst hpt
      unfold hasComp
      rw [aget_of_mem_nodup comps p.1 p.2 hnd hp]
      exact h
    · rw [if_neg h] at hpt
      exact Option.noConfusion hpt
  · intro hh
    unfold hasComp at hh
    rcases hst : aget comps t with _ | st
    · rw [hst] at hh
      exact absurd hh (by simp)
    · rw [hst] at hh
      refine ⟨(t, st), aget_mem comps t st hst, ?_⟩
      rw [if_pos hh]

theorem aget_ibcAdd (ts : List Nat) : ∀ (ibc : List (Nat × List Nat)) (k : Nat) (t' : Nat),
    ts.Nodup →
    aget (indexesByComponentAdd ibc k ts) t'
      = (if t' ∈ ts then some ((aget ibc t').getD [] ++ [k]) else aget ibc t') := by
  induction ts with
  | nil =>
    intro ibc k t' _
    simp [indexesByComponentAdd]
  | cons t rest ih =>
    intro ibc k t' hnd
    rw [List.nodup_cons] at hnd
    have hstep : ∀ x : Nat,
        aget (match aget ibc t with
          | some ids => aset ibc t (ids ++ [k])
          | none => ibc ++ [(t, [k])]) x
          = (if x = t then some ((aget ibc t).getD [] ++ [k]) else aget ibc x) := by
      intro x
      rcases hg : aget ibc t with _ | ids
      · rw [aget_append_single]
        by_cases hx : x = t
        · subst hx
          rw [if_pos rfl, hg]
          simp [hg]
        · rw [if_neg hx]
          rcases h2 : aget ibc x with _ | v
          · rw [if_neg (fun hc : t = x => hx hc.symm)]
          · rfl
      · rw [aget_aset]
        by_cases hx : x = t
        · rw [if_pos hx.symm, if_pos hx]
          simp
        · rw [if_neg (fun hc : t = x => hx hc.symm), if_neg hx]
    show aget (indexesByComponentAdd _ k rest) t' = _
    rw [ih _ k t' hnd.2]
    by_cases hmem : t' ∈ rest
    · rw [if_pos hmem, if_pos (List.mem_cons_of_mem t hmem)]
      have hne : ¬ t' = t := fun hc => hnd.1 (hc ▸ hmem)
      rw [hstep t', if_neg hne]
    · rw [if_neg hmem]
      by_cases ht : t' = t
      · rw [hstep t', if_pos ht, if_pos (ht ▸ List.mem_cons_self t rest), ht]
      · rw [hstep t', if_neg ht, if_neg ?_]
        intro hc
        rcases List.mem_cons.mp hc with h | h
        · exact ht h
        · exact hmem h

/-- The index-coherence property of claim C1: a live entity appears in a
registered `IndexBase` iff it holds every component type of that index. -/
def Coherent (w : World) : Prop :=
  ∀ (k : Nat) (ib : IndexBase (Option Comp)), w.registry[k]? = some ib →
    ∀ e : Int, e ∈ w.entities →
      ((aget ib.entityISByEntity e).isSome = true ↔
        ∀ t ∈ ib.types, World.has w e t = true)

/-- The full invariant maintained by legal operation sequences. -/
structure WFW (w : World) : Prop where
  seqNonneg : 0 ≤ w.entitySequence
  entNodup : w.entities.Nodup
  liveLt : ∀ e ∈ w.entities, e = -2 ∨ e < w.entitySequence
  compKeysNodup : (w.components.map Prod.fst).Nodup
  storNodup : ∀ p ∈ w.components, (p.2.map Prod.fst).Nodup
  wellKeyed : ∀ p ∈ w.components, ∀ q ∈ p.2, (q.2).type = p.1
  holdersLive : ∀ p ∈ w.components, ∀ q ∈ p.2, q.1 ∈ w.entities
  regSorted : ∀ (k : Nat) (ib : IndexBase (Option Comp)), w.registry[k]? = some ib →
    ib.types.Sorted (· < ·)
  regNonempty : ∀ (k : Nat) (ib : IndexBase (Option Comp)), w.registry[k]? = some ib →
    ib.types ≠ []
  regKeysNodup : ∀ (k : Nat) (ib : IndexBase (Option Comp)), w.registry[k]? = some ib →
    (ib.entityISByEntity.map Prod.fst).Nodup
  regRegistered : ∀ (k : Nat) (ib : IndexBase (Option Comp)), w.registry[k]? = some ib →
    ∀ t ∈ ib.types, (aget w.components t).isSome = true
  trieSound : ∀ (p : List Nat) (k : Nat), getInTrie w.trie p = some k →
    ∃ ib : IndexBase (Option Comp), w.registry[k]? = some ib ∧ ib.types = p
  trieComplete : ∀ (k : Nat) (ib : IndexBase (Option Comp)), w.registry[k]? = some ib →
    getInTrie w.trie ib.types = some k
  ibcSound : ∀ (t : Nat) (ids : List Nat), aget w.indexesByComponent t = some ids →
    ids.Nodup ∧ ∀ k ∈ ids, ∃ ib : IndexBase (Option Comp),
      w.registry[k]? = some ib ∧ t ∈ ib.types
  ibcComplete : ∀ (k : Nat) (ib : IndexBase (Option Comp)), w.registry[k]? = some ib →
    ∀ t ∈ ib.types, ∃ ids, aget w.indexesByComponent t = some ids ∧ k ∈ ids
  coherent : ∀ (k : Nat) (ib : IndexBase (Option Comp)), w.registry[k]? = some ib →
    ∀ e : Int, (aget ib.entityISByEntity e).isSome = true ↔
      (e ∈ w.entities ∧ ∀ t ∈ ib.types, hasComp w.components e t = true)

theorem wfw_new : WFW World.new := by
  constructor <;>
    first
      | exact le_refl 0
      | exact List.nodup_nil
      | (intro e he; exact absurd he (List.not_mem_nil e))
      | (intro p hp; exact absurd hp (List.not_mem_nil p))
      | (intro k ib h; exact Option.noConfusion (h.symm.trans (List.getElem?_eq_none (by simp))))
      | (intro p k h; exact Option.noConfusion h)
      | (intro t ids h; exact Option.noConfusion h)
      | (intro p k h
         rw [show World.new.trie = Trie.node none [] from rfl, getInTrie_emptyNode] at h
         exact Option.noConfusion h)

theorem emplaceIndexLoop_spec (ids : List Nat) :
    ∀ (w : World) (e : Int) (c : Comp),
    ids.Nodup →
    (∀ k ∈ ids, ∃ ib : IndexBase (Option Comp), w.registry[k]? = some ib ∧
        c.type ∈ ib.types ∧
        (∀ t' ∈ ib.types, (aget w.components t').isSome = true) ∧
        ((aget ib.entityISByEntity e).isSome = true →
          ∀ t' ∈ ib.types, hasComp w.components e t' = true)) →
    (World.emplaceIndexLoop w e c.type c ids).2 = Except.ok () ∧
    ∀ (k : Nat) (ib0 : IndexBase (Option Comp)), w.registry[k]? = some ib0 →
      ∃ ib1 : IndexBase (Option Comp),
        (World.emplaceIndexLoop w e c.type c ids).1.registry[k]? = some ib1 ∧
        ib1.types = ib0.types ∧
        (∀ x : Int, x ≠ e →
          (aget ib1.entityISByEntity x).isSome = (aget ib0.entityISByEntity x).isSome) ∧
        ((ib0.entityISByEntity.map Prod.fst).Nodup →
          (ib1.entityISByEntity.map Prod.fst).Nodup) ∧
        (k ∈ ids →
          ((aget ib1.entityISByEntity e).isSome = true ↔
            ∀ t' ∈ ib0.types, hasComp w.components e t' = true)) ∧
        (k ∉ ids → ib1 = ib0) := by
  induction ids with
  | nil =>
    intro w e c _ _
    refine ⟨rfl, ?_⟩
    intro k ib0 h
    exact ⟨ib0, h, rfl, fun _ _ => rfl, fun h => h,
      fun hk => absurd hk (List.not_mem_nil k), fun _ => rfl⟩
  | cons k₀ rest ih =>
    intro w e c hnodup hids
    rw [List.nodup_cons] at hnodup
    obtain ⟨ib, hib, htyp, hregAll, hMemE⟩ := hids k₀ (List.mem_cons_self _ _)
    obtain ⟨hempspec, hempok⟩ := ib_emplace_spec ib e c.type (some c) htyp
    rcases hres : ib.emplace e c.type (some c) with m | r
    · rw [hres] at hempok
      exact absurd hempok (by simp [exceptIsOk])
    · obtain ⟨rib, flag⟩ := r
      obtain ⟨hrtypes, hrmap, hrflag⟩ := hempspec (rib, flag) hres
      dsimp only at hrtypes hrmap hrflag
      have hk₀len : k₀ < w.registry.length := by
        rcases List.getElem?_eq_some_iff.mp hib with ⟨hlt, -⟩
        exact hlt
      cases flag with
      | true =>
        have hflag : (aget ib.entityISByEntity e).isSome = true := hrflag.symm
        have hstep : World.emplaceIndexLoop w e c.type c (k₀ :: rest)
            = World.emplaceIndexLoop
                { w with registry := w.registry.set k₀ rib } e c.type c rest := by
          conv_lhs => unfold World.emplaceIndexLoop
          simp only [hib, hres]
        have hregget : ∀ k : Nat, k ≠ k₀ →
            ({ w with registry := w.registry.set k₀ rib } : World).registry[k]?
              = w.registry[k]? := by
          intro k hk
          show (w.registry.set k₀ rib)[k]? = _
          rw [List.getElem?_set, if_neg (fun hc => hk hc.symm)]
        have hregk₀ : ({ w with registry := w.registry.set k₀ rib } : World).registry[k₀]?
            = some rib := by
          show (w.registry.set k₀ rib)[k₀]? = _
          rw [List.getElem?_set, if_pos rfl, if_pos hk₀len]
        have hids' : ∀ k ∈ rest, ∃ ib' : IndexBase (Option Comp),
            ({ w with registry := w.registry.set k₀ rib } : World).registry[k]? = some ib' ∧
            c.type ∈ ib'.types ∧
            (∀ t' ∈ ib'.types,
              (aget ({ w with registry := w.registry.set k₀ rib } : World).components
                t').isSome = true) ∧
            ((aget ib'.entityISByEntity e).isSome = true →
              ∀ t' ∈ ib'.types,
                hasComp ({ w with registry := w.registry.set k₀ rib } : World).components
                  e t' = true) := by
          intro k hk
          have hkne : k ≠ k₀ := fun hc => hnodup.1 (hc ▸ hk)
          obtain ⟨ibk, h1, h2, h3, h4⟩ := hids k (List.mem_cons_of_mem _ hk)
          exact ⟨ibk, (hregget k hkne).trans h1, h2, h3, h4⟩
        obtain ⟨ihok, ihreg⟩ := ih _ e c hnodup.2 hids'
        rw [hstep]
        refine ⟨ihok, ?_⟩
        intro k ib0 hk0
        by_cases hkk : k = k₀
        · subst hkk
          have hibeq : ib0 = ib := by
            have h2 := hk0.symm.trans hib
            injection h2
          obtain ⟨ib1, hfin, htyps, hx, hnd, hmem, hnotin⟩ := ihreg k rib hregk₀
          have hib1 : ib1 = rib := hnotin hnodup.1
          rw [hib1] at hfin
          refine ⟨rib, hfin, ?_, ?_, ?_, ?_, ?_⟩
          · rw [hrtypes, hibeq]
          · intro x _
            rw [hrmap, hibeq]
          · intro hnd0
            rw [hrmap]
            rw [hibeq] at hnd0
            exact hnd0
          · intro _
            rw [hrmap, hibeq]
            constructor
            · intro _
              exact hMemE hflag
            · intro _
              exact hflag
          · intro hnotin'
            exact absurd (List.mem_cons_self k rest) hnotin'
        · have hk0' :
              ({ w with registry := w.registry.set k₀ rib } : World).registry[k]?
                = some ib0 := (hregget k hkk).trans hk0
          obtain ⟨ib1, hfin, htyps, hx, hnd, hmem, hnotin⟩ := ihreg k ib0 hk0'
          refine ⟨ib1, hfin, htyps, hx, hnd, ?_, ?_⟩
          · intro hkmem
            rcases List.mem_cons.mp hkmem with hc | hkrest
            · exact absurd hc hkk
            · exact hmem hkrest
          · intro hknotin
            exact hnotin (fun hc => hknotin (List.mem_cons_of_mem _ hc))
      | false =>
        have hflag : (aget ib.entityISByEntity e).isSome = false := hrflag.symm
        obtain ⟨hg1, hg2⟩ := gatherSkip_spec ib.types w.components e hregAll
        by_cases hall : ∀ t' ∈ ib.types, hasComp w.components e t' = true
        · obtain ⟨ecs, hecs⟩ := hg1 hall
          have hstep : World.emplaceIndexLoop w e c.type c (k₀ :: rest)
              = World.emplaceIndexLoop
                  { w with registry := w.registry.set k₀ (ib.add e ecs) } e c.type c rest := by
            conv_lhs => unfold World.emplaceIndexLoop
            simp only [hib, hres, hecs]
          have hregget : ∀ k : Nat, k ≠ k₀ →
              ({ w with registry := w.registry.set k₀ (ib.add e ecs) } : World).registry[k]?
                = w.registry[k]? := by
            intro k hk
            show (w.registry.set k₀ (ib.add e ecs))[k]? = _
            rw [List.getElem?_set, if_neg (fun hc => hk hc.symm)]
          have hregk₀ :
              ({ w with registry := w.registry.set k₀ (ib.add e ecs) } : World).registry[k₀]?
                = some (ib.add e ecs) := by
            show (w.registry.set k₀ (ib.add e ecs))[k₀]? = _
            rw [List.getElem?_set, if_pos rfl, if_pos hk₀len]
          have hids' : ∀ k ∈ rest, ∃ ib' : IndexBase (Option Comp),
              ({ w with registry := w.registry.set k₀ (ib.add e ecs) } : World).registry[k]?
                = some ib' ∧
              c.type ∈ ib'.types ∧
              (∀ t' ∈ ib'.types,
                (aget ({ w with registry := w.registry.set k₀ (ib.add e ecs) } :
                  World).components t').isSome = true) ∧
              ((aget ib'.entityISByEntity e).isSome = true →
                ∀ t' ∈ ib'.types,
                  hasComp ({ w with registry := w.registry.set k₀ (ib.add e ecs) } :
                    World).components e t' = true) := by
            intro k hk
            have hkne : k ≠ k₀ := fun hc => hnodup.1 (hc ▸ hk)
            obtain ⟨ibk, h1, h2, h3, h4⟩ := hids k (List.mem_cons_of_mem _ hk)
            exact ⟨ibk, (hregget k hkne).trans h1, h2, h3, h4⟩
          obtain ⟨ihok, ihreg⟩ := ih _ e c hnodup.2 hids'
          rw [hstep]
          refine ⟨ihok, ?_⟩
          intro k ib0 hk0
          by_cases hkk : k = k₀
          · subst hkk
            have hibeq : ib0 = ib := by
              have h2 := hk0.symm.trans hib
              injection h2
            obtain ⟨ib1, hfin, htyps, hx, hnd, hmem, hnotin⟩ := ihreg k _ hregk₀
            have hib1 : ib1 = ib.add e ecs := hnotin hnodup.1
            rw [hib1] at hfin
            refine ⟨ib.add e ecs, hfin, ?_, ?_, ?_, ?_, ?_⟩
            · rw [ib_add_types, hibeq]
            · intro x hx'
              rw [ib_add_mem, if_neg hx', hibeq]
            · intro hnd0
              rw [hibeq] at hnd0
              exact ib_add_keys_nodup ib e ecs hnd0
            · intro _
              rw [ib_add_mem, if_pos rfl, hibeq]
              exact ⟨fun _ => hall, fun _ => rfl⟩
            · intro hnotin'
              exact absurd (List.mem_cons_self k rest) hnotin'
          · have hk0' :
                ({ w with registry := w.registry.set k₀ (ib.add e ecs) } :
                  World).registry[k]? = some ib0 := (hregget k hkk).trans hk0
            obtain ⟨ib1, hfin, htyps, hx, hnd, hmem, hnotin⟩ := ihreg k ib0 hk0'
            refine ⟨ib1, hfin, htyps, hx, hnd, ?_, ?_⟩
            · intro hkmem
              rcases List.mem_cons.mp hkmem with hc | hkrest
              · exact absurd hc hkk
              · exact hmem hkrest
            · intro hknotin
              exact hnotin (fun hc => hknotin (List.mem_cons_of_mem _ hc))
        · have hecs := hg2 hall
          have hstep : World.emplaceIndexLoop w e c.type c (k₀ :: rest)
              = World.emplaceIndexLoop w e c.type c rest := by
            conv_lhs => unfold World.emplaceIndexLoop
            simp only [hib, hres, hecs]
          have hids' := fun k hk => hids k (List.mem_cons_of_mem k₀ hk)
          obtain ⟨ihok, ihreg⟩ := ih w e c hnodup.2 hids'
          rw [hstep]
          refine ⟨ihok, ?_⟩
          intro k ib0 hk0
          obtain ⟨ib1, hfin, htyps, hx, hnd, hmem, hnotin⟩ := ihreg k ib0 hk0
          by_cases hkk : k = k₀
          · subst hkk
            have hibeq : ib0 = ib := by
              have h2 := hk0.symm.trans hib
              injection h2
            have hib1 : ib1 = ib0 := hnotin (fun hc => hnodup.1 hc)
            rw [hib1] at hfin
            refine ⟨ib0, hfin, rfl, fun _ _ => rfl, fun h => h, ?_, ?_⟩
            · intro _
              constructor
              · intro hmm
                rw [hibeq, hflag] at hmm
                exact absurd hmm (by simp)
              · intro hc
                rw [hibeq] at hc
                exact absurd hc hall
            · intro _
              rfl
          · refine ⟨ib1, hfin, htyps, hx, hnd, ?_, ?_⟩
            · intro hkmem
              rcases List.mem_cons.mp hkmem with hc | hkrest
              · exact absurd hc hkk
              · exact hmem hkrest
            · intro hknotin
              exact hnotin (fun hc => hknotin (List.mem_cons_of_mem _ hc))

theorem aget_eq_none_iff {K V : Type} [DecidableEq K] (l : List (K × V)) (k : K) :
    aget l k = none ↔ k ∉ l.map Prod.fst := by
  induction l with
  | nil => simp [aget]
  | cons p rest ih =>
    obtain ⟨k₀, v₀⟩ := p
    unfold aget
    by_cases h₀ : k₀ = k
    · rw [if_pos h₀]
      simp [h₀]
    · rw [if_neg h₀]
      simp only [List.map_cons, List.mem_cons, ih]
      constructor
      · rintro h (hc | hc)
        · exact h₀ hc.symm
        · exact h hc
      · intro h hc
        exact h (Or.inr hc)

theorem mem_aset {K V : Type} [DecidableEq K] (l : List (K × V)) (k : K) (v : V)
    (q : K × V) (hq : q ∈ aset l k v) : q ∈ l ∨ q = (k, v) := by
  induction l with
  | nil =>
    simp [aset] at hq
    exact Or.inr hq
  | cons p rest ih =>
    obtain ⟨k₀, v₀⟩ := p
    unfold aset at hq
    by_cases h₀ : k₀ = k
    · rw [if_pos h₀] at hq
      rcases List.mem_cons.mp hq with h | h
      · exact Or.inr h
      · exact Or.inl (List.mem_cons_of_mem _ h)
    · rw [if_neg h₀] at hq
      rcases List.mem_cons.mp hq with h | h
      · exact Or.inl (h ▸ List.mem_cons_self _ _)
      · rcases ih h with h' | h'
        · exact Or.inl (List.mem_cons_of_mem _ h')
        · exact Or.inr h'

theorem compSet_keys_nodup (comps : List (Nat × List (Int × Comp))) (tc : Nat) (e : Int)
    (c : Comp) (h : (comps.map Prod.fst).Nodup) :
    ((compSet comps tc e c).map Prod.fst).Nodup := by
  unfold compSet
  rcases hg : aget comps tc with _ | st
  · rw [List.map_append]
    rw [List.nodup_append]
    refine ⟨h, by simp, ?_⟩
    intro a ha hb
    simp at hb
    rw [hb] at ha
    exact (aget_eq_none_iff comps tc).mp hg ha
  · exact aset_keys_nodup comps tc _ h

theorem compSet_mem (comps : List (Nat × List (Int × Comp))) (tc : Nat) (e : Int)
    (c : Comp) (p : Nat × List (Int × Comp)) (hp : p ∈ compSet comps tc e c) :
    p ∈ comps ∨ ∃ st : List (Int × Comp), p = (tc, aset st e c) ∧
      (aget comps tc = some st ∨ st = []) := by
  unfold compSet at hp
  rcases hg : aget comps tc with _ | st
  · rw [hg] at hp
    rcases List.mem_append.mp hp with h | h
    · exact Or.inl h
    · simp at h
      exact Or.inr ⟨[], by rw [h]; rfl, Or.inr rfl⟩
  · rw [hg] at hp
    rcases mem_aset _ _ _ p hp with h | h
    · exact Or.inl h
    · exact Or.inr ⟨st, h, Or.inl rfl⟩

theorem mem_aset_val {K V : Type} [DecidableEq K] (l : List (K × V)) (k : K) (v : V)
    (q : K × V) (hq : q ∈ aset l k v) : q ∈ l ∨ q = (k, v) :=
  mem_aset l k v q hq

theorem hasComp_compSet_mono (comps : List (Nat × List (Int × Comp))) (tc : Nat) (e : Int)
    (c : Comp) (x : Int) (t' : Nat) (h : hasComp comps x t' = true) :
    hasComp (compSet comps tc e c) x t' = true := by
  rw [hasComp_compSet]
  by_cases hc : t' = tc ∧ x = e
  · rw [if_pos hc]
  · rw [if_neg hc]
    exact h

theorem aget_compSet_isSome_mono (comps : List (Nat × List (Int × Comp))) (tc : Nat)
    (e : Int) (c : Comp) (t' : Nat) (h : (aget comps t').isSome = true) :
    (aget (compSet comps tc e c) t').isSome = true := by
  rw [aget_compSet]
  by_cases hc : t' = tc
  · rw [if_pos hc]
    rfl
  · rw [if_neg hc]
    exact h

theorem emplace_preserves (w : World) (e : Int) (c : Comp) (hw : WFW w) :
    WFW (World.emplace w e c).1 := by
  unfold World.emplace
  by_cases he : e ∈ w.entities
  · rw [if_pos he]
    dsimp only
    have hKeys : ((compSet w.components c.type e c).map Prod.fst).Nodup :=
      compSet_keys_nodup _ _ _ _ hw.compKeysNodup
    have hStor : ∀ p ∈ compSet w.components c.type e c, (p.2.map Prod.fst).Nodup := by
      intro p hp
      rcases compSet_mem _ _ _ _ p hp with h | ⟨st, hpe, hst⟩
      · exact hw.storNodup p h
      · rw [hpe]
        show ((aset st e c).map Prod.fst).Nodup
        apply aset_keys_nodup
        rcases hst with hst | hst
        · exact hw.storNodup (c.type, st) (aget_mem _ _ _ hst)
        · rw [hst]
          exact List.nodup_nil
    have hWell : ∀ p ∈ compSet w.components c.type e c, ∀ q ∈ p.2, (q.2).type = p.1 := by
      intro p hp q hq
      rcases compSet_mem _ _ _ _ p hp with h | ⟨st, hpe, hst⟩
      · exact hw.wellKeyed p h q hq
      · rw [hpe] at hq ⊢
        have hq' : q ∈ aset st e c := hq
        rcases mem_aset st e c q hq' with h' | h'
        · rcases hst with hst | hst
          · exact hw.wellKeyed (c.type, st) (aget_mem _ _ _ hst) q h'
          · rw [hst] at h'
            exact absurd h' (List.not_mem_nil q)
        · rw [h']
    have hHold : ∀ p ∈ compSet w.components c.type e c, ∀ q ∈ p.2, q.1 ∈ w.entities := by
      intro p hp q hq
      rcases compSet_mem _ _ _ _ p hp with h | ⟨st, hpe, hst⟩
      · exact hw.holdersLive p h q hq
      · rw [hpe] at hq
        have hq' : q ∈ aset st e c := hq
        rcases mem_aset st e c q hq' with h' | h'
        · rcases hst with hst | hst
          · exact hw.holdersLive (c.type, st) (aget_mem _ _ _ hst) q h'
          · rw [hst] at h'
            exact absurd h' (List.not_mem_nil q)
        · rw [h']
          exact he
    have hReg' : ∀ (k : Nat) (ib : IndexBase (Option Comp)), w.registry[k]? = some ib →
        ∀ t' ∈ ib.types, (aget (compSet w.components c.type e c) t').isSome = true :=
      fun k ib hk t' ht' =>
        aget_compSet_isSome_mono _ _ _ _ _ (hw.regRegistered k ib hk t' ht')
    rcases hibc : aget w.indexesByComponent c.type with _ | ids
    · refine ⟨hw.seqNonneg, hw.entNodup, hw.liveLt, hKeys, hStor, hWell, hHold,
        hw.regSorted, hw.regNonempty, hw.regKeysNodup, hReg',
        hw.trieSound, hw.trieComplete, hw.ibcSound, hw.ibcComplete, ?_⟩
      intro k ib hk x
      have hne : ∀ t ∈ ib.types, ¬(t = c.type ∧ x = e) := by
        rintro t ht ⟨heq, -⟩
        rw [heq] at ht
        obtain ⟨ids', hids', -⟩ := hw.ibcComplete k ib hk c.type ht
        rw [hibc] at hids'
        exact Option.noConfusion hids'
      rw [hw.coherent k ib hk x]
      constructor
      · rintro ⟨hx, hall⟩
        refine ⟨hx, fun t ht => ?_⟩
        show hasComp (compSet w.components c.type e c) x t = true
        rw [hasComp_compSet, if_neg (hne t ht)]
        exact hall t ht
      · rintro ⟨hx, hall⟩
        refine ⟨hx, fun t ht => ?_⟩
        have h2 : hasComp (compSet w.components c.type e c) x t = true := hall t ht
        rw [hasComp_compSet, if_neg (hne t ht)] at h2
        exact h2
    · obtain ⟨hidsnd, hsound⟩ := hw.ibcSound c.type ids hibc
      have hids : ∀ k ∈ ids, ∃ ib : IndexBase (Option Comp),
          ({ w with components := compSet w.components c.type e c } :
            World).registry[k]? = some ib ∧
          c.type ∈ ib.types ∧
          (∀ t' ∈ ib.types,
            (aget ({ w with components := compSet w.components c.type e c } :
              World).components t').isSome = true) ∧
          ((aget ib.entityISByEntity e).isSome = true →
            ∀ t' ∈ ib.types,
              hasComp ({ w with components := compSet w.components c.type e c } :
                World).components e t' = true) := by
        intro k hk
        obtain ⟨ib, hkib, htyp⟩ := hsound k hk
        refine ⟨ib, hkib, htyp, fun t' ht' => hReg' k ib hkib t' ht', ?_⟩
        intro hmm
        have hco := (hw.coherent k ib hkib e).mp hmm
        exact fun t' ht' => hasComp_compSet_mono _ _ _ _ _ _ (hco.2 t' ht')
      obtain ⟨hok, hregs⟩ := emplaceIndexLoop_spec ids _ e c hidsnd hids
      obtain ⟨hf1, hf2, hf3, hf4, hf5, hf6⟩ := emplaceIndexLoop_frame ids
        { w with components := compSet w.components c.type e c } e c.type c
      have hpersome : ∀ (k : Nat) (ib1 : IndexBase (Option Comp)),
          (World.emplaceIndexLoop
            { w with components := compSet w.components c.type e c } e c.type c
            ids).1.registry[k]? = some ib1 →
          ∃ ib0 : IndexBase (Option Comp), w.registry[k]? = some ib0 ∧
            ib1.types = ib0.types ∧
            (∀ x : Int, x ≠ e →
              (aget ib1.entityISByEntity x).isSome = (aget ib0.entityISByEntity x).isSome) ∧
            ((ib0.entityISByEntity.map Prod.fst).Nodup →
              (ib1.entityISByEntity.map Prod.fst).Nodup) ∧
            (k ∈ ids →
              ((aget ib1.entityISByEntity e).isSome = true ↔
                ∀ t' ∈ ib0.types,
                  hasComp (compSet w.components c.type e c) e t' = true)) ∧
            (k ∉ ids → ib1 = ib0) := by
        intro k ib1 h1
        have hlen : k < w.registry.length := by
          have h2 := (List.getElem?_eq_some_iff.mp h1).1
          rw [hf6] at h2
          exact h2
        rcases hn : w.registry[k]? with _ | ib0
        · rw [List.getElem?_eq_none_iff] at hn
          omega
        · obtain ⟨ib1', hfin, hprops⟩ := hregs k ib0 hn
          have heq : ib1' = ib1 := by
            rw [hfin] at h1
            injection h1
          rw [heq] at hprops
          exact ⟨ib0, rfl, hprops⟩
      refine ⟨?_, ?_, ?_, ?_, ?_, ?_, ?_, ?_, ?_, ?_, ?_, ?_, ?_, ?_, ?_, ?_⟩
      · rw [hf1]
        exact hw.seqNonneg
      · rw [hf2]
        exact hw.entNodup
      · rw [hf2, hf1]
        exact hw.liveLt
      · rw [hf3]
        exact hKeys
      · rw [hf3]
        exact hStor
      · rw [hf3]
        exact hWell
      · rw [hf3, hf2]
        exact hHold
      · intro k ib1 h1
        obtain ⟨ib0, h0, htys, -, -, -, -⟩ := hpersome k ib1 h1
        rw [htys]
        exact hw.regSorted k ib0 h0
      · intro k ib1 h1
        obtain ⟨ib0, h0, htys, -, -, -, -⟩ := hpersome k ib1 h1
        rw [htys]
        exact hw.regNonempty k ib0 h0
      · intro k ib1 h1
        obtain ⟨ib0, h0, -, -, hnd, -, -⟩ := hpersome k ib1 h1
        exact hnd (hw.regKeysNodup k ib0 h0)
      · intro k ib1 h1
        obtain ⟨ib0, h0, htys, -, -, -, -⟩ := hpersome k ib1 h1
        rw [hf3, htys]
        exact hReg' k ib0 h0
      · intro p k hp
        rw [hf4] at hp
        obtain ⟨ib0, h0, htys⟩ := hw.trieSound p k hp
        have hlen : k < w.registry.length := (List.getElem?_eq_some_iff.mp h0).1
        rcases hn : (World.emplaceIndexLoop
            { w with components := compSet w.components c.type e c } e c.type c
            ids).1.registry[k]? with _ | ib1
        · rw [List.getElem?_eq_none_iff, hf6] at hn
          have hlen2 : ({ w with components := compSet w.components c.type e c } :
              World).registry.length = w.registry.length := rfl
          rw [hlen2] at hn
          omega
        · obtain ⟨ib0', h0', htys', -, -, -, -⟩ := hpersome k ib1 hn
          have : ib0' = ib0 := by
            rw [h0'] at h0
            injection h0
          rw [this] at htys'
          exact ⟨ib1, rfl, htys'.trans htys⟩
      · intro k ib1 h1
        obtain ⟨ib0, h0, htys, -, -, -, -⟩ := hpersome k ib1 h1
        rw [hf4, htys]
        exact hw.trieComplete k ib0 h0
      · intro t ids' hids'
        rw [hf5] at hids'
        obtain ⟨hnd', hsnd'⟩ := hw.ibcSound t ids' hids'
        refine ⟨hnd', ?_⟩
        intro k hk
        obtain ⟨ib0, h0, htyp0⟩ := hsnd' k hk
        have hlen : k < w.registry.length := (List.getElem?_eq_some_iff.mp h0).1
        rcases hn : (World.emplaceIndexLoop
            { w with components := compSet w.components c.type e c } e c.type c
            ids).1.registry[k]? with _ | ib1
        · rw [List.getElem?_eq_none_iff, hf6] at hn
          have hlen2 : ({ w with components := compSet w.components c.type e c } :
              World).registry.length = w.registry.length := rfl
          rw [hlen2] at hn
          omega
        · obtain ⟨ib0', h0', htys', -, -, -, -⟩ := hpersome k ib1 hn
          have : ib0' = ib0 := by
            rw [h0'] at h0
            injection h0
          rw [this] at htys'
          refine ⟨ib1, rfl, ?_⟩
          rw [htys']
          exact htyp0
      · intro k ib1 h1
        obtain ⟨ib0, h0, htys, -, -, -, -⟩ := hpersome k ib1 h1
        intro t ht
        rw [htys] at ht
        obtain ⟨ids', hids', hkmem⟩ := hw.ibcComplete k ib0 h0 t ht
        refine ⟨ids', ?_, hkmem⟩
        rw [hf5]
        exact hids'
      · intro k ib1 h1 x
        obtain ⟨ib0, h0, htys, hx, -, hmemiff, hnotin⟩ := hpersome k ib1 h1
        rw [hf2, hf3, htys]
        by_cases hkmem : k ∈ ids
        · by_cases hxe : x = e
          · subst hxe
            rw [hmemiff hkmem]
            constructor
            · intro hall
              exact ⟨he, hall⟩
            · rintro ⟨-, hall⟩
              exact hall
          · rw [hx x hxe, hw.coherent k ib0 h0 x]
            have hne : ∀ t ∈ ib0.types, ¬(t = c.type ∧ x = e) := fun t _ hand => hxe hand.2
            constructor
            · rintro ⟨h5, hall⟩
              refine ⟨h5, fun t ht => ?_⟩
              show hasComp (compSet w.components c.type e c) x t = true
              rw [hasComp_compSet, if_neg (hne t ht)]
              exact hall t ht
            · rintro ⟨h5, hall⟩
              refine ⟨h5, fun t ht => ?_⟩
              have h6 : hasComp (compSet w.components c.type e c) x t = true := hall t ht
              rw [hasComp_compSet, if_neg (hne t ht)] at h6
              exact h6
        · have hib1 : ib1 = ib0 := hnotin hkmem
          have hne : ∀ t ∈ ib0.types, ¬(t = c.type ∧ x = e) := by
            rintro t ht ⟨heq, -⟩
            rw [heq] at ht
            obtain ⟨ids', hids', hkm⟩ := hw.ibcComplete k ib0 h0 c.type ht
            rw [hibc] at hids'
            have hii : ids' = ids := by
              injection hids' with hii
              exact hii.symm
            rw [hii] at hkm
            exact hkmem hkm
          rw [hib1, hw.coherent k ib0 h0 x]
          constructor
          · rintro ⟨h5, hall⟩
            refine ⟨h5, fun t ht => ?_⟩
            show hasComp (compSet w.components c.type e c) x t = true
            rw [hasComp_compSet, if_neg (hne t ht)]
            exact hall t ht
          · rintro ⟨h5, hall⟩
            refine ⟨h5, fun t ht => ?_⟩
            have h6 : hasComp (compSet w.components c.type e c) x t = true := hall t ht
            rw [hasComp_compSet, if_neg (hne t ht)] at h6
            exact h6
  · rw [if_neg he]
    exact hw

theorem setAdd_nodup {α : Type} [DecidableEq α] (l : List α) (a : α) (h : l.Nodup) :
    (setAdd l a).Nodup := by
  unfold setAdd
  by_cases hm : a ∈ l
  · rw [if_pos hm]
    exact h
  · rw [if_neg hm]
    rw [List.nodup_append]
    exact ⟨h, List.nodup_singleton a, by simpa using hm⟩

theorem hasComp_dead (comps : List (Nat × List (Int × Comp))) (ents : List Int) (e : Int)
    (hold : ∀ p ∈ comps, ∀ q ∈ p.2, q.1 ∈ ents) (hdead : e ∉ ents) (t : Nat) :
    hasComp comps e t = false := by
  rcases hst : aget comps t with _ | st
  · unfold hasComp
    rw [hst]
  · have h1 : hasComp comps e t = (aget st e).isSome := by
      unfold hasComp
      rw [hst]
    rw [h1]
    rcases hc : aget st e with _ | c
    · rfl
    · exfalso
      exact hdead (hold (t, st) (aget_mem _ _ _ hst) (e, c) (aget_mem _ _ _ hc))

theorem wfw_addEntity (w : World) (e : Int) (hw : WFW w)
    (hlt : e = -2 ∨ e < w.entitySequence) :
    WFW { w with entities := setAdd w.entities e } := by
  refine ⟨hw.seqNonneg, setAdd_nodup _ _ hw.entNodup, ?_, hw.compKeysNodup, hw.storNodup,
    hw.wellKeyed, ?_, hw.regSorted, hw.regNonempty, hw.regKeysNodup, hw.regRegistered,
    hw.trieSound, hw.trieComplete, hw.ibcSound, hw.ibcComplete, ?_⟩
  · intro x hx
    rcases (mem_setAdd _ _ _).mp hx with hx' | hx'
    · exact hw.liveLt x hx'
    · rw [hx']
      exact hlt
  · intro p hp q hq
    exact (mem_setAdd _ _ _).mpr (Or.inl (hw.holdersLive p hp q hq))
  · intro k ib hk x
    rw [hw.coherent k ib hk x]
    constructor
    · rintro ⟨hx, hall⟩
      exact ⟨(mem_setAdd _ _ _).mpr (Or.inl hx), hall⟩
    · rintro ⟨hx, hall⟩
      by_cases hxe : x ∈ w.entities
      · exact ⟨hxe, hall⟩
      · exfalso
        obtain ⟨t0, ht0⟩ : ∃ t0, t0 ∈ ib.types := by
          rcases htyp : ib.types with _ | ⟨t0, ts⟩
          · exact absurd htyp (hw.regNonempty k ib hk)
          · exact ⟨t0, List.mem_cons_self _ _⟩
        have hf : hasComp w.components x t0 = true := hall t0 ht0
        rw [hasComp_dead w.components w.entities x hw.holdersLive hxe t0] at hf
        exact Bool.false_ne_true hf

theorem insertLoop_preserves (cs : List Comp) : ∀ (w : World) (e : Int),
    WFW w → WFW (World.insertLoop w e cs).1 := by
  induction cs with
  | nil => intro w e hw; exact hw
  | cons c rest ih =>
    intro w e hw
    have hw' := emplace_preserves w e c hw
    unfold World.insertLoop
    split
    · rename_i w' val heq
      have hw'' : WFW w' := by
        rw [show (World.emplace w e c).1 = w' from by rw [heq]] at hw'
        exact hw'
      exact ih w' e hw''
    · rename_i w' m heq
      have hw'' : WFW w' := by
        rw [show (World.emplace w e c).1 = w' from by rw [heq]] at hw'
        exact hw'
      exact hw''

theorem wfw_seqBump (w : World) (s' : Int) (hw : WFW w) (hlt : w.entitySequence < s') :
    WFW { w with entitySequence := s' } := by
  refine ⟨?_, hw.entNodup, ?_, hw.compKeysNodup, hw.storNodup,
    hw.wellKeyed, hw.holdersLive, hw.regSorted, hw.regNonempty, hw.regKeysNodup,
    hw.regRegistered, hw.trieSound, hw.trieComplete, hw.ibcSound, hw.ibcComplete, ?_⟩
  · show 0 ≤ s'
    have := hw.seqNonneg
    omega
  · intro x hx
    rcases hw.liveLt x hx with h | h
    · exact Or.inl h
    · refine Or.inr ?_
      show x < s'
      omega
  · intro k ib hk x
    exact hw.coherent k ib hk x

theorem insert_preserves (w : World) (e : Int) (cs : List Comp) (hw : WFW w)
    (hlegal : e ≠ w.entitySequence) : WFW (World.insert w e cs).1 := by
  unfold World.insert
  dsimp only
  by_cases hgt : e > w.entitySequence
  · rw [if_pos hgt]
    have hw1 : WFW { w with entitySequence := e + 1 } := wfw_seqBump w (e + 1) hw (by omega)
    have hw2 : WFW { ({ w with entitySequence := e + 1 } : World) with
        entities := setAdd ({ w with entitySequence := e + 1 } : World).entities e } :=
      wfw_addEntity _ e hw1 (Or.inr (by show e < e + 1; omega))
    exact insertLoop_preserves cs _ e hw2
  · rw [if_neg hgt]
    have hw2 : WFW { w with entities := setAdd w.entities e } :=
      wfw_addEntity w e hw (Or.inr (by omega))
    exact insertLoop_preserves cs _ e hw2

theorem registerSingleton_preserves (w : World) (c : Comp) (hw : WFW w) :
    WFW (World.registerSingleton w c).1 := by
  unfold World.registerSingleton
  dsimp only
  have hw1 : WFW { w with entities := setAdd w.entities (-2) } :=
    wfw_addEntity w (-2) hw (Or.inl rfl)
  exact emplace_preserves _ (-2) c hw1

theorem removeFromIndexes_spec (ids : List Nat) : ∀ (w : World) (e : Int),
    ∀ (k : Nat) (ib0 : IndexBase (Option Comp)), w.registry[k]? = some ib0 →
      ∃ ib1 : IndexBase (Option Comp),
        (World.removeFromIndexes w e ids).registry[k]? = some ib1 ∧
        ib1.types = ib0.types ∧
        (∀ x : Int, x ≠ e →
          (aget ib1.entityISByEntity x).isSome = (aget ib0.entityISByEntity x).isSome) ∧
        ((ib0.entityISByEntity.map Prod.fst).Nodup →
          (ib1.entityISByEntity.map Prod.fst).Nodup) ∧
        (k ∈ ids → (aget ib1.entityISByEntity e).isSome = false) ∧
        (k ∉ ids → ib1 = ib0) := by
  induction ids with
  | nil =>
    intro w e k ib0 h
    exact ⟨ib0, h, rfl, fun _ _ => rfl, fun h => h,
      fun hk => absurd hk (List.not_mem_nil k), fun _ => rfl⟩
  | cons k₀ rest ih =>
    intro w e k ib0 hk0
    rcases hreg : w.registry[k₀]? with _ | ib
    · have hstep : World.removeFromIndexes w e (k₀ :: rest)
          = World.removeFromIndexes w e rest := by
        conv_lhs => unfold World.removeFromIndexes
        simp only [hreg]
      rw [hstep]
      obtain ⟨ib1, hfin, htys, hx, hnd, hmem, hnotin⟩ := ih w e k ib0 hk0
      refine ⟨ib1, hfin, htys, hx, hnd, ?_, ?_⟩
      · intro hkmem
        rcases List.mem_cons.mp hkmem with hc | hkrest
        · exfalso
          rw [hc] at hk0
          rw [hk0] at hreg
          exact Option.noConfusion hreg
        · exact hmem hkrest
      · intro hknotin
        exact hnotin (fun hc => hknotin (List.mem_cons_of_mem _ hc))
    · have hstep : World.removeFromIndexes w e (k₀ :: rest)
          = World.removeFromIndexes
              { w with registry := w.registry.set k₀ (ib.remove e).1 } e rest := by
        conv_lhs => unfold World.removeFromIndexes
        simp only [hreg]
      rw [hstep]
      have hk₀len : k₀ < w.registry.length := (List.getElem?_eq_some_iff.mp hreg).1
      have hregget : ∀ j : Nat, j ≠ k₀ →
          ({ w with registry := w.registry.set k₀ (ib.remove e).1 } : World).registry[j]?
            = w.registry[j]? := by
        intro j hj
        show (w.registry.set k₀ (ib.remove e).1)[j]? = _
        rw [List.getElem?_set, if_neg (fun hc => hj hc.symm)]
      have hregk₀ :
          ({ w with registry := w.registry.set k₀ (ib.remove e).1 } : World).registry[k₀]?
            = some (ib.remove e).1 := by
        show (w.registry.set k₀ (ib.remove e).1)[k₀]? = _
        rw [List.getElem?_set, if_pos rfl, if_pos hk₀len]
      by_cases hkk : k = k₀
      · subst hkk
        have hibeq : ib0 = ib := by
          have h2 := hk0.symm.trans hreg
          injection h2
        obtain ⟨ib1, hfin, htys, hx, hnd, hmem, hnotin⟩ := ih _ e k _ hregk₀
        refine ⟨ib1, hfin, ?_, ?_, ?_, ?_, ?_⟩
        · rw [htys, ib_remove_types, hibeq]
        · intro x hx'
          rw [hx x hx', ib_remove_mem, if_neg hx', hibeq]
        · intro hnd0
          refine hnd ?_
          apply ib_remove_keys_nodup
          rw [hibeq] at hnd0
          exact hnd0
        · intro _
          by_cases hkr : k ∈ rest
          · exact hmem hkr
          · rw [hnotin hkr, ib_remove_mem, if_pos rfl]
        · intro hnotin'
          exact absurd (List.mem_cons_self k rest) hnotin'
      · have hk0' :
            ({ w with registry := w.registry.set k₀ (ib.remove e).1 } : World).registry[k]?
              = some ib0 := (hregget k hkk).trans hk0
        obtain ⟨ib1, hfin, htys, hx, hnd, hmem, hnotin⟩ := ih _ e k ib0 hk0'
        refine ⟨ib1, hfin, htys, hx, hnd, ?_, ?_⟩
        · intro hkmem
          rcases List.mem_cons.mp hkmem with hc | hkrest
          · exact absurd hc hkk
          · exact hmem hkrest
        · intro hknotin
          exact hnotin (fun hc => hknotin (List.mem_cons_of_mem _ hc))

theorem remove_preserves (w : World) (e : Int) (t : Nat) (hw : WFW w) :
    WFW (World.remove w e t).1 := by
  unfold World.remove
  rcases hst : aget w.components t with _ | st
  · exact hw
  · dsimp only
    rcases hc : aget st e with _ | c
    · -- nothing stored for e: the delete leaves the storage unchanged
      have hid : aset w.components t (adel st e) = w.components := by
        rw [adel_of_aget_none st e hc, aset_self _ _ _ hst]
      rw [hid]
      exact hw
    · have hKeys : ((aset w.components t (adel st e)).map Prod.fst).Nodup :=
        aset_keys_nodup _ _ _ hw.compKeysNodup
      have hStor : ∀ p ∈ aset w.components t (adel st e), (p.2.map Prod.fst).Nodup := by
        intro p hp
        rcases mem_aset _ _ _ p hp with h | h
        · exact hw.storNodup p h
        · rw [h]
          exact adel_keys_nodup st e (hw.storNodup (t, st) (aget_mem _ _ _ hst))
      have hWell : ∀ p ∈ aset w.components t (adel st e), ∀ q ∈ p.2, (q.2).type = p.1 := by
        intro p hp q hq
        rcases mem_aset _ _ _ p hp with h | h
        · exact hw.wellKeyed p h q hq
        · rw [h] at hq ⊢
          exact hw.wellKeyed (t, st) (aget_mem _ _ _ hst) q (List.mem_of_mem_filter hq)
      have hHold : ∀ p ∈ aset w.components t (adel st e), ∀ q ∈ p.2, q.1 ∈ w.entities := by
        intro p hp q hq
        rcases mem_aset _ _ _ p hp with h | h
        · exact hw.holdersLive p h q hq
        · rw [h] at hq
          exact hw.holdersLive (t, st) (aget_mem _ _ _ hst) q (List.mem_of_mem_filter hq)
      have hReg' : ∀ (k : Nat) (ib : IndexBase (Option Comp)), w.registry[k]? = some ib →
          ∀ t' ∈ ib.types, (aget (aset w.components t (adel st e)) t').isSome = true := by
        intro k ib hk t' ht'
        rw [aget_aset]
        by_cases hc' : t = t'
        · rw [if_pos hc']
          rfl
        · rw [if_neg hc']
          exact hw.regRegistered k ib hk t' ht'
      have hHas : ∀ (x : Int) (t' : Nat),
          hasComp (aset w.components t (adel st e)) x t'
            = (if t' = t ∧ x = e then false else hasComp w.components x t') :=
        fun x t' => hasComp_adel w.components t st e hst x t'
      rcases hibc : aget w.indexesByComponent t with _ | ids
      · refine ⟨hw.seqNonneg, hw.entNodup, hw.liveLt, hKeys, hStor, hWell, hHold,
          hw.regSorted, hw.regNonempty, hw.regKeysNodup, hReg',
          hw.trieSound, hw.trieComplete, hw.ibcSound, hw.ibcComplete, ?_⟩
        intro k ib hk x
        have hne : ∀ t' ∈ ib.types, ¬(t' = t ∧ x = e) := by
          rintro t' ht' ⟨heq, -⟩
          rw [heq] at ht'
          obtain ⟨ids', hids', -⟩ := hw.ibcComplete k ib hk t ht'
          rw [hibc] at hids'
          exact Option.noConfusion hids'
        rw [hw.coherent k ib hk x]
        constructor
        · rintro ⟨hx, hall⟩
          refine ⟨hx, fun t' ht' => ?_⟩
          show hasComp (aset w.components t (adel st e)) x t' = true
          rw [hHas, if_neg (hne t' ht')]
          exact hall t' ht'
        · rintro ⟨hx, hall⟩
          refine ⟨hx, fun t' ht' => ?_⟩
          have h2 : hasComp (aset w.components t (adel st e)) x t' = true := hall t' ht'
          rw [hHas, if_neg (hne t' ht')] at h2
          exact h2
      · obtain ⟨hidsnd, hsound⟩ := hw.ibcSound t ids hibc
        have hregs := removeFromIndexes_spec ids
          { w with components := aset w.components t (adel st e) } e
        obtain ⟨hf1, hf2, hf3, hf4, hf5, hf6⟩ := removeFromIndexes_frame ids
          { w with components := aset w.components t (adel st e) } e
        have hpersome : ∀ (k : Nat) (ib1 : IndexBase (Option Comp)),
            (World.removeFromIndexes
              { w with components := aset w.components t (adel st e) } e
              ids).registry[k]? = some ib1 →
            ∃ ib0 : IndexBase (Option Comp), w.registry[k]? = some ib0 ∧
              ib1.types = ib0.types ∧
              (∀ x : Int, x ≠ e →
                (aget ib1.entityISByEntity x).isSome
                  = (aget ib0.entityISByEntity x).isSome) ∧
              ((ib0.entityISByEntity.map Prod.fst).Nodup →
                (ib1.entityISByEntity.map Prod.fst).Nodup) ∧
              (k ∈ ids → (aget ib1.entityISByEntity e).isSome = false) ∧
              (k ∉ ids → ib1 = ib0) := by
          intro k ib1 h1
          have hlen : k < w.registry.length := by
            have h2 := (List.getElem?_eq_some_iff.mp h1).1
            rw [hf6] at h2
            exact h2
          rcases hn : w.registry[k]? with _ | ib0
          · rw [List.getElem?_eq_none_iff] at hn
            omega
          · obtain ⟨ib1', hfin, hprops⟩ := hregs k ib0 hn
            have heq : ib1' = ib1 := by
              rw [hfin] at h1
              injection h1
            rw [heq] at hprops
            exact ⟨ib0, rfl, hprops⟩
        refine ⟨?_, ?_, ?_, ?_, ?_, ?_, ?_, ?_, ?_, ?_, ?_, ?_, ?_, ?_, ?_, ?_⟩
        · rw [hf1]
          exact hw.seqNonneg
        · rw [hf2]
          exact hw.entNodup
        · rw [hf2, hf1]
          exact hw.liveLt
        · rw [hf3]
          exact hKeys
        · rw [hf3]
          exact hStor
        · rw [hf3]
          exact hWell
        · rw [hf3, hf2]
          exact hHold
        · intro k ib1 h1
          obtain ⟨ib0, h0, htys, -, -, -, -⟩ := hpersome k ib1 h1
          rw [htys]
          exact hw.regSorted k ib0 h0
        · intro k ib1 h1
          obtain ⟨ib0, h0, htys, -, -, -, -⟩ := hpersome k ib1 h1
          rw [htys]
          exact hw.regNonempty k ib0 h0
        · intro k ib1 h1
          obtain ⟨ib0, h0, -, -, hnd, -, -⟩ := hpersome k ib1 h1
          exact hnd (hw.regKeysNodup k ib0 h0)
        · intro k ib1 h1
          obtain ⟨ib0, h0, htys, -, -, -, -⟩ := hpersome k ib1 h1
          rw [hf3, htys]
          exact hReg' k ib0 h0
        · intro p k hp
          rw [hf4] at hp
          obtain ⟨ib0, h0, htys⟩ := hw.trieSound p k hp
          have hlen : k < w.registry.length := (List.getElem?_eq_some_iff.mp h0).1
          rcases hn : (World.removeFromIndexes
              { w with components := aset w.components t (adel st e) } e
              ids).registry[k]? with _ | ib1
          · rw [List.getElem?_eq_none_iff, hf6] at hn
            have hlen2 : ({ w with components := aset w.components t (adel st e) } :
                World).registry.length = w.registry.length := rfl
            rw [hlen2] at hn
            omega
          · obtain ⟨ib0', h0', htys', -, -, -, -⟩ := hpersome k ib1 hn
            have heq0 : ib0' = ib0 := by
              rw [h0'] at h0
              injection h0
            rw [heq0] at htys'
            exact ⟨ib1, rfl, htys'.trans htys⟩
        · intro k ib1 h1
          obtain ⟨ib0, h0, htys, -, -, -, -⟩ := hpersome k ib1 h1
          rw [hf4, htys]
          exact hw.trieComplete k ib0 h0
        · intro t' ids' hids'
          rw [hf5] at hids'
          obtain ⟨hnd', hsnd'⟩ := hw.ibcSound t' ids' hids'
          refine ⟨hnd', ?_⟩
          intro k hk
          obtain ⟨ib0, h0, htyp0⟩ := hsnd' k hk
          have hlen : k < w.registry.length := (List.getElem?_eq_some_iff.mp h0).1
          rcases hn : (World.removeFromIndexes
              { w with components := aset w.components t (adel st e) } e
              ids).registry[k]? with _ | ib1
          · rw [List.getElem?_eq_none_iff, hf6] at hn
            have hlen2 : ({ w with components := aset w.components t (adel st e) } :
                World).registry.length = w.registry.length := rfl
            rw [hlen2] at hn
            omega
          · obtain ⟨ib0', h0', htys', -, -, -, -⟩ := hpersome k ib1 hn
            have heq0 : ib0' = ib0 := by
              rw [h0'] at h0
              injection h0
            rw [heq0] at htys'
            refine ⟨ib1, rfl, ?_⟩
            rw [htys']
            exact htyp0
        · intro k ib1 h1
          obtain ⟨ib0, h0, htys, -, -, -, -⟩ := hpersome k ib1 h1
          intro t' ht'
          rw [htys] at ht'
          obtain ⟨ids', hids', hkmem⟩ := hw.ibcComplete k ib0 h0 t' ht'
          refine ⟨ids', ?_, hkmem⟩
          rw [hf5]
          exact hids'
        · intro k ib1 h1 x
          obtain ⟨ib0, h0, htys, hx, -, hmemfalse, hnotin⟩ := hpersome k ib1 h1
          rw [hf2, hf3, htys]
          by_cases hkmem : k ∈ ids
          · have htmem : t ∈ ib0.types := by
              obtain ⟨ib0', h0', htyp0⟩ := hsound k hkmem
              have : ib0' = ib0 := by
                rw [h0'] at h0
                injection h0
              rw [this] at htyp0
              exact htyp0
            by_cases hxe : x = e
            · rw [hxe, hmemfalse hkmem]
              constructor
              · intro hfalse
                exact absurd hfalse (by simp)
              · rintro ⟨-, hall⟩
                have h2 : hasComp (aset w.components t (adel st e)) e t = true := hall t htmem
                rw [hHas, if_pos ⟨rfl, rfl⟩] at h2
                exact absurd h2 (by simp)
            · rw [hx x hxe, hw.coherent k ib0 h0 x]
              have hne : ∀ t' ∈ ib0.types, ¬(t' = t ∧ x = e) := fun t' _ hand => hxe hand.2
              constructor
              · rintro ⟨h5, hall⟩
                refine ⟨h5, fun t' ht' => ?_⟩
                show hasComp (aset w.components t (adel st e)) x t' = true
                rw [hHas, if_neg (hne t' ht')]
                exact hall t' ht'
              · rintro ⟨h5, hall⟩
                refine ⟨h5, fun t' ht' => ?_⟩
                have h6 : hasComp (aset w.components t (adel st e)) x t' = true := hall t' ht'
                rw [hHas, if_neg (hne t' ht')] at h6
                exact h6
          · have hib1 : ib1 = ib0 := hnotin hkmem
            have hne : ∀ t' ∈ ib0.types, ¬(t' = t ∧ x = e) := by
              rintro t' ht' ⟨heq, -⟩
              rw [heq] at ht'
              obtain ⟨ids', hids', hkm⟩ := hw.ibcComplete k ib0 h0 t ht'
              rw [hibc] at hids'
              have hii : ids' = ids := by
                injection hids' with hii
                exact hii.symm
              rw [hii] at hkm
              exact hkmem hkm
            rw [hib1, hw.coherent k ib0 h0 x]
            constructor
            · rintro ⟨h5, hall⟩
              refine ⟨h5, fun t' ht' => ?_⟩
              show hasComp (aset w.components t (adel st e)) x t' = true
              rw [hHas, if_neg (hne t' ht')]
              exact hall t' ht'
            · rintro ⟨h5, hall⟩
              refine ⟨h5, fun t' ht' => ?_⟩
              have h6 : hasComp (aset w.components t (adel st e)) x t' = true := hall t' ht'
              rw [hHas, if_neg (hne t' ht')] at h6
              exact h6

theorem destroyScan_keys (e : Int) (comps : List (Nat × List (Int × Comp))) :
    (destroyScan e comps).1.map Prod.fst = comps.map Prod.fst := by
  rw [destroyScan_comps, List.map_map]
  exact List.map_congr_left (fun p _ => rfl)

theorem walkIds_matched (w : World) (hw : WFW w) (q : List Nat) (k : Nat) :
    k ∈ walkIds w.trie q ↔
      ∃ ib : IndexBase (Option Comp), w.registry[k]? = some ib ∧
        isSubseq ib.types q = true := by
  rw [walkIds_mem]
  constructor
  · rintro ⟨p, hp, hg⟩
    obtain ⟨ib, hib, htys⟩ := hw.trieSound p k hg
    refine ⟨ib, hib, ?_⟩
    rw [htys]
    exact hp
  · rintro ⟨ib, hib, hsub⟩
    exact ⟨ib.types, hsub, hw.trieComplete k ib hib⟩

theorem destroy_preserves (w : World) (e : Int) (hw : WFW w) :
    WFW (World.destroy w e).1 := by
  unfold World.destroy
  dsimp only
  have hKeys : ((destroyScan e w.components).1.map Prod.fst).Nodup := by
    rw [destroyScan_keys]
    exact hw.compKeysNodup
  have hmemscan : ∀ p' ∈ (destroyScan e w.components).1,
      ∃ p ∈ w.components, p' = (p.1, adel p.2 e) := by
    intro p' hp'
    rw [destroyScan_comps] at hp'
    obtain ⟨p, hp, hpe⟩ := List.mem_map.mp hp'
    exact ⟨p, hp, hpe.symm⟩
  have hStor : ∀ p ∈ (destroyScan e w.components).1, (p.2.map Prod.fst).Nodup := by
    intro p' hp'
    obtain ⟨p, hp, hpe⟩ := hmemscan p' hp'
    rw [hpe]
    exact adel_keys_nodup p.2 e (hw.storNodup p hp)
  have hWell : ∀ p ∈ (destroyScan e w.components).1, ∀ q ∈ p.2, (q.2).type = p.1 := by
    intro p' hp' q hq
    obtain ⟨p, hp, hpe⟩ := hmemscan p' hp'
    rw [hpe] at hq ⊢
    exact hw.wellKeyed p hp q (List.mem_of_mem_filter hq)
  have hHold : ∀ p ∈ (destroyScan e w.components).1, ∀ q ∈ p.2,
      q.1 ∈ setDel w.entities e := by
    intro p' hp' q hq
    obtain ⟨p, hp, hpe⟩ := hmemscan p' hp'
    rw [hpe] at hq
    have hq2 := List.mem_filter.mp hq
    refine (mem_setDel _ _ _).mpr ⟨hw.holdersLive p hp q hq2.1, ?_⟩
    exact of_decide_eq_true hq2.2
  have hReg' : ∀ (k : Nat) (ib : IndexBase (Option Comp)), w.registry[k]? = some ib →
      ∀ t' ∈ ib.types, (aget (destroyScan e w.components).1 t').isSome = true := by
    intro k ib hk t' ht'
    have h := hw.regRegistered k ib hk t' ht'
    rw [destroyScan_comps, aget_map_adel]
    rcases hg : aget w.components t' with _ | s
    · rw [hg] at h
      simp at h
    · rfl
  have hHas : ∀ (x : Int) (t' : Nat),
      hasComp (destroyScan e w.components).1 x t'
        = (if x = e then false else hasComp w.components x t') :=
    fun x t' => hasComp_destroyScan e w.components x t'
  have htypesNodup : (destroyScan e w.components).2.1.Nodup :=
    destroyScan_types_nodup e w.components hw.wellKeyed hw.compKeysNodup
  have htypesSorted : (sortLe (destroyScan e w.components).2.1).Sorted (· < ·) :=
    sortLe_sorted_lt _ htypesNodup
  have htypesMem : ∀ t', t' ∈ sortLe (destroyScan e w.components).2.1 ↔
      hasComp w.components e t' = true := by
    intro t'
    rw [mem_sortLe]
    exact mem_destroyScan_types e w.components t' hw.wellKeyed hw.compKeysNodup
  have hmatched : ∀ (k : Nat) (ib : IndexBase (Option Comp)), w.registry[k]? = some ib →
      (k ∈ walkIds w.trie (sortLe (destroyScan e w.components).2.1) ↔
        ∀ t' ∈ ib.types, hasComp w.components e t' = true) := by
    intro k ib hk
    rw [walkIds_matched w hw]
    constructor
    · rintro ⟨ib', hib', hsub⟩
      have heq : ib' = ib := by
        rw [hib'] at hk
        injection hk
      rw [heq] at hsub
      intro t' ht'
      rw [← htypesMem t']
      exact subset_of_sublist _ _ ((isSubseq_iff_sublist _ _).mp hsub) ht'
    · intro hall
      refine ⟨ib, hk, ?_⟩
      rw [isSubseq_iff_subset_sorted _ _ (hw.regSorted k ib hk) htypesSorted]
      intro t' ht'
      rw [htypesMem t']
      exact hall t' ht'
  have hregs := removeFromIndexes_spec (walkIds w.trie (sortLe (destroyScan e w.components).2.1))
    { entitySequence := w.entitySequence, entities := setDel w.entities e,
      components := (destroyScan e w.components).1, registry := w.registry,
      trie := w.trie, indexesByComponent := w.indexesByComponent } e
  obtain ⟨hf1, hf2, hf3, hf4, hf5, hf6⟩ :=
    removeFromIndexes_frame (walkIds w.trie (sortLe (destroyScan e w.components).2.1))
    { entitySequence := w.entitySequence, entities := setDel w.entities e,
      components := (destroyScan e w.components).1, registry := w.registry,
      trie := w.trie, indexesByComponent := w.indexesByComponent } e
  have hpersome : ∀ (k : Nat) (ib1 : IndexBase (Option Comp)),
      (World.removeFromIndexes
        { entitySequence := w.entitySequence, entities := setDel w.entities e,
          components := (destroyScan e w.components).1, registry := w.registry,
          trie := w.trie, indexesByComponent := w.indexesByComponent } e
        (walkIds w.trie (sortLe (destroyScan e w.components).2.1))).registry[k]?
          = some ib1 →
      ∃ ib0 : IndexBase (Option Comp), w.registry[k]? = some ib0 ∧
        ib1.types = ib0.types ∧
        (∀ x : Int, x ≠ e →
          (aget ib1.entityISByEntity x).isSome = (aget ib0.entityISByEntity x).isSome) ∧
        ((ib0.entityISByEntity.map Prod.fst).Nodup →
          (ib1.entityISByEntity.map Prod.fst).Nodup) ∧
        (k ∈ walkIds w.trie (sortLe (destroyScan e w.components).2.1) →
          (aget ib1.entityISByEntity e).isSome = false) ∧
        (k ∉ walkIds w.trie (sortLe (destroyScan e w.components).2.1) → ib1 = ib0) := by
    intro k ib1 h1
    have hlen : k < w.registry.length := by
      have h2 := (List.getElem?_eq_some_iff.mp h1).1
      rw [hf6] at h2
      exact h2
    rcases hn : w.registry[k]? with _ | ib0
    · rw [List.getElem?_eq_none_iff] at hn
      omega
    · obtain ⟨ib1', hfin, hprops⟩ := hregs k ib0 hn
      have heq : ib1' = ib1 := by
        rw [hfin] at h1
        injection h1
      rw [heq] at hprops
      exact ⟨ib0, rfl, hprops⟩
  refine ⟨?_, ?_, ?_, ?_, ?_, ?_, ?_, ?_, ?_, ?_, ?_, ?_, ?_, ?_, ?_, ?_⟩
  · rw [hf1]
    exact hw.seqNonneg
  · rw [hf2]
    refine List.Nodup.sublist ?_ hw.entNodup
    exact List.filter_sublist w.entities
  · rw [hf2, hf1]
    intro x hx
    exact hw.liveLt x ((mem_setDel _ _ _).mp hx).1
  · rw [hf3]
    exact hKeys
  · rw [hf3]
    exact hStor
  · rw [hf3]
    exact hWell
  · rw [hf3, hf2]
    exact hHold
  · intro k ib1 h1
    obtain ⟨ib0, h0, htys, -, -, -, -⟩ := hpersome k ib1 h1
    rw [htys]
    exact hw.regSorted k ib0 h0
  · intro k ib1 h1
    obtain ⟨ib0, h0, htys, -, -, -, -⟩ := hpersome k ib1 h1
    rw [htys]
    exact hw.regNonempty k ib0 h0
  · intro k ib1 h1
    obtain ⟨ib0, h0, -, -, hnd, -, -⟩ := hpersome k ib1 h1
    exact hnd (hw.regKeysNodup k ib0 h0)
  · intro k ib1 h1
    obtain ⟨ib0, h0, htys, -, -, -, -⟩ := hpersome k ib1 h1
    rw [hf3, htys]
    exact hReg' k ib0 h0
  · intro p k hp
    rw [hf4] at hp
    obtain ⟨ib0, h0, htys⟩ := hw.trieSound p k hp
    have hlen : k < w.registry.length := (List.getElem?_eq_some_iff.mp h0).1
    rcases hn : (World.removeFromIndexes
        { entitySequence := w.entitySequence, entities := setDel w.entities e,
          components := (destroyScan e w.components).1, registry := w.registry,
          trie := w.trie, indexesByComponent := w.indexesByComponent } e
        (walkIds w.trie (sortLe (destroyScan e w.components).2.1))).registry[k]?
        with _ | ib1
    · rw [List.getElem?_eq_none_iff, hf6] at hn
      have hn2 : w.registry.length ≤ k := hn
      omega
    · obtain ⟨ib0', h0', htys', -, -, -, -⟩ := hpersome k ib1 hn
      have heq0 : ib0' = ib0 := by
        rw [h0'] at h0
        injection h0
      rw [heq0] at htys'
      exact ⟨ib1, rfl, htys'.trans htys⟩
  · intro k ib1 h1
    obtain ⟨ib0, h0, htys, -, -, -, -⟩ := hpersome k ib1 h1
    rw [hf4, htys]
    exact hw.trieComplete k ib0 h0
  · intro t' ids' hids'
    rw [hf5] at hids'
    obtain ⟨hnd', hsnd'⟩ := hw.ibcSound t' ids' hids'
    refine ⟨hnd', ?_⟩
    intro k hk
    obtain ⟨ib0, h0, htyp0⟩ := hsnd' k hk
    have hlen : k < w.registry.length := (List.getElem?_eq_some_iff.mp h0).1
    rcases hn : (World.removeFromIndexes
        { entitySequence := w.entitySequence, entities := setDel w.entities e,
          components := (destroyScan e w.components).1, registry := w.registry,
          trie := w.trie, indexesByComponent := w.indexesByComponent } e
        (walkIds w.trie (sortLe (destroyScan e w.components).2.1))).registry[k]?
        with _ | ib1
    · rw [List.getElem?_eq_none_iff, hf6] at hn
      have hn2 : w.registry.length ≤ k := hn
      omega
    · obtain ⟨ib0', h0', htys', -, -, -, -⟩ := hpersome k ib1 hn
      have heq0 : ib0' = ib0 := by
        rw [h0'] at h0
        injection h0
      rw [heq0] at htys'
      refine ⟨ib1, rfl, ?_⟩
      rw [htys']
      exact htyp0
  · intro k ib1 h1
    obtain ⟨ib0, h0, htys, -, -, -, -⟩ := hpersome k ib1 h1
    intro t' ht'
    rw [htys] at ht'
    obtain ⟨ids', hids', hkmem⟩ := hw.ibcComplete k ib0 h0 t' ht'
    refine ⟨ids', ?_, hkmem⟩
    rw [hf5]
    exact hids'
  · intro k ib1 h1 x
    obtain ⟨ib0, h0, htys, hx, -, hmemfalse, hnotin⟩ := hpersome k ib1 h1
    rw [hf2, hf3, htys]
    by_cases hxe : x = e
    · have hLfalse : (aget ib1.entityISByEntity x).isSome = false := by
        rw [hxe]
        by_cases hkmem : k ∈ walkIds w.trie (sortLe (destroyScan e w.components).2.1)
        · exact hmemfalse hkmem
        · rw [hnotin hkmem]
          rcases hb : (aget ib0.entityISByEntity e).isSome with _ | _
          · rfl
          · exfalso
            have hco := (hw.coherent k ib0 h0 e).mp hb
            exact hkmem ((hmatched k ib0 h0).mpr hco.2)
      constructor
      · intro hmm
        rw [hLfalse] at hmm
        exact absurd hmm (by simp)
      · rintro ⟨hment, -⟩
        exfalso
        rw [hxe] at hment
        exact ((mem_setDel _ _ _).mp hment).2 rfl
    · rw [hx x hxe, hw.coherent k ib0 h0 x]
      constructor
      · rintro ⟨h5, hall⟩
        refine ⟨(mem_setDel _ _ _).mpr ⟨h5, hxe⟩, fun t' ht' => ?_⟩
        show hasComp (destroyScan e w.components).1 x t' = true
        rw [hHas, if_neg hxe]
        exact hall t' ht'
      · rintro ⟨h5, hall⟩
        refine ⟨((mem_setDel _ _ _).mp h5).1, fun t' ht' => ?_⟩
        have h6 : hasComp (destroyScan e w.components).1 x t' = true := hall t' ht'
        rw [hHas, if_neg hxe] at h6
        exact h6

theorem storeAll_inv (cs : List Comp) : ∀ (comps : List (Nat × List (Int × Comp))) (e : Int)
    (ents : List Int),
    (comps.map Prod.fst).Nodup →
    (∀ p ∈ comps, (p.2.map Prod.fst).Nodup) →
    (∀ p ∈ comps, ∀ q ∈ p.2, (q.2).type = p.1) →
    (∀ p ∈ comps, ∀ q ∈ p.2, q.1 ∈ ents) →
    e ∈ ents →
    ((storeAll comps e cs).map Prod.fst).Nodup ∧
    (∀ p ∈ storeAll comps e cs, (p.2.map Prod.fst).Nodup) ∧
    (∀ p ∈ storeAll comps e cs, ∀ q ∈ p.2, (q.2).type = p.1) ∧
    (∀ p ∈ storeAll comps e cs, ∀ q ∈ p.2, q.1 ∈ ents) := by
  induction cs with
  | nil =>
    intro comps e ents h1 h2 h3 h4 _
    exact ⟨h1, h2, h3, h4⟩
  | cons c rest ih =>
    intro comps e ents h1 h2 h3 h4 he
    have hstep : storeAll comps e (c :: rest) = storeAll (compSet comps c.type e c) e rest := rfl
    rw [hstep]
    refine ih (compSet comps c.type e c) e ents ?_ ?_ ?_ ?_ he
    · exact compSet_keys_nodup _ _ _ _ h1
    · intro p hp
      rcases compSet_mem _ _ _ _ p hp with h | ⟨st, hpe, hst⟩
      · exact h2 p h
      · rw [hpe]
        rcases hst with hg | hnil
        · exact aset_keys_nodup _ _ _ (h2 (c.type, st) (aget_mem _ _ _ hg))
        · rw [hnil]
          simp [aset]
    · intro p hp q hq
      rcases compSet_mem _ _ _ _ p hp with h | ⟨st, hpe, hst⟩
      · exact h3 p h q hq
      · rw [hpe] at hq ⊢
        rcases mem_aset _ _ _ q hq with hq' | hq'
        · rcases hst with hg | hnil
          · exact h3 (c.type, st) (aget_mem _ _ _ hg) q hq'
          · rw [hnil] at hq'
            exact absurd hq' (List.not_mem_nil q)
        · rw [hq']
    · intro p hp q hq
      rcases compSet_mem _ _ _ _ p hp with h | ⟨st, hpe, hst⟩
      · exact h4 p h q hq
      · rw [hpe] at hq
        rcases mem_aset _ _ _ q hq with hq' | hq'
        · rcases hst with hg | hnil
          · exact h4 (c.type, st) (aget_mem _ _ _ hg) q hq'
          · rw [hnil] at hq'
            exact absurd hq' (List.not_mem_nil q)
        · rw [hq']
          exact he

theorem storeAll_isSome_mono (cs : List Comp) : ∀ (comps : List (Nat × List (Int × Comp)))
    (e : Int) (t' : Nat), (aget comps t').isSome = true →
    (aget (storeAll comps e cs) t').isSome = true := by
  induction cs with
  | nil =>
    intro comps e t' h
    exact h
  | cons c rest ih =>
    intro comps e t' h
    exact ih _ e t' (aget_compSet_isSome_mono _ _ _ _ _ h)

theorem createAddLoop_spec (ids : List Nat) : ∀ (w : World) (e : Int),
    (∀ k ∈ ids, ∃ ib : IndexBase (Option Comp), w.registry[k]? = some ib ∧
      ∀ t ∈ ib.types, (aget w.components t).isSome = true) →
    (World.createAddLoop w e ids).2 = Except.ok () ∧
    ∀ (k : Nat) (ib0 : IndexBase (Option Comp)), w.registry[k]? = some ib0 →
      ∃ ib1 : IndexBase (Option Comp),
        (World.createAddLoop w e ids).1.registry[k]? = some ib1 ∧
        ib1.types = ib0.types ∧
        (∀ x : Int, x ≠ e →
          (aget ib1.entityISByEntity x).isSome = (aget ib0.entityISByEntity x).isSome) ∧
        ((ib0.entityISByEntity.map Prod.fst).Nodup →
          (ib1.entityISByEntity.map Prod.fst).Nodup) ∧
        (k ∈ ids → (aget ib1.entityISByEntity e).isSome = true) ∧
        (k ∉ ids → ib1 = ib0) := by
  induction ids with
  | nil =>
    intro w e _
    refine ⟨rfl, ?_⟩
    intro k ib0 h
    exact ⟨ib0, h, rfl, fun _ _ => rfl, fun h => h,
      fun hk => absurd hk (List.not_mem_nil k), fun _ => rfl⟩
  | cons k₀ rest ih =>
    intro w e hreg
    obtain ⟨ib, hib, hibreg⟩ := hreg k₀ (List.mem_cons_self _ _)
    obtain ⟨ecs, hecs⟩ := gatherCreate_ok ib.types w.components e hibreg
    have hstep : World.createAddLoop w e (k₀ :: rest)
        = World.createAddLoop { w with registry := w.registry.set k₀ (ib.add e ecs) } e rest := by
      conv_lhs => unfold World.createAddLoop
      simp only [hib, hecs]
    rw [hstep]
    have hk₀len : k₀ < w.registry.length := (List.getElem?_eq_some_iff.mp hib).1
    have hregget : ∀ j : Nat, j ≠ k₀ →
        ({ w with registry := w.registry.set k₀ (ib.add e ecs) } : World).registry[j]?
          = w.registry[j]? := by
      intro j hj
      show (w.registry.set k₀ (ib.add e ecs))[j]? = _
      rw [List.getElem?_set, if_neg (fun hc => hj hc.symm)]
    have hregk₀ :
        ({ w with registry := w.registry.set k₀ (ib.add e ecs) } : World).registry[k₀]?
          = some (ib.add e ecs) := by
      show (w.registry.set k₀ (ib.add e ecs))[k₀]? = _
      rw [List.getElem?_set, if_pos rfl, if_pos hk₀len]
    have hreg' : ∀ k ∈ rest, ∃ ib' : IndexBase (Option Comp),
        ({ w with registry := w.registry.set k₀ (ib.add e ecs) } : World).registry[k]?
          = some ib' ∧
        ∀ t ∈ ib'.types,
          (aget ({ w with registry := w.registry.set k₀ (ib.add e ecs) } :
            World).components t).isSome = true := by
      intro k hk
      by_cases hkk : k = k₀
      · subst hkk
        refine ⟨ib.add e ecs, hregk₀, ?_⟩
        rw [ib_add_types]
        intro t ht
        exact hibreg t ht
      · obtain ⟨ib', hib', hreg''⟩ := hreg k (List.mem_cons_of_mem _ hk)
        refine ⟨ib', ?_, fun t ht => hreg'' t ht⟩
        rw [hregget k hkk]
        exact hib'
    obtain ⟨hok, hper⟩ := ih { w with registry := w.registry.set k₀ (ib.add e ecs) } e hreg'
    refine ⟨hok, ?_⟩
    intro k ib0 hk0
    by_cases hkk : k = k₀
    · subst hkk
      have hibeq : ib0 = ib := by
        have h2 := hk0.symm.trans hib
        injection h2
      obtain ⟨ib1, hfin, htys, hx, hnd, hmem, hnotin⟩ := hper k _ hregk₀
      refine ⟨ib1, hfin, ?_, ?_, ?_, ?_, ?_⟩
      · rw [htys, ib_add_types, hibeq]
      · intro x hx'
        rw [hx x hx', ib_add_mem, if_neg hx', hibeq]
      · intro hnd0
        refine hnd ?_
        apply ib_add_keys_nodup
        rw [hibeq] at hnd0
        exact hnd0
      · intro _
        by_cases hkr : k ∈ rest
        · exact hmem hkr
        · rw [hnotin hkr, ib_add_mem, if_pos rfl]
      · intro hnotin'
        exact absurd (List.mem_cons_self _ _) hnotin'
    · have hk0' : ({ w with registry := w.registry.set k₀ (ib.add e ecs) } :
          World).registry[k]? = some ib0 := by
        rw [hregget k hkk]
        exact hk0
      obtain ⟨ib1, hfin, htys, hx, hnd, hmem, hnotin⟩ := hper k ib0 hk0'
      refine ⟨ib1, hfin, htys, hx, hnd, ?_, ?_⟩
      · intro hkmem
        rcases List.mem_cons.mp hkmem with hc | hkrest
        · exact absurd hc hkk
        · exact hmem hkrest
      · intro hknotin
        exact hnotin (fun hc => hknotin (List.mem_cons_of_mem _ hc))

theorem create_preserves (w : World) (cs : List Comp) (hw : WFW w)
    (hnd : hasAdjacentDup (sortLe (cs.map Comp.type)) = false) :
    WFW (World.create w cs).1 := by
  have hfresh : w.entitySequence ∉ w.entities := by
    intro hmem
    have hs := hw.seqNonneg
    rcases hw.liveLt _ hmem with h | h
    · omega
    · omega
  obtain ⟨hKeys, hStor, hWell, hHold⟩ := storeAll_inv cs w.components w.entitySequence
    (setAdd w.entities w.entitySequence) hw.compKeysNodup hw.storNodup hw.wellKeyed
    (fun p hp q hq => (mem_setAdd _ _ _).mpr (Or.inl (hw.holdersLive p hp q hq)))
    ((mem_setAdd _ _ _).mpr (Or.inr rfl))
  have hHas : ∀ (x : Int) (t' : Nat),
      hasComp (storeAll w.components w.entitySequence cs) x t'
        = (if x = w.entitySequence ∧ t' ∈ cs.map Comp.type then true
           else hasComp w.components x t') :=
    fun x t' => hasComp_storeAll cs w.components w.entitySequence x t'
  have hdead : ∀ t' : Nat, hasComp w.components w.entitySequence t' = false :=
    fun t' => hasComp_dead w.components w.entities w.entitySequence hw.holdersLive hfresh t'
  have hsortedP : (sortLe (cs.map Comp.type)).Sorted (· < ·) :=
    sorted_lt_of_le_noAdjDup _ (sorted_sortLe _) hnd
  have hmatched : ∀ (k : Nat) (ib : IndexBase (Option Comp)), w.registry[k]? = some ib →
      (k ∈ walkIds w.trie (sortLe (cs.map Comp.type)) ↔
        ∀ t' ∈ ib.types, t' ∈ cs.map Comp.type) := by
    intro k ib hk
    rw [walkIds_matched w hw]
    constructor
    · rintro ⟨ib', hib', hsub⟩
      have heq : ib' = ib := by
        rw [hib'] at hk
        injection hk
      rw [heq] at hsub
      intro t' ht'
      rw [← mem_sortLe]
      exact subset_of_sublist _ _ ((isSubseq_iff_sublist _ _).mp hsub) ht'
    · intro hall
      refine ⟨ib, hk, ?_⟩
      rw [isSubseq_iff_subset_sorted _ _ (hw.regSorted k ib hk) hsortedP]
      intro t' ht'
      rw [mem_sortLe]
      exact hall t' ht'
  have hregOK : ∀ k ∈ walkIds w.trie (sortLe (cs.map Comp.type)),
      ∃ ib : IndexBase (Option Comp), w.registry[k]? = some ib ∧
        ∀ t ∈ ib.types,
          (aget (storeAll w.components w.entitySequence cs) t).isSome = true := by
    intro k hk
    obtain ⟨ib, hib, -⟩ := (walkIds_matched w hw _ k).mp hk
    refine ⟨ib, hib, ?_⟩
    intro t ht
    exact storeAll_isSome_mono cs w.components w.entitySequence t
      (hw.regRegistered k ib hib t ht)
  obtain ⟨hok, hper⟩ := createAddLoop_spec (walkIds w.trie (sortLe (cs.map Comp.type)))
    { entitySequence := w.entitySequence + 1,
      entities := setAdd w.entities w.entitySequence,
      components := storeAll w.components w.entitySequence cs,
      registry := w.registry, trie := w.trie,
      indexesByComponent := w.indexesByComponent } w.entitySequence hregOK
  obtain ⟨hf1, hf2, hf3, hf4, hf5, hf6⟩ :=
    createAddLoop_frame (walkIds w.trie (sortLe (cs.map Comp.type)))
      { entitySequence := w.entitySequence + 1,
        entities := setAdd w.entities w.entitySequence,
        components := storeAll w.components w.entitySequence cs,
        registry := w.registry, trie := w.trie,
        indexesByComponent := w.indexesByComponent } w.entitySequence
  rcases hsc : World.createAddLoop
      { entitySequence := w.entitySequence + 1,
        entities := setAdd w.entities w.entitySequence,
        components := storeAll w.components w.entitySequence cs,
        registry := w.registry, trie := w.trie,
        indexesByComponent := w.indexesByComponent } w.entitySequence
      (walkIds w.trie (sortLe (cs.map Comp.type))) with ⟨w3, res⟩
  rw [hsc] at hok hper hf1 hf2 hf3 hf4 hf5 hf6
  dsimp only at hok hper hf1 hf2 hf3 hf4 hf5 hf6
  rcases res with m | u
  · exact Except.noConfusion hok
  have hcreq : World.create w cs = (w3, Except.ok w.entitySequence) := by
    unfold World.create
    dsimp only
    rw [hnd]
    rw [if_neg (fun hfalse => Bool.noConfusion hfalse)]
    rw [hsc]
  rw [hcreq]
  show WFW w3
  have hpersome : ∀ (k : Nat) (ib1 : IndexBase (Option Comp)),
      w3.registry[k]? = some ib1 →
      ∃ ib0 : IndexBase (Option Comp), w.registry[k]? = some ib0 ∧
        ib1.types = ib0.types ∧
        (∀ x : Int, x ≠ w.entitySequence →
          (aget ib1.entityISByEntity x).isSome = (aget ib0.entityISByEntity x).isSome) ∧
        ((ib0.entityISByEntity.map Prod.fst).Nodup →
          (ib1.entityISByEntity.map Prod.fst).Nodup) ∧
        (k ∈ walkIds w.trie (sortLe (cs.map Comp.type)) →
          (aget ib1.entityISByEntity w.entitySequence).isSome = true) ∧
        (k ∉ walkIds w.trie (sortLe (cs.map Comp.type)) → ib1 = ib0) := by
    intro k ib1 h1
    have hlen : k < w.registry.length := by
      have h2 := (List.getElem?_eq_some_iff.mp h1).1
      rw [hf6] at h2
      exact h2
    rcases hn : w.registry[k]? with _ | ib0
    · rw [List.getElem?_eq_none_iff] at hn
      omega
    · obtain ⟨ib1', hfin, hprops⟩ := hper k ib0 hn
      have heq : ib1' = ib1 := by
        rw [hfin] at h1
        injection h1
      rw [heq] at hprops
      exact ⟨ib0, rfl, hprops⟩
  refine ⟨?_, ?_, ?_, ?_, ?_, ?_, ?_, ?_, ?_, ?_, ?_, ?_, ?_, ?_, ?_, ?_⟩
  · rw [hf1]
    have := hw.seqNonneg
    omega
  · rw [hf2]
    exact setAdd_nodup _ _ hw.entNodup
  · rw [hf2, hf1]
    intro x hx
    rcases (mem_setAdd _ _ _).mp hx with hx' | hx'
    · rcases hw.liveLt x hx' with h | h
      · exact Or.inl h
      · right
        omega
    · right
      omega
  · rw [hf3]
    exact hKeys
  · rw [hf3]
    exact hStor
  · rw [hf3]
    exact hWell
  · rw [hf3, hf2]
    exact hHold
  · intro k ib1 h1
    obtain ⟨ib0, h0, htys, -, -, -, -⟩ := hpersome k ib1 h1
    rw [htys]
    exact hw.regSorted k ib0 h0
  · intro k ib1 h1
    obtain ⟨ib0, h0, htys, -, -, -, -⟩ := hpersome k ib1 h1
    rw [htys]
    exact hw.regNonempty k ib0 h0
  · intro k ib1 h1
    obtain ⟨ib0, h0, -, -, hnd', -, -⟩ := hpersome k ib1 h1
    exact hnd' (hw.regKeysNodup k ib0 h0)
  · intro k ib1 h1
    obtain ⟨ib0, h0, htys, -, -, -, -⟩ := hpersome k ib1 h1
    rw [hf3, htys]
    intro t ht
    exact storeAll_isSome_mono cs w.components w.entitySequence t
      (hw.regRegistered k ib0 h0 t ht)
  · intro p k hp
    rw [hf4] at hp
    obtain ⟨ib0, h0, htys⟩ := hw.trieSound p k hp
    obtain ⟨ib1, hfin, htys', -, -, -, -⟩ := hper k ib0 h0
    exact ⟨ib1, hfin, htys'.trans htys⟩
  · intro k ib1 h1
    obtain ⟨ib0, h0, htys, -, -, -, -⟩ := hpersome k ib1 h1
    rw [hf4, htys]
    exact hw.trieComplete k ib0 h0
  · intro t' ids' hids'
    rw [hf5] at hids'
    obtain ⟨hnd'', hsnd'⟩ := hw.ibcSound t' ids' hids'
    refine ⟨hnd'', ?_⟩
    intro k hk
    obtain ⟨ib0, h0, htyp0⟩ := hsnd' k hk
    obtain ⟨ib1, hfin, htys', -, -, -, -⟩ := hper k ib0 h0
    refine ⟨ib1, hfin, ?_⟩
    rw [htys']
    exact htyp0
  · intro k ib1 h1
    obtain ⟨ib0, h0, htys, -, -, -, -⟩ := hpersome k ib1 h1
    intro t' ht'
    rw [htys] at ht'
    obtain ⟨ids', hids', hkmem⟩ := hw.ibcComplete k ib0 h0 t' ht'
    refine ⟨ids', ?_, hkmem⟩
    rw [hf5]
    exact hids'
  · intro k ib1 h1 x
    obtain ⟨ib0, h0, htys, hx, -, hmem, hnotin⟩ := hpersome k ib1 h1
    rw [hf2, hf3, htys]
    by_cases hxe : x = w.entitySequence
    · by_cases hkm : k ∈ walkIds w.trie (sortLe (cs.map Comp.type))
      · have hsubP := (hmatched k ib0 h0).mp hkm
        have hub : ∀ t ∈ ib0.types,
            hasComp (storeAll w.components w.entitySequence cs) w.entitySequence t = true := by
          intro t ht
          rw [hHas]
          rw [if_pos ⟨rfl, hsubP t ht⟩]
        constructor
        · intro _
          refine ⟨?_, ?_⟩
          · rw [hxe]
            exact (mem_setAdd _ _ _).mpr (Or.inr rfl)
          · rw [hxe]
            exact hub
        · intro _
          rw [hxe]
          exact hmem hkm
      · have hib10 : ib1 = ib0 := hnotin hkm
        have hLfalse : (aget ib1.entityISByEntity x).isSome = false := by
          rw [hib10, hxe]
          rcases hb : (aget ib0.entityISByEntity w.entitySequence).isSome with _ | _
          · rfl
          · exfalso
            have hco := (hw.coherent k ib0 h0 w.entitySequence).mp hb
            exact hfresh hco.1
        have hRfalse : ¬(x ∈ setAdd w.entities w.entitySequence ∧
            ∀ t ∈ ib0.types,
              hasComp (storeAll w.components w.entitySequence cs) x t = true) := by
          rintro ⟨-, hall⟩
          refine hkm ((hmatched k ib0 h0).mpr ?_)
          intro t ht
          have h6 := hall t ht
          rw [hHas] at h6
          by_cases hc : x = w.entitySequence ∧ t ∈ cs.map Comp.type
          · exact hc.2
          · rw [if_neg hc] at h6
            rw [hxe] at h6
            rw [hdead t] at h6
            exact absurd h6 (by simp)
        constructor
        · intro hmm2
          rw [hLfalse] at hmm2
          exact absurd hmm2 (by simp)
        · intro h7
          exact absurd h7 hRfalse
    · rw [hx x hxe, hw.coherent k ib0 h0 x]
      constructor
      · rintro ⟨h5, hall⟩
        refine ⟨(mem_setAdd _ _ _).mpr (Or.inl h5), fun t ht => ?_⟩
        rw [hHas, if_neg (fun hc => hxe hc.1)]
        exact hall t ht
      · rintro ⟨h5, hall⟩
        have h5' : x ∈ w.entities := by
          rcases (mem_setAdd _ _ _).mp h5 with h | h
          · exact h
          · exact absurd h hxe
        refine ⟨h5', fun t ht => ?_⟩
        have h6 := hall t ht
        rw [hHas, if_neg (fun hc => hxe hc.1)] at h6
        exact h6

theorem mem_sortByLe {α : Type} (le : α → α → Bool) (l : List α) (y : α) :
    y ∈ sortByLe le l ↔ y ∈ l := by
  induction l with
  | nil => simp [sortByLe]
  | cons a rest ih =>
    show y ∈ insByLe le a (sortByLe le rest) ↔ _
    rw [mem_insByLe, ih]
    exact (List.mem_cons).symm

theorem ensureAll_inv (ts : List Nat) : ∀ (comps : List (Nat × List (Int × Comp))),
    ((comps.map Prod.fst).Nodup → ((ensureAll comps ts).map Prod.fst).Nodup) ∧
    (∀ p ∈ ensureAll comps ts, p ∈ comps ∨ p.2 = []) := by
  induction ts with
  | nil =>
    intro comps
    exact ⟨fun h => h, fun p hp => Or.inl hp⟩
  | cons t rest ih =>
    intro comps
    have hstep : ensureAll comps (t :: rest) = ensureAll (ensureStorage comps t) rest := rfl
    rw [hstep]
    obtain ⟨ihn, ihm⟩ := ih (ensureStorage comps t)
    constructor
    · intro h
      refine ihn ?_
      unfold ensureStorage
      by_cases hs : (aget comps t).isSome = true
      · rw [if_pos hs]
        exact h
      · rw [if_neg hs]
        have ht : t ∉ comps.map Prod.fst :=
          (aget_eq_none_iff comps t).mp (Option.not_isSome_iff_eq_none.mp hs)
        rw [List.map_append]
        refine List.Nodup.append h ?_ ?_
        · simp
        · intro a ha hb
          simp at hb
          rw [hb] at ha
          exact ht ha
    · intro p hp
      rcases ihm p hp with h | h
      · unfold ensureStorage at h
        by_cases hs : (aget comps t).isSome = true
        · rw [if_pos hs] at h
          exact Or.inl h
        · rw [if_neg hs] at h
          rcases List.mem_append.mp h with h2 | h2
          · exact Or.inl h2
          · simp at h2
            rw [h2]
            exact Or.inr rfl
      · exact Or.inr h

theorem ensureAll_isSome_mono (ts : List Nat) (comps : List (Nat × List (Int × Comp)))
    (t' : Nat) (h : (aget comps t').isSome = true) :
    (aget (ensureAll comps ts) t').isSome = true := by
  rw [aget_ensureAll_isSome, h]
  rfl

theorem ensureAll_isSome_of_mem (ts : List Nat) (comps : List (Nat × List (Int × Comp)))
    (t' : Nat) (h : t' ∈ ts) :
    (aget (ensureAll comps ts) t').isSome = true := by
  rw [aget_ensureAll_isSome]
  simp [h]

theorem seedLoop_spec (es : List Int) : ∀ (w : World) (k : Nat)
    (ib0 : IndexBase (Option Comp)),
    w.registry[k]? = some ib0 →
    (∀ t ∈ ib0.types, (aget w.components t).isSome = true) →
    (World.seedLoop w k es).2 = Except.ok () ∧
    (∀ j : Nat, j ≠ k → (World.seedLoop w k es).1.registry[j]? = w.registry[j]?) ∧
    ∃ ib1 : IndexBase (Option Comp),
      (World.seedLoop w k es).1.registry[k]? = some ib1 ∧
      ib1.types = ib0.types ∧
      (∀ x : Int, (aget ib1.entityISByEntity x).isSome
        = (if x ∈ es ∧ ∀ t ∈ ib0.types, hasComp w.components x t = true then true
           else (aget ib0.entityISByEntity x).isSome)) ∧
      ((ib0.entityISByEntity.map Prod.fst).Nodup →
        (ib1.entityISByEntity.map Prod.fst).Nodup) := by
  induction es with
  | nil =>
    intro w k ib0 hk _
    refine ⟨rfl, fun j _ => rfl, ib0, hk, rfl, ?_, fun h => h⟩
    intro x
    rw [if_neg (fun hc => absurd hc.1 (List.not_mem_nil x))]
  | cons e rest ih =>
    intro w k ib0 hk hreg
    obtain ⟨hsome, hnone⟩ := gatherSkip_spec ib0.types w.components e hreg
    by_cases hold : ∀ t ∈ ib0.types, hasComp w.components e t = true
    · obtain ⟨ecs, hecs⟩ := hsome hold
      have hstep : World.seedLoop w k (e :: rest)
          = World.seedLoop { w with registry := w.registry.set k (ib0.add e ecs) } k rest := by
        conv_lhs => unfold World.seedLoop
        simp only [hk, hecs]
      rw [hstep]
      have hklen : k < w.registry.length := (List.getElem?_eq_some_iff.mp hk).1
      have hk' : ({ w with registry := w.registry.set k (ib0.add e ecs) } :
          World).registry[k]? = some (ib0.add e ecs) := by
        show (w.registry.set k (ib0.add e ecs))[k]? = _
        rw [List.getElem?_set, if_pos rfl, if_pos hklen]
      have hreg' : ∀ t ∈ (ib0.add e ecs).types,
          (aget ({ w with registry := w.registry.set k (ib0.add e ecs) } :
            World).components t).isSome = true := by
        rw [ib_add_types]
        intro t ht
        exact hreg t ht
      obtain ⟨hok, hfr, ib1, hfin, htys, hmem, hnd⟩ :=
        ih { w with registry := w.registry.set k (ib0.add e ecs) } k (ib0.add e ecs) hk' hreg'
      dsimp only at hfr hmem
      simp only [ib_add_types, ib_add_mem] at hmem
      refine ⟨hok, ?_, ib1, hfin, htys.trans (ib_add_types _ _ _), ?_, ?_⟩
      · intro j hj
        rw [hfr j hj]
        show (w.registry.set k (ib0.add e ecs))[j]? = _
        rw [List.getElem?_set, if_neg (fun hc => hj hc.symm)]
      · intro x
        rw [hmem x]
        by_cases hxe : x = e
        · rw [if_pos hxe, ite_self]
          rw [if_pos ⟨by rw [hxe]; exact List.mem_cons_self _ _, by rw [hxe]; exact hold⟩]
        · rw [if_neg hxe]
          by_cases hc : x ∈ rest ∧ ∀ t ∈ ib0.types, hasComp w.components x t = true
          · rw [if_pos hc, if_pos ⟨List.mem_cons_of_mem _ hc.1, hc.2⟩]
          · rw [if_neg hc,
              if_neg (fun hc2 => hc ⟨(List.mem_cons.mp hc2.1).resolve_left hxe, hc2.2⟩)]
      · intro h0
        exact hnd (ib_add_keys_nodup _ _ _ h0)
    · have hecs := hnone hold
      have hstep : World.seedLoop w k (e :: rest) = World.seedLoop w k rest := by
        conv_lhs => unfold World.seedLoop
        simp only [hk, hecs]
      rw [hstep]
      obtain ⟨hok, hfr, ib1, hfin, htys, hmem, hnd⟩ := ih w k ib0 hk hreg
      refine ⟨hok, hfr, ib1, hfin, htys, ?_, hnd⟩
      intro x
      rw [hmem x]
      by_cases hc : x ∈ rest ∧ ∀ t ∈ ib0.types, hasComp w.components x t = true
      · rw [if_pos hc, if_pos ⟨List.mem_cons_of_mem _ hc.1, hc.2⟩]
      · have hneg : ¬(x ∈ e :: rest ∧ ∀ t ∈ ib0.types, hasComp w.components x t = true) := by
          rintro ⟨hmem2, hall2⟩
          rcases List.mem_cons.mp hmem2 with he | hr
          · rw [he] at hall2
            exact hold hall2
          · exact hc ⟨hr, hall2⟩
        rw [if_neg hc, if_neg hneg]

theorem wfw_flagged (w : World) (hw : WFW w) (k : Nat) (ib : IndexBase (Option Comp))
    (hreg0 : w.registry[k]? = some ib) (ets : List Nat) :
    WFW { w with
          components := ensureAll w.components ets,
          registry := w.registry.set k
            { ib with
              addVerObserved := true,
              remVerObserved := true } } := by
  have hklen : k < w.registry.length := (List.getElem?_eq_some_iff.mp hreg0).1
  obtain ⟨hkeysf, hmemf⟩ := ensureAll_inv ets w.components
  have hHasE : ∀ (x : Int) (t' : Nat),
      hasComp (ensureAll w.components ets) x t' = hasComp w.components x t' :=
    fun x t' => hasComp_ensureAll ets w.components x t'
  generalize hibf : ({ ib with addVerObserved := true, remVerObserved := true } :
    IndexBase (Option Comp)) = ibf
  have hibfty : ibf.types = ib.types := by
    rw [← hibf]
  have hibfmem : ibf.entityISByEntity = ib.entityISByEntity := by
    rw [← hibf]
  have hregk : (w.registry.set k ibf)[k]? = some ibf := by
    rw [List.getElem?_set, if_pos rfl, if_pos hklen]
  have hregj : ∀ j : Nat, j ≠ k → (w.registry.set k ibf)[j]? = w.registry[j]? := by
    intro j hj
    rw [List.getElem?_set, if_neg (fun hc => hj hc.symm)]
  have hperj : ∀ (j : Nat) (ib' : IndexBase (Option Comp)),
      (w.registry.set k ibf)[j]? = some ib' →
      (j = k ∧ ib' = ibf) ∨ (j ≠ k ∧ w.registry[j]? = some ib') := by
    intro j ib' h'
    by_cases hjk : j = k
    · rw [hjk, hregk] at h'
      left
      refine ⟨hjk, ?_⟩
      injection h' with h2
      exact h2.symm
    · right
      rw [hregj j hjk] at h'
      exact ⟨hjk, h'⟩
  refine ⟨hw.seqNonneg, hw.entNodup, hw.liveLt, hkeysf hw.compKeysNodup,
    ?_, ?_, ?_, ?_, ?_, ?_, ?_, ?_, ?_, ?_, ?_, ?_⟩
  · intro p hp
    rcases hmemf p hp with h | h
    · exact hw.storNodup p h
    · rw [h]
      simp
  · intro p hp q hq
    rcases hmemf p hp with h | h
    · exact hw.wellKeyed p h q hq
    · rw [h] at hq
      exact absurd hq (List.not_mem_nil q)
  · intro p hp q hq
    rcases hmemf p hp with h | h
    · exact hw.holdersLive p h q hq
    · rw [h] at hq
      exact absurd hq (List.not_mem_nil q)
  · intro j ib' h'
    rcases hperj j ib' h' with ⟨hjk, hib'⟩ | ⟨hjk, hold⟩
    · rw [hib', hibfty]
      exact hw.regSorted k ib hreg0
    · exact hw.regSorted j ib' hold
  · intro j ib' h'
    rcases hperj j ib' h' with ⟨hjk, hib'⟩ | ⟨hjk, hold⟩
    · rw [hib', hibfty]
      exact hw.regNonempty k ib hreg0
    · exact hw.regNonempty j ib' hold
  · intro j ib' h'
    rcases hperj j ib' h' with ⟨hjk, hib'⟩ | ⟨hjk, hold⟩
    · rw [hib', hibfmem]
      exact hw.regKeysNodup k ib hreg0
    · exact hw.regKeysNodup j ib' hold
  · intro j ib' h'
    rcases hperj j ib' h' with ⟨hjk, hib'⟩ | ⟨hjk, hold⟩
    · rw [hib', hibfty]
      intro t ht
      exact ensureAll_isSome_mono ets _ t (hw.regRegistered k ib hreg0 t ht)
    · intro t ht
      exact ensureAll_isSome_mono ets _ t (hw.regRegistered j ib' hold t ht)
  · intro p j hp
    obtain ⟨ib0, h0, htys0⟩ := hw.trieSound p j hp
    by_cases hjk : j = k
    · refine ⟨ibf, ?_, ?_⟩
      · rw [hjk]
        exact hregk
      · rw [hibfty]
        have heq0 : ib0 = ib := by
          rw [hjk] at h0
          exact Option.some.inj (h0.symm.trans hreg0)
        rw [← heq0]
        exact htys0
    · refine ⟨ib0, ?_, htys0⟩
      rw [hregj j hjk]
      exact h0
  · intro j ib' h'
    rcases hperj j ib' h' with ⟨hjk, hib'⟩ | ⟨hjk, hold⟩
    · rw [hib', hibfty, hjk]
      exact hw.trieComplete k ib hreg0
    · exact hw.trieComplete j ib' hold
  · intro t ids hids
    obtain ⟨hnd0, hsnd0⟩ := hw.ibcSound t ids hids
    refine ⟨hnd0, ?_⟩
    intro j hj
    obtain ⟨ib0, h0, htyp⟩ := hsnd0 j hj
    by_cases hjk : j = k
    · refine ⟨ibf, ?_, ?_⟩
      · rw [hjk]
        exact hregk
      · rw [hibfty]
        have heq0 : ib0 = ib := by
          rw [hjk] at h0
          exact Option.some.inj (h0.symm.trans hreg0)
        rw [← heq0]
        exact htyp
    · refine ⟨ib0, ?_, htyp⟩
      rw [hregj j hjk]
      exact h0
  · intro j ib' h' t ht
    rcases hperj j ib' h' with ⟨hjk, hib'⟩ | ⟨hjk, hold⟩
    · rw [hib', hibfty] at ht
      obtain ⟨ids, hids, hjmem⟩ := hw.ibcComplete k ib hreg0 t ht
      refine ⟨ids, hids, ?_⟩
      rw [hjk]
      exact hjmem
    · exact hw.ibcComplete j ib' hold t ht
  · intro j ib' h' x
    rcases hperj j ib' h' with ⟨hjk, hib'⟩ | ⟨hjk, hold⟩
    · rw [hib', hibfmem, hibfty]
      rw [hw.coherent k ib hreg0 x]
      constructor
      · rintro ⟨h5, hall⟩
        refine ⟨h5, fun t ht => ?_⟩
        show hasComp (ensureAll w.components ets) x t = true
        rw [hHasE]
        exact hall t ht
      · rintro ⟨h5, hall⟩
        refine ⟨h5, fun t ht => ?_⟩
        have h6 : hasComp (ensureAll w.components ets) x t = true := hall t ht
        rw [hHasE] at h6
        exact h6
    · rw [hw.coherent j ib' hold x]
      constructor
      · rintro ⟨h5, hall⟩
        refine ⟨h5, fun t ht => ?_⟩
        show hasComp (ensureAll w.components ets) x t = true
        rw [hHasE]
        exact hall t ht
      · rintro ⟨h5, hall⟩
        refine ⟨h5, fun t ht => ?_⟩
        have h6 : hasComp (ensureAll w.components ets) x t = true := hall t ht
        rw [hHasE] at h6
        exact h6

theorem wfw_extend (w w3 : World) (hw : WFW w) (ts ets : List Nat)
    (ib1 : IndexBase (Option Comp))
    (hsort : ts.Sorted (· < ·))
    (htsne : ts ≠ [])
    (htsreg : ∀ t ∈ ts, (aget (ensureAll w.components ets) t).isSome = true)
    (htr : getInTrie w.trie ts = none)
    (hf1 : w3.entitySequence = w.entitySequence)
    (hf2 : w3.entities = w.entities)
    (hf3 : w3.components = ensureAll w.components ets)
    (hf4 : w3.trie = setInTrie w.trie ts w.registry.length)
    (hf5 : w3.indexesByComponent
      = indexesByComponentAdd w.indexesByComponent w.registry.length ts)
    (hfin : w3.registry[w.registry.length]? = some ib1)
    (hfrj : ∀ j : Nat, j ≠ w.registry.length → w3.registry[j]? = w.registry[j]?)
    (htys1 : ib1.types = ts)
    (hmem1 : ∀ x : Int, (aget ib1.entityISByEntity x).isSome = true ↔
      x ∈ w.entities ∧ ∀ t ∈ ts, hasComp w.components x t = true)
    (hnd1 : (ib1.entityISByEntity.map Prod.fst).Nodup) :
    WFW { w3 with
          registry := w3.registry.set w.registry.length
            { ib1 with
              addVerObserved := true,
              remVerObserved := true } } := by
  have hklen3 : w.registry.length < w3.registry.length :=
    (List.getElem?_eq_some_iff.mp hfin).1
  obtain ⟨hkeysf, hmemf⟩ := ensureAll_inv ets w.components
  have hHasE : ∀ (x : Int) (t' : Nat),
      hasComp (ensureAll w.components ets) x t' = hasComp w.components x t' :=
    fun x t' => hasComp_ensureAll ets w.components x t'
  have htsnodup : ts.Nodup := hsort.imp (fun h => Nat.ne_of_lt h)
  have hibc : ∀ t' : Nat,
      aget (indexesByComponentAdd w.indexesByComponent w.registry.length ts) t'
        = (if t' ∈ ts
           then some ((aget w.indexesByComponent t').getD [] ++ [w.registry.length])
           else aget w.indexesByComponent t') :=
    fun t' => aget_ibcAdd ts w.indexesByComponent w.registry.length t' htsnodup
  have holdlt : ∀ (j : Nat) (ib' : IndexBase (Option Comp)),
      w.registry[j]? = some ib' → j < w.registry.length :=
    fun j ib' h => (List.getElem?_eq_some_iff.mp h).1
  have holdne : ∀ (j : Nat) (ib' : IndexBase (Option Comp)),
      w.registry[j]? = some ib' → ib'.types ≠ ts := by
    intro j ib' h hcon
    have h2 := hw.trieComplete j ib' h
    rw [hcon, htr] at h2
    exact Option.noConfusion h2
  generalize hibf : ({ ib1 with addVerObserved := true, remVerObserved := true } :
    IndexBase (Option Comp)) = ibf
  have hibfty : ibf.types = ib1.types := by
    rw [← hibf]
  have hibfmem : ibf.entityISByEntity = ib1.entityISByEntity := by
    rw [← hibf]
  have hregk : (w3.registry.set w.registry.length ibf)[w.registry.length]? = some ibf := by
    rw [List.getElem?_set, if_pos rfl, if_pos hklen3]
  have hregj : ∀ j : Nat, j ≠ w.registry.length →
      (w3.registry.set w.registry.length ibf)[j]? = w.registry[j]? := by
    intro j hj
    rw [List.getElem?_set, if_neg (fun hc => hj hc.symm)]
    exact hfrj j hj
  have hperj : ∀ (j : Nat) (ib' : IndexBase (Option Comp)),
      (w3.registry.set w.registry.length ibf)[j]? = some ib' →
      (j = w.registry.length ∧ ib' = ibf) ∨
        (j ≠ w.registry.length ∧ w.registry[j]? = some ib') := by
    intro j ib' h'
    by_cases hjk : j = w.registry.length
    · rw [hjk, hregk] at h'
      left
      refine ⟨hjk, ?_⟩
      injection h' with h2
      exact h2.symm
    · right
      rw [hregj j hjk] at h'
      exact ⟨hjk, h'⟩
  refine ⟨?_, ?_, ?_, ?_, ?_, ?_, ?_, ?_, ?_, ?_, ?_, ?_, ?_, ?_, ?_, ?_⟩
  · show (0 : Int) ≤ w3.entitySequence
    rw [hf1]
    exact hw.seqNonneg
  · show w3.entities.Nodup
    rw [hf2]
    exact hw.entNodup
  · show ∀ e ∈ w3.entities, e = -2 ∨ e < w3.entitySequence
    rw [hf2, hf1]
    exact hw.liveLt
  · show (w3.components.map Prod.fst).Nodup
    rw [hf3]
    exact hkeysf hw.compKeysNodup
  · show ∀ p ∈ w3.components, (p.2.map Prod.fst).Nodup
    rw [hf3]
    intro p hp
    rcases hmemf p hp with h | h
    · exact hw.storNodup p h
    · rw [h]
      simp
  · show ∀ p ∈ w3.components, ∀ q ∈ p.2, (q.2).type = p.1
    rw [hf3]
    intro p hp q hq
    rcases hmemf p hp with h | h
    · exact hw.wellKeyed p h q hq
    · rw [h] at hq
      exact absurd hq (List.not_mem_nil q)
  · show ∀ p ∈ w3.components, ∀ q ∈ p.2, q.1 ∈ w3.entities
    rw [hf3, hf2]
    intro p hp q hq
    rcases hmemf p hp with h | h
    · exact hw.holdersLive p h q hq
    · rw [h] at hq
      exact absurd hq (List.not_mem_nil q)
  · intro j ib' h'
    rcases hperj j ib' h' with ⟨hjk, hib'⟩ | ⟨hjk, hold⟩
    · rw [hib', hibfty, htys1]
      exact hsort
    · exact hw.regSorted j ib' hold
  · intro j ib' h'
    rcases hperj j ib' h' with ⟨hjk, hib'⟩ | ⟨hjk, hold⟩
    · rw [hib', hibfty, htys1]
      exact htsne
    · exact hw.regNonempty j ib' hold
  · intro j ib' h'
    rcases hperj j ib' h' with ⟨hjk, hib'⟩ | ⟨hjk, hold⟩
    · rw [hib', hibfmem]
      exact hnd1
    · exact hw.regKeysNodup j ib' hold
  · intro j ib' h'
    rcases hperj j ib' h' with ⟨hjk, hib'⟩ | ⟨hjk, hold⟩
    · rw [hib', hibfty, htys1]
      intro t ht
      show (aget w3.components t).isSome = true
      rw [hf3]
      exact htsreg t ht
    · intro t ht
      show (aget w3.components t).isSome = true
      rw [hf3]
      exact ensureAll_isSome_mono ets _ t (hw.regRegistered j ib' hold t ht)
  · intro p j hp
    have hp' : getInTrie w3.trie p = some j := hp
    rw [hf4, getInTrie_setInTrie] at hp'
    by_cases hpt : p = ts
    · rw [if_pos hpt] at hp'
      have hjk := Option.some.inj hp'
      refine ⟨ibf, ?_, ?_⟩
      · show (w3.registry.set w.registry.length ibf)[j]? = some ibf
        rw [← hjk]
        exact hregk
      · rw [hibfty, htys1]
        exact hpt.symm
    · rw [if_neg hpt] at hp'
      obtain ⟨ib0, h0, htys0⟩ := hw.trieSound p j hp'
      have hjn : j ≠ w.registry.length := Nat.ne_of_lt (holdlt j ib0 h0)
      refine ⟨ib0, ?_, htys0⟩
      show (w3.registry.set w.registry.length ibf)[j]? = some ib0
      rw [hregj j hjn]
      exact h0
  · intro j ib' h'
    rcases hperj j ib' h' with ⟨hjk, hib'⟩ | ⟨hjk, hold⟩
    · rw [hib']
      show getInTrie w3.trie ibf.types = some j
      rw [hibfty, htys1, hf4, getInTrie_setInTrie, if_pos rfl, hjk]
    · show getInTrie w3.trie ib'.types = some j
      rw [hf4, getInTrie_setInTrie, if_neg (holdne j ib' hold)]
      exact hw.trieComplete j ib' hold
  · intro t ids hids
    have hids' : aget w3.indexesByComponent t = some ids := hids
    rw [hf5, hibc t] at hids'
    by_cases htts : t ∈ ts
    · rw [if_pos htts] at hids'
      have heq2 : (aget w.indexesByComponent t).getD [] ++ [w.registry.length] = ids :=
        Option.some.inj hids'
      obtain ⟨hnodX, hsndX⟩ : ((aget w.indexesByComponent t).getD []).Nodup ∧
          ∀ j ∈ (aget w.indexesByComponent t).getD [],
            ∃ ib0 : IndexBase (Option Comp),
              w.registry[j]? = some ib0 ∧ t ∈ ib0.types := by
        rcases hold0 : aget w.indexesByComponent t with _ | ids0
        · exact ⟨List.nodup_nil, fun j hj => absurd hj (List.not_mem_nil j)⟩
        · exact hw.ibcSound t ids0 hold0
      rw [← heq2]
      constructor
      · refine List.Nodup.append hnodX (by simp) ?_
        intro a ha hb
        simp at hb
        obtain ⟨ib0, h0, -⟩ := hsndX a ha
        have h2 := holdlt a ib0 h0
        omega
      · intro j hj
        rcases List.mem_append.mp hj with hjX | hjk2
        · obtain ⟨ib0, h0, htyp⟩ := hsndX j hjX
          have hjn : j ≠ w.registry.length := Nat.ne_of_lt (holdlt j ib0 h0)
          refine ⟨ib0, ?_, htyp⟩
          show (w3.registry.set w.registry.length ibf)[j]? = some ib0
          rw [hregj j hjn]
          exact h0
        · simp at hjk2
          refine ⟨ibf, ?_, ?_⟩
          · show (w3.registry.set w.registry.length ibf)[j]? = some ibf
            rw [hjk2]
            exact hregk
          · rw [hibfty, htys1]
            exact htts
    · rw [if_neg htts] at hids'
      obtain ⟨hnd0, hsnd0⟩ := hw.ibcSound t ids hids'
      refine ⟨hnd0, ?_⟩
      intro j hj
      obtain ⟨ib0, h0, htyp⟩ := hsnd0 j hj
      have hjn : j ≠ w.registry.length := Nat.ne_of_lt (holdlt j ib0 h0)
      refine ⟨ib0, ?_, htyp⟩
      show (w3.registry.set w.registry.length ibf)[j]? = some ib0
      rw [hregj j hjn]
      exact h0
  · intro j ib' h' t ht
    rcases hperj j ib' h' with ⟨hjk, hib'⟩ | ⟨hjk, hold⟩
    · rw [hib'] at ht
      rw [hibfty, htys1] at ht
      show ∃ ids, aget w3.indexesByComponent t = some ids ∧ j ∈ ids
      rw [hf5, hibc t, if_pos ht]
      refine ⟨_, rfl, ?_⟩
      rw [hjk]
      exact List.mem_append.mpr (Or.inr (by simp))
    · obtain ⟨ids0, hold0, hjmem⟩ := hw.ibcComplete j ib' hold t ht
      show ∃ ids, aget w3.indexesByComponent t = some ids ∧ j ∈ ids
      rw [hf5, hibc t]
      by_cases htts : t ∈ ts
      · rw [if_pos htts, hold0]
        refine ⟨_, rfl, ?_⟩
        show j ∈ ids0 ++ [w.registry.length]
        exact List.mem_append.mpr (Or.inl hjmem)
      · rw [if_neg htts]
        exact ⟨ids0, hold0, hjmem⟩
  · intro j ib' h' x
    rcases hperj j ib' h' with ⟨hjk, hib'⟩ | ⟨hjk, hold⟩
    · rw [hib', hibfmem, hibfty, htys1]
      rw [hmem1 x]
      constructor
      · rintro ⟨h5, hall⟩
        constructor
        · show x ∈ w3.entities
          rw [hf2]
          exact h5
        · intro t ht
          show hasComp w3.components x t = true
          rw [hf3, hHasE]
          exact hall t ht
      · rintro ⟨h5, hall⟩
        have h5' : x ∈ w3.entities := h5
        rw [hf2] at h5'
        refine ⟨h5', ?_⟩
        intro t ht
        have h6 : hasComp w3.components x t = true := hall t ht
        rw [hf3, hHasE] at h6
        exact h6
    · rw [hw.coherent j ib' hold x]
      constructor
      · rintro ⟨h5, hall⟩
        constructor
        · show x ∈ w3.entities
          rw [hf2]
          exact h5
        · intro t ht
          show hasComp w3.components x t = true
          rw [hf3, hHasE]
          exact hall t ht
      · rintro ⟨h5, hall⟩
        have h5' : x ∈ w3.entities := h5
        rw [hf2] at h5'
        refine ⟨h5', ?_⟩
        intro t ht
        have h6 : hasComp w3.components x t = true := hall t ht
        rw [hf3, hHasE] at h6
        exact h6

theorem index_preserves (w : World) (spec : List (Nat × Nat)) (hw : WFW w)
    (hne : spec ≠ [])
    (hnd : hasAdjacentDup ((sortByLe (fun a b => Nat.ble a.2 b.2) spec).map Prod.snd)
      = false) :
    WFW (World.index w spec).1 := by
  have hpw := pairwise_sortByLe (fun a b : Nat × Nat => Nat.ble a.2 b.2)
    (fun a b hab => by
      have hab2 : Nat.ble a.2 b.2 = false := hab
      show Nat.ble b.2 a.2 = true
      have h2 : ¬ a.2 ≤ b.2 := by
        rw [← Nat.ble_eq, hab2]
        simp
      rw [Nat.ble_eq]
      omega)
    (fun a b c h1 h2 => by
      have h1b : Nat.ble a.2 b.2 = true := h1
      have h2b : Nat.ble b.2 c.2 = true := h2
      show Nat.ble a.2 c.2 = true
      rw [Nat.ble_eq] at h1b h2b ⊢
      omega) spec
  have hpw2 : ((sortByLe (fun a b : Nat × Nat => Nat.ble a.2 b.2) spec).map
      Prod.snd).Sorted (· ≤ ·) := by
    refine List.Pairwise.map _ ?_ hpw
    intro a b hab
    have hab2 : Nat.ble a.2 b.2 = true := hab
    show a.2 ≤ b.2
    rw [← Nat.ble_eq]
    exact hab2
  have hsortedP : (((sortByLe (fun a b => Nat.ble a.2 b.2) spec).map
      Prod.snd)).Sorted (· < ·) := sorted_lt_of_le_noAdjDup _ hpw2 hnd
  have htsne : ((sortByLe (fun a b => Nat.ble a.2 b.2) spec).map Prod.snd) ≠ [] := by
    obtain ⟨p, hp⟩ := List.exists_mem_of_ne_nil spec hne
    exact List.ne_nil_of_mem
      (List.mem_map.mpr ⟨p, (mem_sortByLe _ _ _).mpr hp, rfl⟩)
  have htsreg : ∀ t ∈ ((sortByLe (fun a b => Nat.ble a.2 b.2) spec).map Prod.snd),
      (aget (ensureAll w.components (spec.map Prod.snd)) t).isSome = true := by
    intro t ht
    obtain ⟨p, hp, hpe⟩ := List.mem_map.mp ht
    refine ensureAll_isSome_of_mem _ _ _ ?_
    rw [← hpe]
    exact List.mem_map.mpr ⟨p, (mem_sortByLe _ _ _).mp hp, rfl⟩
  rcases htr : getInTrie w.trie
      ((sortByLe (fun a b => Nat.ble a.2 b.2) spec).map Prod.snd) with _ | k
  · obtain ⟨hok, hfr, ib1, hfin, htys1, hmem1, hnd1⟩ :=
      seedLoop_spec w.entities
        { entitySequence := w.entitySequence, entities := w.entities,
          components := ensureAll w.components (spec.map Prod.snd),
          registry := w.registry
            ++ [IndexBase.new ((sortByLe (fun a b => Nat.ble a.2 b.2) spec).map Prod.snd)],
          trie := setInTrie w.trie
            ((sortByLe (fun a b => Nat.ble a.2 b.2) spec).map Prod.snd) w.registry.length,
          indexesByComponent := indexesByComponentAdd w.indexesByComponent
            w.registry.length
            ((sortByLe (fun a b => Nat.ble a.2 b.2) spec).map Prod.snd) }
        w.registry.length
        (IndexBase.new ((sortByLe (fun a b => Nat.ble a.2 b.2) spec).map Prod.snd))
        (by
          show (w.registry
            ++ [IndexBase.new ((sortByLe (fun a b => Nat.ble a.2 b.2) spec).map
              Prod.snd)])[w.registry.length]? = _
          rw [List.getElem?_append_right (le_refl _)]
          simp)
        (by
          intro t ht
          exact htsreg t ht)
    obtain ⟨hg1, hg2, hg3, hg4, hg5, hg6⟩ :=
      seedLoop_frame w.entities
        { entitySequence := w.entitySequence, entities := w.entities,
          components := ensureAll w.components (spec.map Prod.snd),
          registry := w.registry
            ++ [IndexBase.new ((sortByLe (fun a b => Nat.ble a.2 b.2) spec).map Prod.snd)],
          trie := setInTrie w.trie
            ((sortByLe (fun a b => Nat.ble a.2 b.2) spec).map Prod.snd) w.registry.length,
          indexesByComponent := indexesByComponentAdd w.indexesByComponent
            w.registry.length
            ((sortByLe (fun a b => Nat.ble a.2 b.2) spec).map Prod.snd) }
        w.registry.length
    rcases hsc : World.seedLoop
        { entitySequence := w.entitySequence, entities := w.entities,
          components := ensureAll w.components (spec.map Prod.snd),
          registry := w.registry
            ++ [IndexBase.new ((sortByLe (fun a b => Nat.ble a.2 b.2) spec).map Prod.snd)],
          trie := setInTrie w.trie
            ((sortByLe (fun a b => Nat.ble a.2 b.2) spec).map Prod.snd) w.registry.length,
          indexesByComponent := indexesByComponentAdd w.indexesByComponent
            w.registry.length
            ((sortByLe (fun a b => Nat.ble a.2 b.2) spec).map Prod.snd) }
        w.registry.length w.entities with ⟨w3, res⟩
    rw [hsc] at hok hfr hfin hg1 hg2 hg3 hg4 hg5 hg6
    dsimp only at hok hfr hfin hg1 hg2 hg3 hg4 hg5 hg6
    dsimp only [IndexBase.new] at hmem1
    rcases res with m | u
    · exact Except.noConfusion hok
    have hfrj : ∀ j : Nat, j ≠ w.registry.length → w3.registry[j]? = w.registry[j]? := by
      intro j hj
      rw [hfr j hj]
      by_cases hlt : j < w.registry.length
      · rw [List.getElem?_append]
        rw [if_pos hlt]
      · have hge : w.registry.length ≤ j := Nat.le_of_not_lt hlt
        have h1 : w.registry[j]? = none := List.getElem?_eq_none hge
        have h2 : (w.registry
            ++ [IndexBase.new ((sortByLe (fun a b => Nat.ble a.2 b.2) spec).map
              Prod.snd)])[j]? = none := by
          apply List.getElem?_eq_none
          simp
          omega
        rw [h1, h2]
    have htys1b : ib1.types
        = ((sortByLe (fun a b => Nat.ble a.2 b.2) spec).map Prod.snd) := htys1
    have hmem1c : ∀ x : Int, (aget ib1.entityISByEntity x).isSome = true ↔
        x ∈ w.entities ∧
          ∀ t ∈ ((sortByLe (fun a b => Nat.ble a.2 b.2) spec).map Prod.snd),
            hasComp w.components x t = true := by
      intro x
      constructor
      · intro hx
        rw [hmem1 x] at hx
        split at hx
        · rename_i hc
          obtain ⟨h5, hall⟩ := hc
          refine ⟨h5, fun t ht => ?_⟩
          have h6 : hasComp (ensureAll w.components (spec.map Prod.snd)) x t = true :=
            hall t ht
          rw [hasComp_ensureAll] at h6
          exact h6
        · exact Bool.noConfusion (show false = true from hx)
      · rintro ⟨h5, hall⟩
        rw [hmem1 x]
        have hc : x ∈ w.entities ∧
            ∀ t ∈ ((sortByLe (fun a b => Nat.ble a.2 b.2) spec).map Prod.snd),
              hasComp (ensureAll w.components (spec.map Prod.snd)) x t = true := by
          refine ⟨h5, fun t ht => ?_⟩
          rw [hasComp_ensureAll]
          exact hall t ht
        rw [if_pos hc]
    have hnd1b : (ib1.entityISByEntity.map Prod.fst).Nodup := by
      refine hnd1 ?_
      show (([] : List (Int × Nat)).map Prod.fst).Nodup
      simp
    have heq : World.index w spec
        = ({ w3 with
              registry := w3.registry.set w.registry.length
                (mkIndexIterator ib1
                  ((sortByLe (fun a b => Nat.ble a.2 b.2) spec).map Prod.fst)).2 },
           Except.ok (mkIndexIterator ib1
             ((sortByLe (fun a b => Nat.ble a.2 b.2) spec).map Prod.fst)).1) := by
      unfold World.index
      dsimp only
      rw [hnd]
      rw [if_neg (fun hfalse => Bool.noConfusion hfalse)]
      simp only [htr, hsc, hfin]
    rw [heq]
    exact wfw_extend w w3 hw
      ((sortByLe (fun a b => Nat.ble a.2 b.2) spec).map Prod.snd)
      (spec.map Prod.snd) ib1 hsortedP htsne htsreg htr hg1 hg2 hg3 hg4 hg5 hfin hfrj
      htys1b hmem1c hnd1b
  · rcases hreg0 : w.registry[k]? with _ | ib
    · obtain ⟨ib, hib, -⟩ := hw.trieSound _ k htr
      rw [hreg0] at hib
      exact Option.noConfusion hib
    · have heq : World.index w spec
          = ({ w with
                components := ensureAll w.components (spec.map Prod.snd),
                registry := w.registry.set k
                  (mkIndexIterator ib
                    ((sortByLe (fun a b => Nat.ble a.2 b.2) spec).map Prod.fst)).2 },
             Except.ok (mkIndexIterator ib
               ((sortByLe (fun a b => Nat.ble a.2 b.2) spec).map Prod.fst)).1) := by
        unfold World.index
        dsimp only
        rw [hnd]
        rw [if_neg (fun hfalse => Bool.noConfusion hfalse)]
        simp only [htr, hreg0]
      rw [heq]
      exact wfw_flagged w hw k ib hreg0 (spec.map Prod.snd)

theorem wfw_run (ops : List WOp) : ∀ (w : World), WFW w → legalRun w ops = true →
    WFW (runWOps w ops) := by
  induction ops with
  | nil =>
    intro w hw _
    exact hw
  | cons op rest ih =>
    intro w hw hleg
    have hleg2 : (legalWOp w op && legalRun (applyWOp w op).1 rest) = true := hleg
    rw [Bool.and_eq_true] at hleg2
    have hstep : runWOps w (op :: rest) = runWOps (applyWOp w op).1 rest := rfl
    rw [hstep]
    refine ih (applyWOp w op).1 ?_ hleg2.2
    cases op with
    | create cs =>
      have h2 : (!hasAdjacentDup (sortLe (cs.map Comp.type))) = true := hleg2.1
      have hnd : hasAdjacentDup (sortLe (cs.map Comp.type)) = false := by
        rcases hb : hasAdjacentDup (sortLe (cs.map Comp.type)) with _ | _
        · rfl
        · rw [hb] at h2
          simp at h2
      exact create_preserves w cs hw hnd
    | insert e cs =>
      have h2 : decide (e ≠ w.entitySequence) = true := hleg2.1
      exact insert_preserves w e cs hw (of_decide_eq_true h2)
    | emplace e c =>
      exact emplace_preserves w e c hw
    | remove e t =>
      exact remove_preserves w e t hw
    | destroy e =>
      exact destroy_preserves w e hw
    | index spec =>
      have h2 : (decide (spec ≠ []) &&
          !hasAdjacentDup ((sortByLe (fun a b => Nat.ble a.2 b.2) spec).map Prod.snd))
            = true := hleg2.1
      rw [Bool.and_eq_true] at h2
      have hne : spec ≠ [] := of_decide_eq_true h2.1
      have hnd : hasAdjacentDup ((sortByLe (fun a b => Nat.ble a.2 b.2) spec).map
          Prod.snd) = false := by
        have h3 := h2.2
        rwa [Bool.not_eq_true'] at h3
      exact index_preserves w spec hw hne hnd
    | registerSingleton c =>
      exact registerSingleton_preserves w c hw

theorem destroy_cleanup (w : World) (e : Int) (hw : WFW w) :
    e ∉ (World.destroy w e).1.entities ∧
    (∀ t : Nat, hasComp (World.destroy w e).1.components e t = false) ∧
    (∀ (k : Nat) (ib : IndexBase (Option Comp)),
      (World.destroy w e).1.registry[k]? = some ib →
      (aget ib.entityISByEntity e).isSome = false) := by
  unfold World.destroy
  dsimp only
  have hHas : ∀ (x : Int) (t' : Nat),
      hasComp (destroyScan e w.components).1 x t'
        = (if x = e then false else hasComp w.components x t') :=
    fun x t' => hasComp_destroyScan e w.components x t'
  have htypesNodup : (destroyScan e w.components).2.1.Nodup :=
    destroyScan_types_nodup e w.components hw.wellKeyed hw.compKeysNodup
  have htypesSorted : (sortLe (destroyScan e w.components).2.1).Sorted (· < ·) :=
    sortLe_sorted_lt _ htypesNodup
  have htypesMem : ∀ t', t' ∈ sortLe (destroyScan e w.components).2.1 ↔
      hasComp w.components e t' = true := by
    intro t'
    rw [mem_sortLe]
    exact mem_destroyScan_types e w.components t' hw.wellKeyed hw.compKeysNodup
  have hmatched : ∀ (k : Nat) (ib : IndexBase (Option Comp)), w.registry[k]? = some ib →
      (k ∈ walkIds w.trie (sortLe (destroyScan e w.components).2.1) ↔
        ∀ t' ∈ ib.types, hasComp w.components e t' = true) := by
    intro k ib hk
    rw [walkIds_matched w hw]
    constructor
    · rintro ⟨ib', hib', hsub⟩
      have heq : ib' = ib := by
        rw [hib'] at hk
        injection hk
      rw [heq] at hsub
      intro t' ht'
      rw [← htypesMem t']
      exact subset_of_sublist _ _ ((isSubseq_iff_sublist _ _).mp hsub) ht'
    · intro hall
      refine ⟨ib, hk, ?_⟩
      rw [isSubseq_iff_subset_sorted _ _ (hw.regSorted k ib hk) htypesSorted]
      intro t' ht'
      rw [htypesMem t']
      exact hall t' ht'
  have hregs := removeFromIndexes_spec (walkIds w.trie (sortLe (destroyScan e w.components).2.1))
    { entitySequence := w.entitySequence, entities := setDel w.entities e,
      components := (destroyScan e w.components).1, registry := w.registry,
      trie := w.trie, indexesByComponent := w.indexesByComponent } e
  obtain ⟨hf1, hf2, hf3, hf4, hf5, hf6⟩ :=
    removeFromIndexes_frame (walkIds w.trie (sortLe (destroyScan e w.components).2.1))
    { entitySequence := w.entitySequence, entities := setDel w.entities e,
      components := (destroyScan e w.components).1, registry := w.registry,
      trie := w.trie, indexesByComponent := w.indexesByComponent } e
  refine ⟨?_, ?_, ?_⟩
  · rw [hf2]
    intro hmem
    have hm2 : e ∈ setDel w.entities e := hmem
    exact ((mem_setDel _ _ _).mp hm2).2 rfl
  · intro t
    rw [hf3]
    show hasComp (destroyScan e w.components).1 e t = false
    rw [hHas, if_pos rfl]
  · intro k ib1 h1
    have hlen : k < w.registry.length := by
      have h2 := (List.getElem?_eq_some_iff.mp h1).1
      rw [hf6] at h2
      exact h2
    rcases hn : w.registry[k]? with _ | ib0
    · rw [List.getElem?_eq_none_iff] at hn
      omega
    · obtain ⟨ib1', hfin, htys', hx', hnd', hmemfalse, hnotin⟩ := hregs k ib0 hn
      have heq : ib1' = ib1 := by
        rw [hfin] at h1
        injection h1
      rw [heq] at hmemfalse hnotin
      by_cases hkmem : k ∈ walkIds w.trie (sortLe (destroyScan e w.components).2.1)
      · exact hmemfalse hkmem
      · rw [hnotin hkmem]
        rcases hb : (aget ib0.entityISByEntity e).isSome with _ | _
        · rfl
        · exfalso
          have hco := (hw.coherent k ib0 hn e).mp hb
          exact hkmem ((hmatched k ib0 hn).mpr hco.2)

/-- Claim C1 is false as stated: the index-coherence invariant does not hold
after arbitrary operation sequences. Counterexample: register an index on
types `{0, 1}`, then `insert` entity `0` (which aliases the internal entity
sequence and does not advance it) with a type-0 component, then `create` a
type-1 component: `create` reuses id `0`, so after it entity `0` is live and
holds both types `0` and `1`, yet it was never added to the `{0, 1}` index —
`create` only walks indexes whose types are a subsequence of the freshly
created component list `[1]`. -/
theorem claimC1_counterexample :
    ¬ Coherent (runWOps World.new
      [WOp.index [(10, 0), (11, 1)], WOp.insert 0 [⟨0, 5, false⟩],
       WOp.create [⟨1, 7, false⟩]]) := by
  intro hco
  rcases hreg : (runWOps World.new
      [WOp.index [(10, 0), (11, 1)], WOp.insert 0 [⟨0, 5, false⟩],
       WOp.create [⟨1, 7, false⟩]]).registry[0]? with _ | ib
  · have h1 : ((runWOps World.new
        [WOp.index [(10, 0), (11, 1)], WOp.insert 0 [⟨0, 5, false⟩],
         WOp.create [⟨1, 7, false⟩]]).registry[0]?).isSome = true := by decide
    rw [hreg] at h1
    exact Bool.noConfusion h1
  · have h3 : ((runWOps World.new
        [WOp.index [(10, 0), (11, 1)], WOp.insert 0 [⟨0, 5, false⟩],
         WOp.create [⟨1, 7, false⟩]]).registry[0]?).map (fun ib => ib.types)
          = some [0, 1] := by decide
    rw [hreg] at h3
    have htypes : ib.types = [0, 1] := Option.some.inj h3
    have hall : ∀ t ∈ ib.types,
        World.has (runWOps World.new
          [WOp.index [(10, 0), (11, 1)], WOp.insert 0 [⟨0, 5, false⟩],
           WOp.create [⟨1, 7, false⟩]]) 0 t = true := by
      intro t ht
      rw [htypes] at ht
      rcases List.mem_cons.mp ht with h | h
      · rw [h]
        decide
      · rcases List.mem_cons.mp h with h' | h'
        · rw [h']
          decide
        · exact absurd h' (List.not_mem_nil t)
    have hmem0 := (hco 0 ib hreg 0 (by decide)).mpr hall
    have h4 : ((runWOps World.new
        [WOp.index [(10, 0), (11, 1)], WOp.insert 0 [⟨0, 5, false⟩],
         WOp.create [⟨1, 7, false⟩]]).registry[0]?).map
          (fun ib => (aget ib.entityISByEntity 0).isSome) = some false := by decide
    rw [hreg] at h4
    have h5 : (aget ib.entityISByEntity 0).isSome = false := Option.some.inj h4
    rw [hmem0] at h5
    exact Bool.noConfusion h5

/-- Claim C1 (amended): the index-coherence invariant holds after every legal
operation sequence from a fresh world — legal meaning no `create` with a
duplicated component type (it throws after storing the components but before
updating the indexes), no `insert` whose entity equals the current entity
sequence (the next `create` would silently reuse it, as the counterexample
shows), and no `index` call with an empty spec or a duplicated type. Under
these side conditions, for every registered `IndexBase` and every live entity
`e`, `e` appears in the index iff `e` holds every component type in its
`types` list. -/
theorem claimC1_amended (ops : List WOp) (h : legalRun World.new ops = true) :
    Coherent (runWOps World.new ops) := by
  have hw := wfw_run ops World.new wfw_new h
  intro k ib hreg e he
  rw [hw.coherent k ib hreg e]
  constructor
  · rintro ⟨-, hall⟩
    exact hall
  · intro hall
    exact ⟨he, hall⟩

/-- Witness for the amended claim C1: a legal run (one index on type `0`,
then one `create` with a type-0 component) yields a coherent world. -/
theorem claimC1_witness :
    Coherent (runWOps World.new [WOp.index [(10, 0)], WOp.create [⟨0, 3, false⟩]]) :=
  claimC1_amended [WOp.index [(10, 0)], WOp.create [⟨0, 3, false⟩]] (by decide)

/-- Claim C3: `World.destroy` performs all its cleanup before any `free` hook
runs. In the model `World.destroy w e` returns the fully cleaned-up world
together with the list of collected components whose class has a `free` hook
(the source invokes `component.free(world, entity)` for exactly these, after
the entity-set delete, the per-storage deletes and the index removals). The
theorem shows that in the returned world — the world every `free` hook
observes, even a throwing or re-entrant one — the destroyed entity is no
longer live, holds no component of any type, and appears in no registered
`IndexBase` at all (in particular in none whose types were a subset of the
entity's former types). -/
theorem claimC3 (ops : List WOp) (e : Int) (h : legalRun World.new ops = true) :
    e ∉ (World.destroy (runWOps World.new ops) e).1.entities ∧
    (∀ t : Nat, World.has (World.destroy (runWOps World.new ops) e).1 e t = false) ∧
    (∀ (k : Nat) (ib : IndexBase (Option Comp)),
      (World.destroy (runWOps World.new ops) e).1.registry[k]? = some ib →
      (aget ib.entityISByEntity e).isSome = false) := by
  have hw := wfw_run ops World.new wfw_new h
  obtain ⟨h1, h2, h3⟩ := destroy_cleanup (runWOps World.new ops) e hw
  exact ⟨h1, fun t => h2 t, h3⟩

/-- Witness for claim C3: destroying entity `0` after a legal run (an index on
type `0`, then a `create` giving entity `0` a type-0 component whose class has
a `free` hook) leaves a world in which `0` is dead, holds nothing, and is in
no index. -/
theorem claimC3_witness :
    (0 : Int) ∉ (World.destroy (runWOps World.new
        [WOp.index [(10, 0)], WOp.create [⟨0, 3, true⟩]]) 0).1.entities ∧
    (∀ t : Nat, World.has (World.destroy (runWOps World.new
        [WOp.index [(10, 0)], WOp.create [⟨0, 3, true⟩]]) 0).1 0 t = false) ∧
    (∀ (k : Nat) (ib : IndexBase (Option Comp)),
      (World.destroy (runWOps World.new
        [WOp.index [(10, 0)], WOp.create [⟨0, 3, true⟩]]) 0).1.registry[k]?
          = some ib →
      (aget ib.entityISByEntity 0).isSome = false) :=
  claimC3 [WOp.index [(10, 0)], WOp.create [⟨0, 3, true⟩]] 0 (by decide)
